import Mathlib

/-!
# AISDI linear containers: `Vector` and `LinkedList`

A shallow embedding of `src/Vector.h` and `src/LinkedList.h`.

* Every member function is a state transformer `M σ ρ = σ → Res σ ρ`; an
  exception keeps the state reached when it was thrown, so "the call fails and
  leaves the container unchanged" is a statement about the returned state.
* Reading or writing outside the allocated buffer, or through a null or
  released node pointer, is undefined behaviour in C++ and is the outcome
  `Res.ub` here.
* The scanning `while` loops of `LinkedList` have no bound of their own; they
  take a step budget and answer `Res.timeout` when it runs out.
* `size` and `maxCapacity` are bounded by the memory of the machine and are
  modelled in `Nat` (`++size` does not wrap, `--size` is truncated subtraction
  and is only reached with `size > 0` from a well-formed container); the index
  arithmetic of the iterators, which the caller controls, is computed modulo
  `2^64` as `size_t` does.
* An iterator is the pair the source stores (owner pointer, position); its
  operators read the owner, which is passed as the state. The theorems are
  about iterators of the container at hand.
* `size_t` and `difference_type` have 64 bits and `int` has 32, as on the
  usual 64-bit platforms; a conversion to a narrower or unsigned type keeps the
  value modulo `2^w`. Overflow of a signed `int` counter, and `std::abs` of the
  least `difference_type`, are undefined behaviour.
* The parameter `const Type &item` of the inserting members of `Vector` is a
  reference (`Vector.Item`) that may point into the vector itself; it is read
  where the source reads it, after `realloc()` and the shift loop. The
  inserting members of `LinkedList` copy `item` into the new node before they
  change a link, so they take the value.
* Objects that exist side by side share a free store. The nodes of every
  `LinkedList` are in the store carried by the state, and a second list is its
  fields seen in that store (`LinkedList.sharing`). The member functions of
  `Vector` are modelled on the content of the buffer the object owns; where
  a statement is about two vectors at once, `Vector.Object` and `Store` place
  the buffers at addresses of a common store.
-/

namespace aisdi

/-! ## Outcomes and the state monad -/

/-- The exceptions the two containers throw (`std::logic_error`,
`std::invalid_argument`, `std::out_of_range`). -/
inductive Exception where
  | logic_error
  | invalid_argument
  | out_of_range
deriving DecidableEq, Repr

/-- Outcome of a call on a state of type `σ` returning a `ρ`. -/
inductive Res (σ ρ : Type) where
  | ok (ret : ρ) (st : σ)
  | throw (e : Exception) (st : σ)
  | ub
  | timeout

/-- State transformers with exceptions. -/
def M (σ ρ : Type) : Type := σ → Res σ ρ

/-- Sequencing: the second computation runs only when the first returned. -/
def M.bind {σ ρ τ : Type} (m : M σ ρ) (f : ρ → M σ τ) : M σ τ := fun s =>
  match m s with
  | Res.ok r s1 => f r s1
  | Res.throw e s1 => Res.throw e s1
  | Res.ub => Res.ub
  | Res.timeout => Res.timeout

instance instMonadM {σ : Type} : Monad (M σ) where
  pure r := fun s => Res.ok r s
  bind := M.bind

/-- The C++ `throw`. -/
def raise {σ ρ : Type} (e : Exception) : M σ ρ := fun s => Res.throw e s

/-- Undefined behaviour. -/
def undefined {σ ρ : Type} : M σ ρ := fun _ => Res.ub

/-- Budget of a scanning loop exhausted. -/
def outOfFuel {σ ρ : Type} : M σ ρ := fun _ => Res.timeout

/-- Read the whole state. -/
def getState {σ : Type} : M σ σ := fun s => Res.ok s s

/-- Replace the state. -/
def modifyState {σ : Type} (f : σ → σ) : M σ Unit := fun s => Res.ok () (f s)

/-- Values of `size_t` are taken modulo this. -/
def SIZE_MOD : Nat := 2 ^ 64

/-! ## Vector -/

/-- A `Vector<Type>` object: its own address (the identity iterators compare),
the buffer `elemArray` (the empty list for `nullptr` and for `new T[0]`),
`maxCapacity` and `size`. -/
structure Vector (α : Type) where
  addr : Nat
  elemArray : List α
  maxCapacity : Nat
  size : Nat

/-- The constant `BEGINNINING_CAPACITY`. -/
def BEGINNINING_CAPACITY : Nat := 16

/-- Class `Vector::ConstIterator`: pointer to the owning vector and an index. The
operations below take the vector pointed to as the state. -/
structure Vector.ConstIterator where
  vector : Nat
  index : Nat
deriving DecidableEq, Repr

/-- Class `Vector::Iterator` derives from `ConstIterator` and adds no data. -/
abbrev Vector.Iterator := Vector.ConstIterator

namespace Vector

variable {α : Type}

/-- Member `ConstIterator::getIndex`. -/
def ConstIterator.getIndex (it : ConstIterator) : Nat := it.index

/-- Expression `elemArray[i]` as an rvalue. -/
def readElem (i : Nat) : M (Vector α) α := fun v =>
  match v.elemArray[i]? with
  | some x => Res.ok x v
  | none => Res.ub

/-- Statement `elemArray[i] = x`. -/
def writeElem (i : Nat) (x : α) : M (Vector α) Unit := fun v =>
  if i < v.elemArray.length then Res.ok () { v with elemArray := v.elemArray.set i x }
  else Res.ub

/-- Member `Vector::isEmpty`. -/
def isEmpty (v : Vector α) : Bool := v.size == 0

/-- Member `Vector::getSize`. -/
def getSize (v : Vector α) : Nat := v.size

/-- Member `Vector::cbegin` (and `begin() const`). -/
def cbegin (v : Vector α) : ConstIterator := ⟨v.addr, 0⟩

/-- Member `Vector::cend` (and `end() const`). -/
def cend (v : Vector α) : ConstIterator := ⟨v.addr, v.size⟩

/-- Member `Vector::begin`: `Iterator(cbegin())`. -/
def begin (v : Vector α) : Iterator := v.cbegin

/-- Member `Vector::end`: `Iterator(cend())`. -/
def «end» (v : Vector α) : Iterator := v.cend

/-- Member `ConstIterator::operator*`: checked read of the element. The
condition `index >= vector->size || vector == nullptr` reads `vector->size`
first: on an iterator without owner that read goes through the null pointer,
which is undefined behaviour, and the comparison with `nullptr` is reached
only when it is false. -/
def ConstIterator.deref (it : ConstIterator) : M (Vector α) α := fun v =>
  if it.vector = 0 then Res.ub
  else if it.index ≥ v.size ∨ it.vector = 0 then Res.throw Exception.out_of_range v
  else readElem it.index v

/-- Statement `*it = x` through `Iterator::operator*`, which performs the check of
`ConstIterator::operator*` and casts the reference. -/
def Iterator.assign (it : Iterator) (x : α) : M (Vector α) Unit := fun v =>
  if it.vector = 0 then Res.ub
  else if it.index ≥ v.size ∨ it.vector = 0 then Res.throw Exception.out_of_range v
  else writeElem it.index x v

/-- Member `ConstIterator::operator++` (prefix); returns the advanced iterator. -/
def ConstIterator.increment (it : ConstIterator) : M (Vector α) ConstIterator := fun v =>
  if (it.index + 1) % SIZE_MOD > v.size then Res.throw Exception.out_of_range v
  else Res.ok ⟨it.vector, (it.index + 1) % SIZE_MOD⟩ v

/-- Member `ConstIterator::operator--` (prefix). -/
def ConstIterator.decrement (it : ConstIterator) : M (Vector α) ConstIterator := fun v =>
  if it.index = 0 then Res.throw Exception.out_of_range v
  else Res.ok ⟨it.vector, it.index - 1⟩ v

/-- The `size_t` value of `index + d` for a `difference_type` `d`. -/
def indexPlus (index : Nat) (d : Int) : Nat := (((index : Int) + d) % (SIZE_MOD : Int)).toNat

/-- The `size_t` value of `index - d`. -/
def indexMinus (index : Nat) (d : Int) : Nat := (((index : Int) - d) % (SIZE_MOD : Int)).toNat

/-- Member `ConstIterator::operator+`. -/
def ConstIterator.plus (it : ConstIterator) (d : Int) : M (Vector α) ConstIterator := fun v =>
  if indexPlus it.index d > v.size then Res.throw Exception.out_of_range v
  else Res.ok ⟨it.vector, indexPlus it.index d⟩ v

/-- Member `ConstIterator::operator-`: the guard compares with `(size_t) d`. -/
def ConstIterator.minus (it : ConstIterator) (d : Int) : M (Vector α) ConstIterator := fun v =>
  if it.index < indexPlus 0 d then Res.throw Exception.out_of_range v
  else Res.ok ⟨it.vector, indexMinus it.index d⟩ v

/-- The loop of `std::copy(first, last, temp)` in `realloc`, `temp` being a raw
pointer into the new buffer and `k` the offset reached:
`for (; first != last; ++temp, ++first) *temp = *first;`.
`first` moves at most `size + 1` times before `++first` throws, which bounds the
recursion. -/
def copyToArray : Nat → ConstIterator → ConstIterator → List α → Nat → M (Vector α) (List α)
  | 0, _, _, _, _ => outOfFuel
  | n + 1, first, last, temp, k =>
    if first = last then pure temp
    else do
      let x ← first.deref
      if k < temp.length then
        let first1 ← first.increment
        copyToArray n first1 last (temp.set k x) (k + 1)
      else undefined

/-- Member `Vector::realloc`. A fresh `new value_type[n]` is modelled as `n` copies of
`default` (its content is unspecified for scalar types). -/
def realloc [Inhabited α] : M (Vector α) Unit := do
  let v ← getState
  let cap := if v.maxCapacity = 0 then BEGINNINING_CAPACITY else v.maxCapacity * 2
  modifyState fun v => { v with maxCapacity := cap }
  let v1 ← getState
  let temp ← copyToArray (v1.size + 1) v1.cbegin v1.cend (List.replicate cap default) 0
  modifyState fun v => { v with elemArray := temp }

/-- The loop of `insert`:
`for (size_type i = size; i > index; --i) elemArray[i] = elemArray[i - 1];`
with `i` the loop variable. -/
def insertLoop (index : Nat) : Nat → M (Vector α) Unit
  | 0 => pure ()
  | i + 1 =>
    if i + 1 > index then do
      let x ← readElem i
      writeElem (i + 1) x
      insertLoop index i
    else pure ()

/-- The object that the parameter `const Type &item` of `insert`, `append` and
`prepend` refers to: an object `outside` the buffer of the vector, holding `x`,
or the `element` `elemArray[k]` of the buffer that the vector has when the call
is made (what `*(begin() + k)` refers to). -/
inductive Item (α : Type) where
  | outside (x : α)
  | element (k : Nat)

/-- Read of `item` in `elemArray[index] = item`. `reallocated` tells whether
`realloc` has run in this call: it has released (`delete[]`) the buffer that an
`element` reference points into, and the read is undefined behaviour.
Otherwise the reference is to `elemArray[k]` as the shift loop has left it. -/
def Item.read (reallocated : Bool) : Item α → M (Vector α) α
  | Item.outside x => pure x
  | Item.element k => if reallocated then undefined else readElem k

/-- Member `Vector::insert`. The reference `item` is read only in the
assignment that follows `realloc()` and the shift loop. -/
def insert [Inhabited α] (insertPosition : ConstIterator) (item : Item α) : M (Vector α) Unit := do
  let v ← getState
  if v.size ≥ v.maxCapacity then realloc
  let v1 ← getState
  insertLoop insertPosition.getIndex v1.size
  let x ← item.read (decide (v.size ≥ v.maxCapacity))
  writeElem insertPosition.getIndex x
  modifyState fun v => { v with size := v.size + 1 }

/-- Member `Vector::append`. -/
def append [Inhabited α] (item : Item α) : M (Vector α) Unit := do
  let v ← getState
  insert v.cend item

/-- Member `Vector::prepend`. -/
def prepend [Inhabited α] (item : Item α) : M (Vector α) Unit := do
  let v ← getState
  insert v.cbegin item

/-- The loop of `popFirst`:
`for (size_t i = 0; i < size - 1; ++i) elemArray[i] = elemArray[i + 1];`
The first argument is the number of iterations left, `size - 1 - i`. -/
def popFirstLoop : Nat → Nat → M (Vector α) Unit
  | 0, _ => pure ()
  | n + 1, i => do
    let x ← readElem (i + 1)
    writeElem i x
    popFirstLoop n (i + 1)

/-- Member `Vector::popFirst`. -/
def popFirst : M (Vector α) α := do
  let v ← getState
  if v.size = 0 then raise Exception.logic_error
  else do
    let retValue ← readElem 0
    popFirstLoop (v.size - 1) 0
    modifyState fun v => { v with size := v.size - 1 }
    pure retValue

/-- Member `Vector::popLast`. -/
def popLast : M (Vector α) α := do
  let v ← getState
  if v.size = 0 then raise Exception.logic_error
  else do
    modifyState fun v => { v with size := v.size - 1 }
    let v1 ← getState
    readElem v1.size

/-- The loop of `std::copy(first, last, result)` with all three iterators on
this vector: `for (; first != last; ++result, ++first) *result = *first;`.
`first` moves at most `size + 1` times before `++first` throws, which bounds the
recursion. -/
def copyLoop : Nat → ConstIterator → ConstIterator → Iterator → M (Vector α) Unit
  | 0, _, _, _ => outOfFuel
  | n + 1, first, last, result =>
    if first = last then pure ()
    else do
      let x ← first.deref
      Iterator.assign result x
      let result1 ← ConstIterator.increment result
      let first1 ← first.increment
      copyLoop n first1 last result1

/-- The call `std::copy(first, last, result)` inside the vector. -/
def std_copy (first last : ConstIterator) (result : Iterator) : M (Vector α) Unit := do
  let v ← getState
  copyLoop (v.size + 1) first last result

/-- Member `Vector::erase(const const_iterator &)`. -/
def erase (position : ConstIterator) : M (Vector α) Unit := do
  let v ← getState
  if position.getIndex > v.size then raise Exception.invalid_argument
  else do
    let first ← position.plus 1
    std_copy first v.cend position
    modifyState fun v => { v with size := v.size - 1 }

/-- Member `Vector::erase(const const_iterator &, const const_iterator &)`; the new
size is computed in `size_t`. -/
def eraseRange (firstIncluded lastExcluded : ConstIterator) : M (Vector α) Unit := do
  let v ← getState
  if firstIncluded.getIndex > lastExcluded.getIndex then raise Exception.invalid_argument
  else do
    std_copy lastExcluded v.cend firstIncluded
    modifyState fun v =>
      { v with size := (v.size + SIZE_MOD - lastExcluded.getIndex % SIZE_MOD
                          + firstIncluded.getIndex) % SIZE_MOD }

/-- The live elements `elemArray[0 .. size)`. -/
def toList (v : Vector α) : List α := v.elemArray.take v.size

/-- Representation invariant: the object has an address, the buffer has
`maxCapacity` slots and the live elements fit in it. -/
def WF (v : Vector α) : Prop :=
  v.addr ≠ 0 ∧ v.elemArray.length = v.maxCapacity ∧ v.size ≤ v.maxCapacity

/-- The vector is well formed and holds the sequence `s`. -/
def Holds (v : Vector α) (s : List α) : Prop := v.WF ∧ v.toList = s

/-- Member `Vector::Vector()`: no buffer, capacity 0, size 0. -/
def empty (addr : Nat) : Vector α := ⟨addr, [], 0, 0⟩

/-- Capacity after an `insert` made with capacity `c` and `n` live elements:
`realloc` runs when `size >= maxCapacity`. -/
def grown (c n : Nat) : Nat :=
  if n ≥ c then (if c = 0 then BEGINNINING_CAPACITY else c * 2) else c

end Vector

/-! ## LinkedList -/

/-- The null pointer. A `Node *` is an address in `Nat`, `0` being the null
pointer. -/
def nullptr : Nat := 0

/-- The value of the non-negative `difference_type` value `n` converted to `int`
(32 bits, two's complement). -/
def toInt32 (n : Nat) : Int :=
  if n % 2 ^ 32 < 2 ^ 31 then ((n % 2 ^ 32 : Nat) : Int)
  else ((n % 2 ^ 32 : Nat) : Int) - 2 ^ 32

/-- The fields of `LinkedList::Node`, as passed to its constructors. -/
structure Node (α : Type) where
  value : α
  prev : Nat
  next : Nat

/-- The free store holding the nodes, one map per field of `Node`: `live p`
tells whether `p` is an allocated node, `brk` is the last address handed out by
`new` (every later allocation is above it). -/
structure Heap (α : Type) where
  live : Nat → Bool
  value : Nat → α
  prev : Nat → Nat
  next : Nat → Nat
  brk : Nat

/-- A `LinkedList<Type>` object: its own address, the fields `size` and
`sentinel`, and the free store its nodes live in. -/
structure LinkedList (α : Type) where
  addr : Nat
  size : Nat
  sentinel : Nat
  heap : Heap α

/-- Class `LinkedList::ConstIterator`: pointer to the owning list and the current
node. The operations below take the list pointed to as the state. -/
structure LinkedList.ConstIterator where
  list : Nat
  current : Nat
deriving DecidableEq, Repr

/-- Class `LinkedList::Iterator` derives from `ConstIterator` and adds no data. -/
abbrev LinkedList.Iterator := LinkedList.ConstIterator

namespace LinkedList

variable {α : Type}

/-- The list with `p->next = q` stored. -/
def withNext (l : LinkedList α) (p q : Nat) : LinkedList α :=
  { l with heap := { l.heap with next := Function.update l.heap.next p q } }

/-- The list with `p->prev = q` stored. -/
def withPrev (l : LinkedList α) (p q : Nat) : LinkedList α :=
  { l with heap := { l.heap with prev := Function.update l.heap.prev p q } }

/-- The list with a node holding `nd` allocated at the fresh address
`brk + 1`. -/
def withNew (l : LinkedList α) (nd : Node α) : LinkedList α :=
  { l with heap :=
    { live := Function.update l.heap.live (l.heap.brk + 1) true
      value := Function.update l.heap.value (l.heap.brk + 1) nd.value
      prev := Function.update l.heap.prev (l.heap.brk + 1) nd.prev
      next := Function.update l.heap.next (l.heap.brk + 1) nd.next
      brk := l.heap.brk + 1 } }

/-- The list with node `p` released. -/
def withDelete (l : LinkedList α) (p : Nat) : LinkedList α :=
  { l with heap := { l.heap with live := Function.update l.heap.live p false } }

/-- The list with its `size` field replaced. -/
def withSize (l : LinkedList α) (n : Nat) : LinkedList α := { l with size := n }

/-- The pointer `p` may be dereferenced: it is not null and the node is
allocated. -/
def valid (l : LinkedList α) (p : Nat) : Prop := p ≠ nullptr ∧ l.heap.live p = true

instance instDecidableValid (l : LinkedList α) (p : Nat) : Decidable (l.valid p) := by
  unfold valid; infer_instance

/-- Expression `p->next` as an rvalue. -/
def getNext (p : Nat) : M (LinkedList α) Nat := fun l =>
  if l.valid p then Res.ok (l.heap.next p) l else Res.ub

/-- Expression `p->prev` as an rvalue. -/
def getPrev (p : Nat) : M (LinkedList α) Nat := fun l =>
  if l.valid p then Res.ok (l.heap.prev p) l else Res.ub

/-- Expression `p->value` as an rvalue. -/
def getValue (p : Nat) : M (LinkedList α) α := fun l =>
  if l.valid p then Res.ok (l.heap.value p) l else Res.ub

/-- Statement `p->next = q`. -/
def setNext (p q : Nat) : M (LinkedList α) Unit := fun l =>
  if l.valid p then Res.ok () (l.withNext p q) else Res.ub

/-- Statement `p->prev = q`. -/
def setPrev (p q : Nat) : M (LinkedList α) Unit := fun l =>
  if l.valid p then Res.ok () (l.withPrev p q) else Res.ub

/-- Expression `new Node(...)`: the address of the node built from `nd`. -/
def newNode (nd : Node α) : M (LinkedList α) Nat := fun l =>
  Res.ok (l.heap.brk + 1) (l.withNew nd)

/-- Statement `delete p`: nothing for `nullptr`, undefined for a node that is not
allocated. -/
def deleteNode (p : Nat) : M (LinkedList α) Unit := fun l =>
  if p = nullptr then Res.ok () l
  else if l.heap.live p = true then Res.ok () (l.withDelete p) else Res.ub

/-- Member `LinkedList::isEmpty`. -/
def isEmpty (l : LinkedList α) : Bool := l.size == 0

/-- Member `LinkedList::getSize`. -/
def getSize (l : LinkedList α) : Nat := l.size

/-- Member `ConstIterator::getCurrent`. -/
def ConstIterator.getCurrent (it : ConstIterator) : Nat := it.current

/-- Member `LinkedList::init`; `Node()` leaves `value` at its default `0` and both
links null. -/
def init [Inhabited α] : M (LinkedList α) Unit := do
  let p ← newNode ⟨default, nullptr, nullptr⟩
  modifyState fun l => { l with sentinel := p }
  let l ← getState
  setNext l.sentinel l.sentinel
  let l ← getState
  setPrev l.sentinel l.sentinel

/-- Member `LinkedList::LinkedList()` for an object at `addr`, the free store being
`h`: `size = 0`, then `init()`. -/
def create [Inhabited α] (addr : Nat) (h : Heap α) : Res (LinkedList α) Unit :=
  init ⟨addr, 0, nullptr, h⟩

/-- Member `LinkedList::cbegin` (and `begin() const`): reads `sentinel->next`. -/
def cbegin : M (LinkedList α) ConstIterator := do
  let l ← getState
  let first ← getNext l.sentinel
  pure ⟨l.addr, first⟩

/-- Member `LinkedList::cend` (and `end() const`). -/
def cend (l : LinkedList α) : ConstIterator := ⟨l.addr, l.sentinel⟩

/-- Member `LinkedList::begin`: `Iterator(cbegin())`. -/
def begin : M (LinkedList α) Iterator := cbegin

/-- Member `LinkedList::end`: `Iterator(cend())`. -/
def «end» (l : LinkedList α) : Iterator := l.cend

/-- Member `ConstIterator::operator*`. -/
def ConstIterator.deref (it : ConstIterator) : M (LinkedList α) α := do
  let l ← getState
  if it = l.cend then raise Exception.out_of_range
  else getValue it.current

/-- Member `ConstIterator::operator++` (prefix); returns the advanced iterator. -/
def ConstIterator.increment (it : ConstIterator) : M (LinkedList α) ConstIterator := do
  let l ← getState
  if it = l.cend then raise Exception.out_of_range
  else do
    let nx ← getNext it.current
    pure ⟨it.list, nx⟩

/-- Member `ConstIterator::operator--` (prefix). -/
def ConstIterator.decrement (it : ConstIterator) : M (LinkedList α) ConstIterator := do
  let b ← cbegin
  if it = b then raise Exception.out_of_range
  else do
    let pv ← getPrev it.current
    pure ⟨it.list, pv⟩

/-- The loop of `operator+`: `n` times `++iterator`. -/
def ConstIterator.incrementTimes : Nat → ConstIterator → M (LinkedList α) ConstIterator
  | 0, it => pure it
  | n + 1, it => do
    let it1 ← it.increment
    incrementTimes n it1

/-- The loop of `operator-`: `n` times `--iterator`. -/
def ConstIterator.decrementTimes : Nat → ConstIterator → M (LinkedList α) ConstIterator
  | 0, it => pure it
  | n + 1, it => do
    let it1 ← it.decrement
    decrementTimes n it1

/-- Member `ConstIterator::operator+`:
`for (int i = 0; i < std::abs(d); ++i) ++iterator;`. `std::abs(d)` has no
value for the least `difference_type`, `-2^63`: undefined behaviour. The
counter `int i` has 32 bits and is compared with the 64-bit `std::abs(d)`: for
`std::abs(d) < 2^31` the loop makes `std::abs(d)` increments; otherwise it
makes `2^31` increments and, when all of them have returned, `++i` overflows on
`i = 2^31 - 1`: undefined behaviour. -/
def ConstIterator.plus (it : ConstIterator) (d : Int) : M (LinkedList α) ConstIterator :=
  if d = -(2 ^ 63) then undefined
  else if d.natAbs < 2 ^ 31 then ConstIterator.incrementTimes d.natAbs it
  else do
    let _ ← ConstIterator.incrementTimes (2 ^ 31) it
    undefined

/-- Member `ConstIterator::operator-`:
`for (int i = std::abs(d); i > 0; --i) --iterator;`. `std::abs(d)` has no
value for the least `difference_type`, `-2^63`: undefined behaviour. The
counter is an `int` initialised with `std::abs(d)`: the loop makes as many
decrements as the value of `std::abs(d)` converted to 32 bits, none when that
is not positive. -/
def ConstIterator.minus (it : ConstIterator) (d : Int) : M (LinkedList α) ConstIterator :=
  if d = -(2 ^ 63) then undefined
  else ConstIterator.decrementTimes (toInt32 d.natAbs).toNat it

/-- Member `LinkedList::prepend`. -/
def prepend (item : α) : M (LinkedList α) Unit := do
  let l ← getState
  let first ← getNext l.sentinel
  let temp ← newNode ⟨item, l.sentinel, first⟩
  let first1 ← getNext l.sentinel
  setPrev first1 temp
  setNext l.sentinel temp
  modifyState fun l => l.withSize (l.size + 1)

/-- Member `LinkedList::append`. -/
def append (item : α) : M (LinkedList α) Unit := do
  let l ← getState
  if l.size = 0 then prepend item
  else do
    let last ← getPrev l.sentinel
    let temp ← newNode ⟨item, last, l.sentinel⟩
    let last1 ← getPrev l.sentinel
    setNext last1 temp
    setPrev l.sentinel temp
    modifyState fun l => l.withSize (l.size + 1)

/-- The loop `while (temp->next != target) temp = temp->next;` of `insert` and
of the range `erase`; returns the final `temp`. -/
def scanBefore : Nat → Nat → Nat → M (LinkedList α) Nat
  | 0, _, _ => outOfFuel
  | n + 1, target, temp => do
    let nx ← getNext temp
    if nx ≠ target then scanBefore n target nx
    else pure temp

/-- The loop `while (temp != target) temp = temp->next;` of both `erase`
functions; returns the final `temp`. -/
def scanTo : Nat → Nat → Nat → M (LinkedList α) Nat
  | 0, _, _ => outOfFuel
  | n + 1, target, temp =>
    if temp ≠ target then do
      let nx ← getNext temp
      scanTo n target nx
    else pure temp

/-- Member `LinkedList::insert`; `fuel` bounds the scan for the predecessor. -/
def insert (fuel : Nat) (insertPosition : ConstIterator) (item : α) : M (LinkedList α) Unit := do
  let b ← cbegin
  if insertPosition = b then prepend item
  else do
    let l ← getState
    if insertPosition = l.cend then append item
    else do
      let insertNode := insertPosition.getCurrent
      let temp ← scanBefore fuel insertNode l.sentinel
      let nx ← getNext temp
      let toInsert ← newNode ⟨item, temp, nx⟩
      setNext temp toInsert
      let nx1 ← getNext toInsert
      setPrev nx1 toInsert
      modifyState fun l => l.withSize (l.size + 1)

/-- Member `LinkedList::popFirst`. -/
def popFirst : M (LinkedList α) α := do
  let l ← getState
  if l.size = 0 then raise Exception.logic_error
  else do
    let toDelete ← getNext l.sentinel
    let retValue ← getValue toDelete
    let nx ← getNext toDelete
    setNext l.sentinel nx
    let nx1 ← getNext toDelete
    setPrev nx1 l.sentinel
    deleteNode toDelete
    modifyState fun l => l.withSize (l.size - 1)
    pure retValue

/-- Member `LinkedList::popLast`. -/
def popLast : M (LinkedList α) α := do
  let l ← getState
  if l.size = 0 then raise Exception.logic_error
  else if l.size = 1 then popFirst
  else do
    let toDelete ← getPrev l.sentinel
    let retValue ← getValue toDelete
    let pv ← getPrev toDelete
    setNext pv l.sentinel
    let nx ← getNext toDelete
    let pv1 ← getPrev toDelete
    setPrev nx pv1
    deleteNode toDelete
    modifyState fun l => l.withSize (l.size - 1)
    pure retValue

/-- Member `LinkedList::erase(const const_iterator &)`; `fuel` bounds the scan for the
node. -/
def erase (fuel : Nat) (position : ConstIterator) : M (LinkedList α) Unit := do
  let l ← getState
  if l.size = 0 ∨ position = l.cend then raise Exception.out_of_range
  else do
    let b ← cbegin
    if position = b then do
      let _ ← popFirst
      pure ()
    else do
      let e ← ConstIterator.decrement l.cend
      if position = e then do
        let _ ← popLast
        pure ()
      else do
        let erasePosition := position.getCurrent
        let first ← getNext l.sentinel
        let temp ← scanTo fuel erasePosition first
        let pv ← getPrev temp
        let nx ← getNext temp
        setNext pv nx
        let nx1 ← getNext temp
        let pv1 ← getPrev temp
        setPrev nx1 pv1
        modifyState fun l => l.withSize (l.size - 1)
        deleteNode erasePosition

/-- The release loop of the range `erase`:
`while (first != nullptr) { temp = first; first = first->next; --size; delete temp; }`. -/
def deleteChain : Nat → Nat → M (LinkedList α) Unit
  | 0, _ => outOfFuel
  | n + 1, first =>
    if first ≠ nullptr then do
      let nx ← getNext first
      modifyState fun l => l.withSize (l.size - 1)
      deleteNode first
      deleteChain n nx
    else pure ()

/-- Member `LinkedList::erase(const const_iterator &, const const_iterator &)`; `fuel`
bounds each of its three loops. -/
def eraseRange (fuel : Nat) (firstIncluded lastExcluded : ConstIterator) :
    M (LinkedList α) Unit := do
  if firstIncluded.getCurrent = lastExcluded.getCurrent then pure ()
  else do
    let l ← getState
    let startErase := firstIncluded.getCurrent
    let first0 ← getNext l.sentinel
    let first ← scanTo fuel startErase first0
    let last0 ← getNext first
    let last ← scanBefore fuel lastExcluded.getCurrent last0
    let pv ← getPrev first
    let nx ← getNext last
    setNext pv nx
    let nx1 ← getNext last
    let pv1 ← getPrev first
    setPrev nx1 pv1
    setNext last nullptr
    deleteChain fuel first

/-- Consecutive nodes of the path point at each other: `a->next == b` and
`b->prev == a`. -/
def Linked (h : Heap α) : List Nat → Prop
  | a :: b :: rest => h.next a = b ∧ h.prev b = a ∧ Linked h (b :: rest)
  | _ => True

instance instDecidableLinked (h : Heap α) : (path : List Nat) → Decidable (Linked h path)
  | [] => isTrue trivial
  | [_] => isTrue trivial
  | a :: b :: rest =>
    match instDecidableLinked h (b :: rest) with
    | isTrue hr =>
      if h1 : h.next a = b then
        if h2 : h.prev b = a then isTrue ⟨h1, h2, hr⟩
        else isFalse (fun hl => h2 hl.2.1)
      else isFalse (fun hl => h1 hl.1)
    | isFalse hr => isFalse (fun hl => hr hl.2.2)

/-- The ring invariant: the sentinel and the nodes `ps` are distinct allocated
nodes, following `next` from the sentinel runs through `ps` and back to the
sentinel while `prev` runs the other way, and `size` counts `ps`. -/
structure Ring (l : LinkedList α) (ps : List Nat) : Prop where
  nodup : (l.sentinel :: ps).Nodup
  live : ∀ p ∈ l.sentinel :: ps, l.valid p ∧ p ≤ l.heap.brk
  linked : Linked l.heap (l.sentinel :: (ps ++ [l.sentinel]))
  size : l.size = ps.length

/-- The list is a well-formed ring and holds the sequence `s`. -/
def Holds (l : LinkedList α) (s : List α) : Prop :=
  ∃ ps, Ring l ps ∧ ps.map l.heap.value = s

/-- The list after a fresh node holding `x` has been linked between the
adjacent nodes `a` and `b`. -/
def linkedBetween (l : LinkedList α) (a b : Nat) (x : α) : LinkedList α :=
  (((l.withNew ⟨x, a, b⟩).withNext a (l.heap.brk + 1)).withPrev b (l.heap.brk + 1)).withSize
    (l.size + 1)

/-- The list after node `r`, which sat between `a` and `b`, has been unlinked
and released. -/
def unlinked (l : LinkedList α) (a b r : Nat) : LinkedList α :=
  (((l.withNext a b).withPrev b a).withDelete r).withSize (l.size - 1)

/-- The list after the release loop of the range `erase` has run over the
nodes `rs`. -/
def released (l : LinkedList α) (rs : List Nat) : LinkedList α :=
  rs.foldl (fun l r => (l.withSize (l.size - 1)).withDelete r) l

/-- The list after the range `erase` has bypassed the block `rs` (which sat
between `a` and `b` and ended in `z`), cut it off and released it. -/
def spliced (l : LinkedList α) (a b z : Nat) (rs : List Nat) : LinkedList α :=
  released (((l.withNext a b).withPrev b a).withNext z nullptr) rs

end LinkedList

/-- The empty free store: nothing allocated. -/
def Heap.empty {α : Type} [Inhabited α] : Heap α :=
  ⟨fun _ => false, fun _ => default, fun _ => 0, fun _ => 0, 0⟩

/-! ## Sequences of calls -/

/-- A single-element mutating call of the common interface; positions are
given as `begin() + i` and items by their value. -/
inductive Op (α : Type) where
  | append (item : α)
  | prepend (item : α)
  | insert (i : Nat) (item : α)
  | popFirst
  | popLast
  | erase (i : Nat)

/-- Whether the call inserts an element (otherwise it removes one). -/
def Op.isInsertion {α : Type} : Op α → Bool
  | Op.append _ => true
  | Op.prepend _ => true
  | Op.insert _ _ => true
  | Op.popFirst => false
  | Op.popLast => false
  | Op.erase _ => false

/-- Outcome of a sequence of calls: the final container, the number `inserted`
of insertions that succeeded and the number `removed` of removals that
succeeded. -/
structure Tally (σ : Type) where
  final : σ
  inserted : Nat
  removed : Nat

/-- Count one more successful call of the kind of `op`. -/
def Tally.count {σ α : Type} (op : Op α) (t : Tally σ) : Tally σ :=
  if op.isInsertion then { t with inserted := t.inserted + 1 }
  else { t with removed := t.removed + 1 }

namespace Vector

variable {α : Type}

/-- Member `Vector::Vector(std::initializer_list<Type>)` for an object at `addr`. -/
def ofList (addr : Nat) (l : List α) : Vector α := ⟨addr, l, l.length, l.length⟩

/-- Calls of `append` on each value in order, the values being objects outside
the vector. -/
def appendAll [Inhabited α] : List α → M (Vector α) Unit
  | [] => pure ()
  | x :: xs => do
    append (Item.outside x)
    appendAll xs

/-- Calls of `popFirst`, `n` times; the returned values in order. -/
def popFirstN : Nat → M (Vector α) (List α)
  | 0 => pure []
  | n + 1 => do
    let x ← popFirst
    let xs ← popFirstN n
    pure (x :: xs)

/-- The call `op` on a vector, the position being `begin() + i` and the item an
object outside the vector. -/
def step [Inhabited α] : Op α → M (Vector α) Unit
  | Op.append item => append (Item.outside item)
  | Op.prepend item => prepend (Item.outside item)
  | Op.insert i item => do
    let v ← getState
    let it ← ConstIterator.plus v.begin (i : Int)
    insert it (Item.outside item)
  | Op.popFirst => do
    let _ ← popFirst
    pure ()
  | Op.popLast => do
    let _ ← popLast
    pure ()
  | Op.erase i => do
    let v ← getState
    let it ← ConstIterator.plus v.begin (i : Int)
    erase it

/-- Run the calls in order, a failed call being caught by the caller; `none`
when some call has undefined behaviour. -/
def run [Inhabited α] : List (Op α) → Vector α → Option (Tally (Vector α))
  | [], v => some ⟨v, 0, 0⟩
  | op :: ops, v =>
    match step op v with
    | Res.ok _ v1 => (run ops v1).map (Tally.count op)
    | Res.throw _ v1 => run ops v1
    | Res.ub => none
    | Res.timeout => none

end Vector

namespace LinkedList

variable {α : Type}

/-- Calls of `append` on each value in order. -/
def appendAll : List α → M (LinkedList α) Unit
  | [] => pure ()
  | x :: xs => do
    append x
    appendAll xs

/-- Member `LinkedList::LinkedList(std::initializer_list<Type>)` for an object at
`addr`, the free store being `h`: `init()`, then `append` for each element. -/
def ofList [Inhabited α] (addr : Nat) (h : Heap α) (xs : List α) : Res (LinkedList α) Unit :=
  (do init; appendAll xs : M (LinkedList α) Unit) ⟨addr, 0, nullptr, h⟩

/-- Calls of `popFirst`, `n` times; the returned values in order. -/
def popFirstN : Nat → M (LinkedList α) (List α)
  | 0 => pure []
  | n + 1 => do
    let x ← popFirst
    let xs ← popFirstN n
    pure (x :: xs)

/-- The call `op` on a list, the position being `begin() + i`; `fuel` bounds
the scans of `insert` and `erase`. -/
def step (fuel : Nat) : Op α → M (LinkedList α) Unit
  | Op.append item => append item
  | Op.prepend item => prepend item
  | Op.insert i item => do
    let b ← begin
    let it ← ConstIterator.plus b (i : Int)
    insert fuel it item
  | Op.popFirst => do
    let _ ← popFirst
    pure ()
  | Op.popLast => do
    let _ ← popLast
    pure ()
  | Op.erase i => do
    let b ← begin
    let it ← ConstIterator.plus b (i : Int)
    erase fuel it

/-- Run the calls in order, a failed call being caught by the caller; `none`
when some call has undefined behaviour or exhausts `fuel`. -/
def run (fuel : Nat) : List (Op α) → LinkedList α → Option (Tally (LinkedList α))
  | [], l => some ⟨l, 0, 0⟩
  | op :: ops, l =>
    match step fuel op l with
    | Res.ok _ l1 => (run fuel ops l1).map (Tally.count op)
    | Res.throw _ l1 => run fuel ops l1
    | Res.ub => none
    | Res.timeout => none

/-- A ring holding `1, 2, 3, 4, 5`: the sentinel at address 1 and the five
nodes at addresses 2 to 6 in list order, the node at `p` holding `p - 1`. -/
def example12345 : LinkedList Int :=
  { addr := 100
    size := 5
    sentinel := 1
    heap :=
      { live := fun p => decide (1 ≤ p ∧ p ≤ 6)
        value := fun p => (p : Int) - 1
        prev := fun p => if p = 1 then 6 else p - 1
        next := fun p => if p = 6 then 1 else p + 1
        brk := 6 } }

/-- A ring holding the single element `10`: the sentinel at address 1 and the
node at address 2. -/
def example10 : LinkedList Int :=
  { addr := 100
    size := 1
    sentinel := 1
    heap :=
      { live := fun p => decide (1 ≤ p ∧ p ≤ 2)
        value := fun p => if p = 2 then 10 else 0
        prev := fun p => if p = 1 then 2 else 1
        next := fun p => if p = 2 then 1 else 2
        brk := 2 } }

/-- The empty ring: the sentinel at address 1 pointing at itself. -/
def exampleEmpty : LinkedList Int :=
  { addr := 100
    size := 0
    sentinel := 1
    heap :=
      { live := fun p => decide (p = 1)
        value := fun _ => 0
        prev := fun _ => 1
        next := fun _ => 1
        brk := 1 } }

end LinkedList

/-! ## Construction, assignment and iterator walks of `Vector` -/

/-- Run a computation on a `const` object `other` from inside a member function
of another object: the value or the exception comes back, `other` and the
caller's state stay as they are. -/
def onConst {σ ω ρ : Type} (other : ω) (m : M ω ρ) : M σ ρ := fun s =>
  match m other with
  | Res.ok r _ => Res.ok r s
  | Res.throw e _ => Res.throw e s
  | Res.ub => Res.ub
  | Res.timeout => Res.timeout

namespace Vector

variable {α : Type}

/-- Member `Vector::clear`, as the new value of `other`: `elemArray = nullptr`,
`size = 0`, `maxCapacity = 0`. -/
def clear (other : Vector α) : Vector α :=
  { other with elemArray := [], size := 0, maxCapacity := 0 }

/-- Member `Vector::Vector(const Vector &)` for an object at `addr`. The state
is `other`, read through its iterators; the constructed object is returned. -/
def copyConstruct [Inhabited α] (addr : Nat) : M (Vector α) (Vector α) := do
  let other ← getState
  let temp ← copyToArray (other.size + 1) other.cbegin other.cend
    (List.replicate other.maxCapacity default) 0
  pure ⟨addr, temp, other.maxCapacity, other.size⟩

/-- Member `Vector::Vector(Vector &&)` for an object at `addr`: the constructed
object and what `clear` leaves of `other`. -/
def moveConstruct (addr : Nat) (other : Vector α) : Vector α × Vector α :=
  (⟨addr, other.elemArray, other.maxCapacity, other.size⟩, clear other)

/-- Member `Vector::operator=(Vector &&)`: the assigned object and what is left of
`other`. -/
def moveAssign (this other : Vector α) : Vector α × Vector α :=
  if this.addr ≠ other.addr then
    ({ this with elemArray := other.elemArray, size := other.size,
                 maxCapacity := other.maxCapacity }, clear other)
  else (this, other)

/-- The loop of `std::copy(other.begin(), other.end(), begin())` in the copy
assignment: `for (; first != last; ++result, ++first) *result = *first;` with
`first` and `last` iterators of `other` and `result` an iterator of this
vector. `first` moves at most `other.size + 1` times before `++first` throws,
which bounds the recursion. -/
def copyFromLoop (other : Vector α) :
    Nat → ConstIterator → ConstIterator → Iterator → M (Vector α) Unit
  | 0, _, _, _ => outOfFuel
  | n + 1, first, last, result =>
    if first = last then pure ()
    else do
      let x ← onConst other first.deref
      Iterator.assign result x
      let result1 ← ConstIterator.increment result
      let first1 ← onConst other first.increment
      copyFromLoop other n first1 last result1

/-- Member `Vector::operator=(const Vector &)`. The new buffer is filled through
`begin()`, an `Iterator` of this vector, and `size` is stored after the copy. -/
def copyAssign [Inhabited α] (other : Vector α) : M (Vector α) Unit := do
  let v ← getState
  if v.addr ≠ other.addr then do
    modifyState fun v => { v with maxCapacity := other.maxCapacity }
    modifyState fun v => { v with elemArray := List.replicate v.maxCapacity default }
    let v1 ← getState
    copyFromLoop other (other.size + 1) other.cbegin other.cend v1.begin
    modifyState fun v => { v with size := other.size }
  else pure ()

/-- Expression `begin() + i`. -/
def position (i : Nat) : M (Vector α) ConstIterator := do
  let v ← getState
  ConstIterator.plus v.begin (i : Int)

/-- Repeated single steps: `n` times `++it`. -/
def ConstIterator.incrementTimes : Nat → ConstIterator → M (Vector α) ConstIterator
  | 0, it => pure it
  | n + 1, it => do
    let it1 ← it.increment
    incrementTimes n it1

/-- Repeated single steps: `n` times `--it`. -/
def ConstIterator.decrementTimes : Nat → ConstIterator → M (Vector α) ConstIterator
  | 0, it => pure it
  | n + 1, it => do
    let it1 ← it.decrement
    decrementTimes n it1

end Vector

namespace LinkedList

variable {α : Type}

/-- Expression `begin() + i`. -/
def position (i : Nat) : M (LinkedList α) ConstIterator := do
  let b ← begin
  ConstIterator.plus b (i : Int)

/-- The list with `p->value = x` stored. -/
def withValue (l : LinkedList α) (p : Nat) (x : α) : LinkedList α :=
  { l with heap := { l.heap with value := Function.update l.heap.value p x } }

/-- Statement `p->value = x`. -/
def setValue (p : Nat) (x : α) : M (LinkedList α) Unit := fun l =>
  if l.valid p then Res.ok () (l.withValue p x) else Res.ub

/-- Statement `*it = x` through `Iterator::operator*`, which performs the check of
`ConstIterator::operator*` and casts the reference. -/
def Iterator.assign (it : Iterator) (x : α) : M (LinkedList α) Unit := do
  let l ← getState
  if it = l.cend then raise Exception.out_of_range
  else setValue it.current x

/-- Another list object seen from the state `l`: its fields, its nodes being in
the free store of `l`. -/
def sharing (other l : LinkedList α) : LinkedList α := { other with heap := l.heap }

/-- Run a computation on the `const` list `other`, whose nodes are in the free
store of the current state. -/
def onOther {ρ : Type} (other : LinkedList α) (m : M (LinkedList α) ρ) : M (LinkedList α) ρ :=
  fun l => onConst (other.sharing l) m l

/-- The loop `for (auto elem : other) append(elem);`, that is
`for (; it != e; ++it) { auto elem = *it; append(elem); }` with `it` and `e`
iterators of `other`; `fuel` bounds the number of rounds. -/
def appendFrom (other : LinkedList α) :
    Nat → ConstIterator → ConstIterator → M (LinkedList α) Unit
  | 0, _, _ => outOfFuel
  | n + 1, it, e =>
    if it = e then pure ()
    else do
      let elem ← onOther other it.deref
      append elem
      let it1 ← onOther other it.increment
      appendFrom other n it1 e

/-- Member `LinkedList::LinkedList(const LinkedList &)` for an object at `addr`, in
the free store of `other`: `size = 0`, `init()`, then the loop over `other`. -/
def copyConstruct [Inhabited α] (addr fuel : Nat) (other : LinkedList α) :
    Res (LinkedList α) Unit :=
  (do
    init
    let b ← onOther other cbegin
    appendFrom other fuel b other.cend : M (LinkedList α) Unit) ⟨addr, 0, nullptr, other.heap⟩

/-- The loop of `clearData`:
`while (currentNode != sentinel) { temp = currentNode; currentNode = currentNode->next; delete temp; }`. -/
def clearLoop : Nat → Nat → M (LinkedList α) Unit
  | 0, _ => outOfFuel
  | n + 1, currentNode => do
    let l ← getState
    if currentNode ≠ l.sentinel then do
      let nx ← getNext currentNode
      deleteNode currentNode
      clearLoop n nx
    else pure ()

/-- Member `LinkedList::clearData`; `fuel` bounds its loop. -/
def clearData (fuel : Nat) : M (LinkedList α) Unit := do
  let l ← getState
  let first ← getNext l.sentinel
  clearLoop fuel first
  modifyState fun l => l.withSize 0
  setNext l.sentinel l.sentinel
  setPrev l.sentinel l.sentinel

/-- Member `LinkedList::move`. The state is this list; what the call leaves of
`other` (`size = 0`, `sentinel = nullptr`) is returned, seen in the final free
store. -/
def move (fuel : Nat) (other : LinkedList α) : M (LinkedList α) (LinkedList α) := do
  clearData fuel
  let l ← getState
  deleteNode l.sentinel
  modifyState fun l => { l with size := other.size, sentinel := other.sentinel }
  let l1 ← getState
  pure { other with size := 0, sentinel := nullptr, heap := l1.heap }

/-- Member `LinkedList::LinkedList(LinkedList &&)` for an object at `addr`, in the
free store of `other`: `size = 0`, `init()`, `move(other)`. The constructed
list is the state of the outcome, the moved-from `other` its value. -/
def moveConstruct [Inhabited α] (addr fuel : Nat) (other : LinkedList α) :
    Res (LinkedList α) (LinkedList α) :=
  (do
    init
    move fuel other : M (LinkedList α) (LinkedList α)) ⟨addr, 0, nullptr, other.heap⟩

/-- Member `LinkedList::operator=(LinkedList &&)`; the moved-from `other` is
returned. -/
def moveAssign (fuel : Nat) (other : LinkedList α) : M (LinkedList α) (LinkedList α) := do
  let l ← getState
  if l.addr ≠ other.addr then do
    clearData fuel
    move fuel other
  else pure (other.sharing l)

/-- The node at `p` is the same in the free stores `h` and `h1`. -/
def SameAt (h h1 : Heap α) (p : Nat) : Prop :=
  h1.live p = h.live p ∧ h1.value p = h.value p ∧ h1.prev p = h.prev p ∧ h1.next p = h.next p

/-- What a call on the list `l` with nodes `own` did to the free store, `l1`
being the list after the call and `own1` its nodes: the object and its
sentinel stay, allocation only moves `brk` up, every node allocated before the
call that is not a node of `l` is untouched, and the nodes of `l1` are nodes
of `l` or new ones. -/
structure Effect (l l1 : LinkedList α) (own own1 : List Nat) : Prop where
  addr : l1.addr = l.addr
  sentinel : l1.sentinel = l.sentinel
  brk : l.heap.brk ≤ l1.heap.brk
  frame : ∀ p, p ≤ l.heap.brk → p ∉ l.sentinel :: own → SameAt l.heap l1.heap p
  nodes : ∀ p ∈ own1, p ∈ own ∨ l.heap.brk < p

/-- The nodes met from `p` by following the link `step` (`next` or `prev`)
`n` times, `p` first. -/
def walk (step : Nat → Nat) : Nat → Nat → List Nat
  | 0, _ => []
  | n + 1, p => p :: walk step n (step p)

/-- The ring invariant in terms of the links alone: following `next` from the
sentinel meets `size` allocated nodes other than the sentinel and then the
sentinel again; following `prev` meets the same nodes in reverse order and then
the sentinel; at every node of the ring `next` and `prev` are inverse to each
other; and `size = 0` exactly when the sentinel is its own `next` and
`prev`. -/
def RingInvariant (l : LinkedList α) : Prop :=
  l.valid l.sentinel ∧
  (∀ p ∈ walk l.heap.next l.size (l.heap.next l.sentinel), l.valid p ∧ p ≠ l.sentinel) ∧
  l.heap.next ((walk l.heap.next l.size (l.heap.next l.sentinel)).getLastD l.sentinel)
    = l.sentinel ∧
  walk l.heap.prev l.size (l.heap.prev l.sentinel)
    = (walk l.heap.next l.size (l.heap.next l.sentinel)).reverse ∧
  l.heap.prev ((walk l.heap.prev l.size (l.heap.prev l.sentinel)).getLastD l.sentinel)
    = l.sentinel ∧
  (∀ p ∈ l.sentinel :: walk l.heap.next l.size (l.heap.next l.sentinel),
    l.heap.prev (l.heap.next p) = p ∧ l.heap.next (l.heap.prev p) = p) ∧
  (l.size = 0 ↔ l.heap.next l.sentinel = l.sentinel ∧ l.heap.prev l.sentinel = l.sentinel)

end LinkedList

/-- A mutating call of the common interface: one of the single-element calls,
the range `erase(begin() + i, begin() + j)`, or the write `*(begin() + i) = x`
through an `Iterator`. -/
inductive Call (α : Type) where
  | single (op : Op α)
  | eraseRange (i j : Nat)
  | assign (i : Nat) (item : α)

/-- The range of the call has its first position not after the last one. -/
def Call.InOrder {α : Type} : Call α → Prop
  | Call.eraseRange i j => i ≤ j
  | _ => True

namespace LinkedList

variable {α : Type}

/-- The call `c` on a list; `fuel` bounds the scans. -/
def call (fuel : Nat) : Call α → M (LinkedList α) Unit
  | Call.single op => step fuel op
  | Call.eraseRange i j => do
    let first ← position i
    let last ← position j
    eraseRange fuel first last
  | Call.assign i item => do
    let it ← position i
    Iterator.assign it item

/-- Run the calls in order, a failed call being caught by the caller; `none`
when some call has undefined behaviour or exhausts `fuel`. -/
def runCalls (fuel : Nat) : List (Call α) → LinkedList α → Option (LinkedList α)
  | [], l => some l
  | c :: cs, l =>
    match call fuel c l with
    | Res.ok _ l1 => runCalls fuel cs l1
    | Res.throw _ l1 => runCalls fuel cs l1
    | Res.ub => none
    | Res.timeout => none

end LinkedList

/-- The outcomes `rv` and `rl` of one iterator expression, evaluated on a
vector `v` and on a list `l` that hold the same `n` elements, agree: both
throw `out_of_range` and leave the container as it was, or both return the
iterator of the same logical position, the one `begin() + k` returns for some
`k ≤ n`. -/
def SameOutcome {α : Type} (n : Nat) (v : Vector α) (l : LinkedList α)
    (rv : Res (Vector α) Vector.ConstIterator)
    (rl : Res (LinkedList α) LinkedList.ConstIterator) : Prop :=
  (rv = Res.throw Exception.out_of_range v ∧ rl = Res.throw Exception.out_of_range l) ∨
  ∃ k it jt, k ≤ n ∧ Vector.position k v = Res.ok it v ∧ rv = Res.ok it v ∧
    LinkedList.position k l = Res.ok jt l ∧ rl = Res.ok jt l

/-! ## Vectors on a common free store -/

namespace Vector

variable {α : Type}

/-- The call `c` on a vector, the positions being `begin() + i`. -/
def call [Inhabited α] : Call α → M (Vector α) Unit
  | Call.single op => step op
  | Call.eraseRange i j => do
    let first ← position i
    let last ← position j
    eraseRange first last
  | Call.assign i item => do
    let it ← position i
    Iterator.assign it item

end Vector

/-- The free store of buffers: the array allocated by `new value_type[n]` at
each address, `brk` being the last address handed out (every later allocation
is above it). -/
structure Store (α : Type) where
  buffer : Nat → Option (List α)
  brk : Nat

/-- A `Vector` object as it lies in memory, with `elemArray` a pointer into the
store of buffers. -/
structure Vector.Object where
  addr : Nat
  elemArray : Nat
  maxCapacity : Nat
  size : Nat

namespace Vector.Object

variable {α : Type}

/-- The vector an object denotes in a store: its fields over the content of
the buffer `elemArray` points to (no content for `nullptr`); `none` when the
pointer is dangling. -/
def load (o : Vector.Object) (st : Store α) : Option (Vector α) :=
  if o.elemArray = nullptr then some ⟨o.addr, [], o.maxCapacity, o.size⟩
  else (st.buffer o.elemArray).map fun b => ⟨o.addr, b, o.maxCapacity, o.size⟩

/-- The object denotes, in the store, a well-formed vector that holds `s`. -/
def HoldsIn (o : Vector.Object) (st : Store α) (s : List α) : Prop :=
  ∃ v, o.load st = some v ∧ v.Holds s

/-- Write the vector `v1` that a call made of `v` back to memory. The only
member that replaces the buffer is `realloc`, which always changes
`maxCapacity`: then the new content is at a fresh address and the old buffer
is released (`delete[] elemArray`); otherwise the content is written in place. -/
def store (o : Vector.Object) (st : Store α) (v v1 : Vector α) : Vector.Object × Store α :=
  if v1.maxCapacity = v.maxCapacity then
    (⟨o.addr, o.elemArray, v1.maxCapacity, v1.size⟩,
      if o.elemArray = nullptr then st
      else { st with buffer := Function.update st.buffer o.elemArray (some v1.elemArray) })
  else
    (⟨o.addr, st.brk + 1, v1.maxCapacity, v1.size⟩,
      { buffer := Function.update (Function.update st.buffer o.elemArray none) (st.brk + 1)
          (some v1.elemArray)
        brk := st.brk + 1 })

/-- Member `Vector::Vector(const Vector &)` for an object at `addr` in the store:
the copy made from `other` gets the buffer `new value_type[maxCapacity]` at a
fresh address. `none` for undefined behaviour. -/
def copyConstruct [Inhabited α] (addr : Nat) (other : Vector.Object) (st : Store α) :
    Option (Vector.Object × Store α) :=
  match other.load st with
  | none => none
  | some v =>
    match Vector.copyConstruct addr v with
    | Res.ok b _ =>
      some (⟨addr, st.brk + 1, b.maxCapacity, b.size⟩,
        { buffer := Function.update st.buffer (st.brk + 1) (some b.elemArray)
          brk := st.brk + 1 })
    | _ => none

/-- The call `c` on the object `o` in the store, a thrown exception being
caught by the caller; `none` for undefined behaviour. -/
def call [Inhabited α] (c : Call α) (o : Vector.Object) (st : Store α) :
    Option (Vector.Object × Store α) :=
  match o.load st with
  | none => none
  | some v =>
    match Vector.call c v with
    | Res.ok _ v1 => some (o.store st v v1)
    | Res.throw _ v1 => some (o.store st v v1)
    | Res.ub => none
    | Res.timeout => none

/-- Run the calls in order on the object `o`. -/
def runCalls [Inhabited α] : List (Call α) → Vector.Object → Store α →
    Option (Vector.Object × Store α)
  | [], o, st => some (o, st)
  | c :: cs, o, st =>
    match call c o st with
    | some (o1, st1) => runCalls cs o1 st1
    | none => none

end Vector.Object

/-- A store with one buffer, at address 5, holding `1, 2, 3, 4, 5`. -/
def Store.example12345 : Store Int :=
  { buffer := fun p => if p = 5 then some [1, 2, 3, 4, 5] else none
    brk := 5 }

/-- The vector object at address 1 that owns the buffer of `Store.example12345`. -/
def Vector.Object.example12345 : Vector.Object :=
  { addr := 1, elemArray := 5, maxCapacity := 5, size := 5 }

/-! ## Lemmas: the monad and `Vector` -/


section monad
variable {σ ρ τ : Type}

@[simp] theorem pure_run (r : ρ) (s : σ) : (pure r : M σ ρ) s = Res.ok r s := rfl

theorem bind_run (m : M σ ρ) (f : ρ → M σ τ) (s : σ) :
    (m >>= f) s = M.bind m f s := rfl

theorem bind_ok {m : M σ ρ} {f : ρ → M σ τ} {s s1 : σ} {r : ρ} (h : m s = Res.ok r s1) :
    (m >>= f) s = f r s1 := by
  simp [bind_run, M.bind, h]

theorem bind_ok_of {m : M σ ρ} {f : ρ → M σ τ} {s : σ} (r : ρ) (t : σ) (h : m s = Res.ok r t) :
    (m >>= f) s = f r t := bind_ok h

theorem bind_throw {m : M σ ρ} {f : ρ → M σ τ} {s s1 : σ} {e : Exception}
    (h : m s = Res.throw e s1) : (m >>= f) s = Res.throw e s1 := by
  simp [bind_run, M.bind, h]

@[simp] theorem getState_bind (f : σ → M σ τ) (s : σ) : (getState >>= f) s = f s s := rfl

@[simp] theorem modifyState_bind (g : σ → σ) (f : Unit → M σ τ) (s : σ) :
    (modifyState g >>= f) s = f () (g s) := rfl

@[simp] theorem modifyState_run (g : σ → σ) (s : σ) : modifyState g s = Res.ok () (g s) := rfl

@[simp] theorem raise_run (e : Exception) (s : σ) : (raise e : M σ ρ) s = Res.throw e s := rfl

@[simp] theorem raise_bind (e : Exception) (f : ρ → M σ τ) (s : σ) :
    (raise e >>= f) s = Res.throw e s := rfl

end monad

theorem list_get?_append_length {α : Type} (pre post : List α) (x : α) :
    (pre ++ x :: post)[pre.length]? = some x := by
  rw [List.getElem?_append_right (le_refl _)]
  simp

theorem list_set_append_length {α : Type} (pre post : List α) (x y : α) :
    (pre ++ y :: post).set pre.length x = pre ++ x :: post := by
  induction pre with
  | nil => rfl
  | cons a pre ih => simp [ih]

namespace Vector
variable {α : Type}

theorem readElem_append (a : Nat) (pre post : List α) (x : α) (c n k : Nat) (hk : k = pre.length) :
    readElem k (⟨a, pre ++ x :: post, c, n⟩ : Vector α) = Res.ok x ⟨a, pre ++ x :: post, c, n⟩ := by
  subst hk
  simp only [readElem, list_get?_append_length]

theorem writeElem_append (a : Nat) (pre post : List α) (x y : α) (c n k : Nat) (hk : k = pre.length) :
    writeElem k x (⟨a, pre ++ y :: post, c, n⟩ : Vector α) = Res.ok () ⟨a, pre ++ x :: post, c, n⟩ := by
  subst hk
  simp [writeElem, list_set_append_length]


theorem copyToArray_spec (a c n : Nat) (ha : a ≠ 0) (hn : n < SIZE_MOD) (epost tpost : List α) :
    ∀ (emid : List α) (fuel : Nat) (epre tpre tmid : List α),
      emid.length = tmid.length → epre.length = tpre.length →
      epre.length + emid.length = n → emid.length < fuel →
      copyToArray fuel ⟨a, epre.length⟩ ⟨a, n⟩ (tpre ++ (tmid ++ tpost)) epre.length
          (⟨a, epre ++ (emid ++ epost), c, n⟩ : Vector α)
        = Res.ok (tpre ++ (emid ++ tpost)) ⟨a, epre ++ (emid ++ epost), c, n⟩ := by
  intro emid
  induction emid with
  | nil =>
    intro fuel epre tpre tmid h1 h2 h3 h4
    cases fuel with
    | zero => simp at h4
    | succ f =>
      have : tmid = [] := by
        cases tmid with
        | nil => rfl
        | cons _ _ => simp at h1
      subst this
      simp at h3
      simp [copyToArray, h3]
  | cons x emid ih =>
    intro fuel epre tpre tmid h1 h2 h3 h4
    cases fuel with
    | zero => simp at h4
    | succ f =>
      cases tmid with
      | nil => simp at h1
      | cons y tmid =>
        simp only [List.length_cons] at h1 h3 h4
        have hne : epre.length ≠ n := by omega
        have hlt : epre.length < n := by omega
        have hmod : (epre.length + 1) % SIZE_MOD = epre.length + 1 := Nat.mod_eq_of_lt (by omega)
        have hread := readElem_append a epre (emid ++ epost) x c n epre.length rfl
        have hih := ih f (epre ++ [x]) (tpre ++ [x]) tmid (by omega) (by simp [h2])
          (by simp; omega) (by omega)
        simp only [List.length_append, List.length_singleton, List.append_assoc,
          List.singleton_append] at hih
        simp only [copyToArray, ConstIterator.mk.injEq, hne, and_false, if_false]
        rw [bind_ok_of x ⟨a, epre ++ (x :: emid ++ epost), c, n⟩]
        · have hk : epre.length < (tpre ++ (y :: tmid ++ tpost)).length := by
            simp; omega
          rw [if_pos hk]
          rw [bind_ok_of (⟨a, epre.length + 1⟩ : ConstIterator) ⟨a, epre ++ (x :: emid ++ epost), c, n⟩]
          · rw [h2, List.cons_append, list_set_append_length, ← h2]
            exact hih
          · simp [ConstIterator.increment, hmod]; omega
        · simp only [ConstIterator.deref]
          rw [if_neg (by simpa using ha), if_neg (by simp; exact ⟨hlt, ha⟩)]
          exact hread

theorem insertLoop_spec (a c n : Nat) (pre : List α) :
    ∀ (mid post : List α) (y : α),
      insertLoop pre.length (pre.length + mid.length) (⟨a, pre ++ (mid ++ y :: post), c, n⟩ : Vector α)
        = Res.ok () ⟨a, pre ++ (mid.head?.getD y :: (mid ++ post)), c, n⟩ := by
  intro mid
  induction mid using List.reverseRecOn with
  | nil =>
    intro post y
    cases h : pre.length <;> simp [insertLoop]
  | append_singleton mid m ih =>
    intro post y
    have hlen : pre.length + (mid ++ [m]).length = (pre.length + mid.length) + 1 := by
      simp; omega
    rw [hlen]
    have hih := ih (m :: post) m
    simp only [insertLoop]
    rw [if_pos (by omega)]
    have hread := readElem_append a (pre ++ mid) (y :: post) m c n (pre.length + mid.length) (by simp)
    simp only [List.append_assoc] at hread
    rw [List.append_assoc, List.singleton_append, bind_ok hread]
    have hwrite := writeElem_append a (pre ++ (mid ++ [m])) post m y c n (pre.length + mid.length + 1)
      (by simp; omega)
    simp only [List.append_assoc, List.singleton_append] at hwrite
    rw [bind_ok hwrite, hih]
    cases mid <;> simp


theorem indexPlus_small (k : Nat) (d : Nat) (h : k + d < SIZE_MOD) : indexPlus k (d : Int) = k + d := by
  unfold indexPlus
  have h1 : ((k : Int) + (d : Int)) = ((k + d : Nat) : Int) := by push_cast; rfl
  rw [h1, ← Int.natCast_mod, Int.toNat_natCast, Nat.mod_eq_of_lt h]

theorem Holds.buffer {v : Vector α} {s : List α} (h : v.Holds s) :
    ∃ rest, v = ⟨v.addr, s ++ rest, v.maxCapacity, s.length⟩ ∧ s.length + rest.length = v.maxCapacity
      ∧ v.size = s.length ∧ v.addr ≠ 0 := by
  obtain ⟨⟨h0, h1, h2⟩, h3⟩ := h
  refine ⟨v.elemArray.drop v.size, ?_, ?_, ?_, h0⟩
  · have hs : s.length = v.size := by
      rw [← h3, toList, List.length_take]; omega
    rw [hs, ← h3]
    simp [toList]
  · rw [← h3]; simp [toList]; omega
  · rw [← h3, toList, List.length_take]; omega

theorem holds_mk (a c : Nat) (s rest : List α) (ha : a ≠ 0) (hc : s.length + rest.length = c) :
    (⟨a, s ++ rest, c, s.length⟩ : Vector α).Holds s := by
  refine ⟨⟨ha, ?_, ?_⟩, ?_⟩
  · simp [hc]
  · simp; omega
  · simp [toList]

theorem realloc_spec [Inhabited α] (a c : Nat) (s rest : List α) (ha : a ≠ 0)
    (hc : s.length ≤ (if c = 0 then BEGINNINING_CAPACITY else c * 2)) (hn : s.length < SIZE_MOD) :
    realloc (⟨a, s ++ rest, c, s.length⟩ : Vector α)
      = Res.ok () ⟨a, s ++ List.replicate ((if c = 0 then BEGINNINING_CAPACITY else c * 2) - s.length) default,
          (if c = 0 then BEGINNINING_CAPACITY else c * 2), s.length⟩ := by
  generalize hcap : (if c = 0 then BEGINNINING_CAPACITY else c * 2) = cap at hc
  have hrep : List.replicate cap (default : α)
      = [] ++ (List.replicate s.length default ++ List.replicate (cap - s.length) default) := by
    rw [List.nil_append, ← List.replicate_add]; congr 1; omega
  have h := copyToArray_spec a cap s.length ha hn rest (List.replicate (cap - s.length) (default : α))
    s (s.length + 1) [] [] (List.replicate s.length default) (by simp) rfl (by simp) (by omega)
  simp only [List.nil_append, List.length_nil] at h hrep
  simp only [realloc, getState_bind, modifyState_bind, hcap, cbegin, cend]
  rw [hrep, bind_ok h]
  rfl

theorem Item.read_outside (b : Bool) (x : α) (v : Vector α) :
    Item.read b (Item.outside x) v = Res.ok x v := rfl

theorem insert_core (b : Bool) (a c : Nat) (s post : List α) (y x : α) (i : Nat) (hi : i ≤ s.length)
    (it : ConstIterator) (hit : it.index = i) :
    (do
      let v1 ← getState
      insertLoop it.getIndex v1.size
      let x1 ← Item.read b (Item.outside x)
      writeElem it.getIndex x1
      modifyState fun v => { v with size := v.size + 1 } : M (Vector α) Unit)
      (⟨a, s ++ y :: post, c, s.length⟩ : Vector α)
      = Res.ok () ⟨a, (s.take i ++ [x] ++ s.drop i) ++ post, c, (s.take i ++ [x] ++ s.drop i).length⟩ := by
  have hs : s = s.take i ++ s.drop i := (List.take_append_drop i s).symm
  have hl : (s.take i).length = i := by simp [hi]
  have hloop := insertLoop_spec a c s.length (s.take i) (s.drop i) post y
  have hlen : (s.take i).length + (s.drop i).length = s.length := by
    rw [← List.length_append, List.take_append_drop]
  rw [hlen, hl, ← List.append_assoc, List.take_append_drop] at hloop
  have hw := writeElem_append a (s.take i) (s.drop i ++ post) x ((s.drop i).head?.getD y) c s.length i hl.symm
  simp only [getState_bind, ConstIterator.getIndex, hit]
  rw [bind_ok hloop, bind_ok (Item.read_outside b x _), bind_ok hw]
  simp only [modifyState_run, List.append_assoc, List.singleton_append, List.length_append,
    List.length_cons]
  rw [← hlen]
  simp [Nat.add_assoc]


theorem vec_insert_spec [Inhabited α] (v : Vector α) (s : List α) (it : ConstIterator) (x : α)
    (hv : v.Holds s) (hi : it.index ≤ s.length) (hsz : v.size < SIZE_MOD) :
    ∃ v1, insert it (Item.outside x) v = Res.ok () v1
      ∧ v1.Holds (s.take it.index ++ [x] ++ s.drop it.index)
      ∧ v1.addr = v.addr ∧ v1.maxCapacity = grown v.maxCapacity v.size := by
  obtain ⟨rest, hveq, hcap, hsize, ha⟩ := hv.buffer
  generalize v.addr = a at hveq ha
  generalize v.maxCapacity = c at hveq hcap
  subst hveq
  simp only at hsz
  by_cases hge : s.length ≥ c
  · have hrest : rest = [] := by
      cases rest with
      | nil => rfl
      | cons _ _ => simp at hcap; omega
    subst hrest
    simp only [List.length_nil, Nat.add_zero] at hcap
    have hc : s.length < (if c = 0 then BEGINNINING_CAPACITY else c * 2) := by
      split
      · simp [BEGINNINING_CAPACITY]; omega
      · omega
    have hr := realloc_spec a c s [] ha (le_of_lt hc) hsz
    generalize hcap' : (if c = 0 then BEGINNINING_CAPACITY else c * 2) = cap at hc hr
    obtain ⟨k, hk⟩ : ∃ k, cap - s.length = k + 1 := ⟨cap - s.length - 1, by omega⟩
    rw [hk, List.replicate_succ] at hr
    have hcore := fun b => insert_core b a cap s (List.replicate k default) default x it.index hi it rfl
    refine ⟨?_, ?_, ?_, ?_, ?_⟩
    rotate_left
    · simp only [insert, getState_bind]
      rw [if_pos hge, bind_ok hr]
      exact hcore _
    · apply holds_mk _ _ _ _ ha
      simp; omega
    · rfl
    · simp [grown, hge, hcap']
  · cases rest with
    | nil => simp at hcap; omega
    | cons y post =>
      have hcore := fun b => insert_core b a c s post y x it.index hi it rfl
      refine ⟨?_, ?_, ?_, ?_, ?_⟩
      rotate_left
      · simp only [insert, getState_bind]
        rw [if_neg hge, bind_ok (pure_run _ _)]
        exact hcore _
      · apply holds_mk _ _ _ _ ha
        simp at hcap ⊢; omega
      · rfl
      · simp [grown, hge]

theorem shifted_getElem (s post : List α) (y : α) (i k : Nat) (hi : i ≤ s.length)
    (hk : k < s.length) :
    (s.take i ++ ((s.drop i).head?.getD y :: (s.drop i ++ post)))[k]?
      = s[if k ≤ i then k else k - 1]? := by
  have hl : (s.take i).length = i := by simp [hi]
  rcases Nat.lt_trichotomy k i with h | h | h
  · rw [List.getElem?_append_left (by omega), if_pos (by omega), List.getElem?_take_of_lt h]
  · subst h
    rw [List.getElem?_append_right (by omega), hl, Nat.sub_self, if_pos (le_refl _)]
    simp [List.head?_drop, List.getElem?_eq_getElem hk]
  · rw [List.getElem?_append_right (by omega), hl, if_neg (by omega)]
    obtain ⟨j, hj⟩ : ∃ j, k - i = j + 1 := ⟨k - i - 1, by omega⟩
    rw [hj, List.getElem?_cons_succ, List.getElem?_append_left (by simp; omega),
      List.getElem?_drop]
    congr 1
    omega

theorem insert_element_core (a c : Nat) (s post : List α) (y z : α) (i k : Nat) (hi : i ≤ s.length)
    (hk : k < s.length) (hz : s[if k ≤ i then k else k - 1]? = some z)
    (it : ConstIterator) (hit : it.index = i) :
    (do
      let v1 ← getState
      insertLoop it.getIndex v1.size
      let x1 ← Item.read false (Item.element k)
      writeElem it.getIndex x1
      modifyState fun v => { v with size := v.size + 1 } : M (Vector α) Unit)
      (⟨a, s ++ y :: post, c, s.length⟩ : Vector α)
      = Res.ok () ⟨a, (s.take i ++ [z] ++ s.drop i) ++ post, c, (s.take i ++ [z] ++ s.drop i).length⟩ := by
  have hs : s = s.take i ++ s.drop i := (List.take_append_drop i s).symm
  have hl : (s.take i).length = i := by simp [hi]
  have hloop := insertLoop_spec a c s.length (s.take i) (s.drop i) post y
  have hlen : (s.take i).length + (s.drop i).length = s.length := by
    rw [← List.length_append, List.take_append_drop]
  rw [hlen, hl, ← List.append_assoc, List.take_append_drop] at hloop
  have hw := writeElem_append a (s.take i) (s.drop i ++ post) z ((s.drop i).head?.getD y) c s.length i hl.symm
  have hread : Item.read false (Item.element k)
      (⟨a, s.take i ++ ((s.drop i).head?.getD y :: (s.drop i ++ post)), c, s.length⟩ : Vector α)
      = Res.ok z ⟨a, s.take i ++ ((s.drop i).head?.getD y :: (s.drop i ++ post)), c, s.length⟩ := by
    simp only [Item.read, Bool.false_eq_true, if_false, readElem]
    rw [shifted_getElem s post y i k hi hk, hz]
  simp only [getState_bind, ConstIterator.getIndex, hit]
  rw [bind_ok hloop, bind_ok hread, bind_ok hw]
  simp only [modifyState_run, List.append_assoc, List.singleton_append, List.length_append,
    List.length_cons]
  rw [← hlen]
  simp [Nat.add_assoc]

theorem vec_insert_element [Inhabited α] (v : Vector α) (s : List α) (it : ConstIterator) (k : Nat)
    (hv : v.Holds s) (hi : it.index ≤ s.length) (hsz : v.size < SIZE_MOD) (hk : k < s.length) :
    (v.size < v.maxCapacity →
      ∃ v1 z, insert it (Item.element k) v = Res.ok () v1
        ∧ v1.Holds (s.take it.index ++ [z] ++ s.drop it.index)
        ∧ s[if k ≤ it.index then k else k - 1]? = some z) ∧
    (v.size = v.maxCapacity → insert it (Item.element k) v = Res.ub) := by
  obtain ⟨rest, hveq, hcap, hsize, ha⟩ := hv.buffer
  generalize v.addr = a at hveq ha
  generalize v.maxCapacity = c at hveq hcap
  subst hveq
  simp only at hsz
  constructor
  · intro hlt
    simp only at hlt
    cases rest with
    | nil => simp at hcap; omega
    | cons y post =>
      have hidx : (if k ≤ it.index then k else k - 1) < s.length := by split <;> omega
      have hz : s[if k ≤ it.index then k else k - 1]?
          = some (s[if k ≤ it.index then k else k - 1]) := List.getElem?_eq_getElem hidx
      have hcore := insert_element_core a c s post y _ it.index k hi hk hz it rfl
      refine ⟨?_, _, ?_, ?_, hz⟩
      rotate_left
      · simp only [insert, getState_bind]
        rw [if_neg (by omega), bind_ok (pure_run _ _)]
        have hd : decide (s.length ≥ c) = false := by simp; omega
        rw [hd]
        exact hcore
      · apply holds_mk _ _ _ _ ha
        simp at hcap ⊢; omega
  · intro heq
    simp only at heq
    have hrest : rest = [] := by
      cases rest with
      | nil => rfl
      | cons _ _ => simp at hcap; omega
    subst hrest
    simp only [List.length_nil, Nat.add_zero] at hcap
    have hc : s.length < (if c = 0 then BEGINNINING_CAPACITY else c * 2) := by
      split
      · simp [BEGINNINING_CAPACITY]; omega
      · omega
    have hr := realloc_spec a c s [] ha (le_of_lt hc) hsz
    generalize hcap1 : (if c = 0 then BEGINNINING_CAPACITY else c * 2) = cap at hc hr
    obtain ⟨j, hj⟩ : ∃ j, cap - s.length = j + 1 := ⟨cap - s.length - 1, by omega⟩
    rw [hj, List.replicate_succ] at hr
    have hs : s = s.take it.index ++ s.drop it.index := (List.take_append_drop _ s).symm
    have hl : (s.take it.index).length = it.index := by simp [hi]
    have hloop := insertLoop_spec a cap s.length (s.take it.index) (s.drop it.index)
      (List.replicate j default) default
    have hlen : (s.take it.index).length + (s.drop it.index).length = s.length := by
      rw [← List.length_append, List.take_append_drop]
    rw [hlen, hl, ← List.append_assoc, List.take_append_drop] at hloop
    simp only [insert, getState_bind]
    rw [if_pos (by omega), bind_ok hr]
    simp only [getState_bind, ConstIterator.getIndex]
    rw [bind_ok hloop]
    have hd : decide (s.length ≥ c) = true := by simp; omega
    rw [hd]
    rfl

end Vector

/-! ## Lemmas: `Vector` removal -/

namespace Vector
variable {α : Type}


theorem popFirstLoop_spec (a c n : Nat) (post : List α) :
    ∀ (mid pre : List α) (y : α),
      popFirstLoop mid.length pre.length (⟨a, pre ++ (y :: (mid ++ post)), c, n⟩ : Vector α)
        = Res.ok () ⟨a, pre ++ (mid ++ (mid.getLastD y :: post)), c, n⟩ := by
  intro mid
  induction mid with
  | nil => intro pre y; rfl
  | cons m mid ih =>
    intro pre y
    have hread := readElem_append a (pre ++ [y]) (mid ++ post) m c n (pre.length + 1) (by simp)
    simp only [List.append_assoc, List.singleton_append] at hread
    have hwrite := writeElem_append a pre (m :: (mid ++ post)) m y c n pre.length rfl
    have hih := ih (pre ++ [m]) m
    simp only [List.append_assoc, List.singleton_append, List.length_append,
      List.length_singleton] at hih
    simp only [List.length_cons, popFirstLoop, List.cons_append]
    rw [bind_ok hread, bind_ok hwrite, hih, List.getLastD_cons]

theorem vec_popFirst_spec (v : Vector α) (x : α) (s : List α) (hv : v.Holds (x :: s)) :
    ∃ v1, popFirst v = Res.ok x v1 ∧ v1.Holds s ∧ v1.addr = v.addr
      ∧ v1.maxCapacity = v.maxCapacity := by
  obtain ⟨rest, hveq, hcap, hsize, ha⟩ := hv.buffer
  generalize v.addr = a at hveq ha
  generalize v.maxCapacity = c at hveq hcap
  subst hveq
  have hread := readElem_append a [] (s ++ rest) x c (s.length + 1) 0 rfl
  have hloop := popFirstLoop_spec a c (s.length + 1) rest s [] x
  simp only [List.nil_append, List.length_nil] at hread hloop
  refine ⟨⟨a, s ++ (s.getLastD x :: rest), c, s.length⟩, ?_, ?_, rfl, rfl⟩
  · simp only [popFirst, getState_bind, List.length_cons, Nat.add_one_ne_zero, if_false,
      List.cons_append, Nat.add_sub_cancel]
    rw [bind_ok hread, bind_ok hloop]
    rfl
  · apply holds_mk _ _ _ _ ha
    simp at hcap ⊢; omega

theorem popFirst_empty (v : Vector α) (h : v.size = 0) :
    popFirst v = Res.throw Exception.logic_error v := by
  simp [popFirst, getState_bind, h]

theorem popLast_empty (v : Vector α) (h : v.size = 0) :
    popLast v = Res.throw Exception.logic_error v := by
  simp [popLast, getState_bind, h]

theorem vec_popLast_spec (v : Vector α) (x : α) (s : List α) (hv : v.Holds (s ++ [x])) :
    ∃ v1, popLast v = Res.ok x v1 ∧ v1.Holds s ∧ v1.addr = v.addr
      ∧ v1.maxCapacity = v.maxCapacity := by
  obtain ⟨rest, hveq, hcap, hsize, ha⟩ := hv.buffer
  generalize v.addr = a at hveq ha
  generalize v.maxCapacity = c at hveq hcap
  subst hveq
  have hread := readElem_append a s rest x c s.length s.length rfl
  refine ⟨⟨a, s ++ (x :: rest), c, s.length⟩, ?_, ?_, rfl, rfl⟩
  · simp only [popLast, getState_bind, List.length_append, List.length_singleton,
      Nat.add_one_ne_zero, if_false, modifyState_bind, Nat.add_sub_cancel, List.append_assoc,
      List.singleton_append]
    exact hread
  · apply holds_mk _ _ _ _ ha
    simp at hcap ⊢; omega


theorem vec_increment_spec (v : Vector α) (a k : Nat) (hk : k + 1 ≤ v.size) (hn : v.size < SIZE_MOD) :
    ConstIterator.increment ⟨a, k⟩ v = Res.ok ⟨a, k + 1⟩ v := by
  have hmod : (k + 1) % SIZE_MOD = k + 1 := Nat.mod_eq_of_lt (by omega)
  simp only [ConstIterator.increment, hmod]
  rw [if_neg (by omega)]

theorem copyLoop_spec (a c n : Nat) (ha : a ≠ 0) (hn : n < SIZE_MOD) (R : List α) :
    ∀ (T : List α) (fuel : Nat) (P G : List α),
      P.length + G.length + T.length = n → T.length < fuel →
      copyLoop fuel ⟨a, P.length + G.length⟩ ⟨a, n⟩ ⟨a, P.length⟩
          (⟨a, P ++ (G ++ (T ++ R)), c, n⟩ : Vector α)
        = Res.ok () ⟨a, P ++ (T ++ ((G ++ T).drop T.length ++ R)), c, n⟩ := by
  intro T
  induction T with
  | nil =>
    intro fuel P G h1 h2
    cases fuel with
    | zero => simp at h2
    | succ f =>
      simp at h1
      simp [copyLoop, h1]
  | cons t T ih =>
    intro fuel P G h1 h2
    cases fuel with
    | zero => simp at h2
    | succ f =>
      simp only [List.length_cons] at h1 h2
      obtain ⟨g0, G1, hG⟩ : ∃ g0 G1, G ++ [t] = g0 :: G1 := by
        cases G with
        | nil => exact ⟨t, [], rfl⟩
        | cons g G => exact ⟨g, G ++ [t], rfl⟩
      have hlen : G1.length = G.length := by
        have := congrArg List.length hG
        simp at this
        omega
      have hbuf : P ++ (G ++ (t :: T ++ R)) = P ++ (g0 :: (G1 ++ (T ++ R))) := by
        have : G ++ (t :: T ++ R) = (G ++ [t]) ++ (T ++ R) := by simp
        rw [this, hG]; rfl
      have hread := readElem_append a (P ++ G) (T ++ R) t c n (P.length + G.length) (by simp)
      simp only [List.append_assoc] at hread
      have hwrite := writeElem_append a P (G1 ++ (T ++ R)) t g0 c n P.length rfl
      have hne : P.length + G.length ≠ n := by omega
      have hih := ih f (P ++ [t]) G1 (by simp; omega) (by omega)
      simp only [List.length_append, List.length_singleton, List.append_assoc,
        List.singleton_append] at hih
      have hdrop : (G ++ t :: T).drop (T.length + 1) = (G1 ++ T).drop T.length := by
        have : G ++ t :: T = (G ++ [t]) ++ T := by simp
        rw [this, hG]; rfl
      simp only [copyLoop, ConstIterator.mk.injEq, hne, and_false, if_false]
      rw [bind_ok_of t ⟨a, P ++ (G ++ (t :: T ++ R)), c, n⟩]
      · rw [bind_ok_of () ⟨a, P ++ (t :: (G1 ++ (T ++ R))), c, n⟩]
        · rw [bind_ok (vec_increment_spec _ a P.length (by simp; omega) hn),
            bind_ok (vec_increment_spec _ a (P.length + G.length) (by simp; omega) hn)]
          rw [hlen] at hih
          have e : P.length + G.length + 1 = P.length + 1 + G.length := by omega
          rw [e, hih, List.length_cons, hdrop]
          simp
        · simp only [Iterator.assign]
          rw [if_neg (by simpa using ha), if_neg (by simp; exact ⟨by omega, ha⟩), hbuf]
          exact hwrite
      · simp only [ConstIterator.deref]
        rw [if_neg (by simpa using ha), if_neg (by simp; exact ⟨by omega, ha⟩)]
        exact hread

theorem std_copy_spec (a c : Nat) (ha : a ≠ 0) (P G T R : List α)
    (hn : P.length + G.length + T.length < SIZE_MOD) :
    std_copy ⟨a, P.length + G.length⟩ ⟨a, P.length + G.length + T.length⟩ ⟨a, P.length⟩
        (⟨a, P ++ (G ++ (T ++ R)), c, P.length + G.length + T.length⟩ : Vector α)
      = Res.ok () ⟨a, P ++ (T ++ ((G ++ T).drop T.length ++ R)), c,
          P.length + G.length + T.length⟩ := by
  simp only [std_copy, getState_bind]
  exact copyLoop_spec a c _ ha hn R T _ P G rfl (by omega)


theorem plus_one_spec (v : Vector α) (a i : Nat) (hi : i + 1 ≤ v.size) (hn : v.size < SIZE_MOD) :
    ConstIterator.plus ⟨a, i⟩ 1 v = Res.ok ⟨a, i + 1⟩ v := by
  have h := indexPlus_small i 1 (by omega)
  simp only [Nat.cast_one] at h
  simp only [ConstIterator.plus, h]
  rw [if_neg (by omega)]

theorem plus_nat_spec (v : Vector α) (a i : Nat) (hi : i ≤ v.size) (hn : v.size < SIZE_MOD) :
    ConstIterator.plus ⟨a, 0⟩ (i : Int) v = Res.ok ⟨a, i⟩ v := by
  have h := indexPlus_small 0 i (by omega)
  simp only [Nat.zero_add] at h
  simp only [ConstIterator.plus, h]
  rw [if_neg (by omega)]

theorem vec_eraseRange_spec (v : Vector α) (s : List α) (i j : Nat) (hv : v.Holds s)
    (hij : i ≤ j) (hj : j ≤ s.length) (hn : s.length < SIZE_MOD) :
    ∃ v1, eraseRange ⟨v.addr, i⟩ ⟨v.addr, j⟩ v = Res.ok () v1 ∧ v1.Holds (s.take i ++ s.drop j)
      ∧ v1.addr = v.addr ∧ v1.maxCapacity = v.maxCapacity := by
  obtain ⟨rest, hveq, hcap, hsize, ha⟩ := hv.buffer
  generalize v.addr = a at hveq ha
  generalize v.maxCapacity = c at hveq hcap
  subst hveq
  have hs : s = s.take i ++ ((s.drop i).take (j - i) ++ s.drop j) := by
    have h1 : s.drop j = (s.drop i).drop (j - i) := by
      rw [List.drop_drop]; congr 1; omega
    rw [h1, List.take_append_drop, List.take_append_drop]
  have hP : (s.take i).length = i := by simp; omega
  have hG : ((s.drop i).take (j - i)).length = j - i := by simp; omega
  have hT : (s.drop j).length = s.length - j := by simp
  generalize s.take i = P at hs hP
  generalize (s.drop i).take (j - i) = G at hs hG
  generalize s.drop j = T at hs hT
  have hlen : s.length = P.length + G.length + T.length := by
    rw [hs]; simp; omega
  have hcopy := std_copy_spec a c ha P G T rest (by omega)
  rw [← hlen] at hcopy
  have hbuf : s ++ rest = P ++ (G ++ (T ++ rest)) := by rw [hs]; simp
  have hjm : j % SIZE_MOD = j := Nat.mod_eq_of_lt (by omega)
  have hsz : (s.length + SIZE_MOD - j % SIZE_MOD + i) % SIZE_MOD = (P ++ T).length := by
    rw [hjm]
    have : s.length + SIZE_MOD - j + i = (s.length - j + i) + SIZE_MOD := by omega
    rw [this, Nat.add_mod_right, Nat.mod_eq_of_lt (by omega)]
    simp; omega
  refine ⟨⟨a, (P ++ T) ++ ((G ++ T).drop T.length ++ rest), c, (P ++ T).length⟩, ?_, ?_, rfl, rfl⟩
  · simp only [eraseRange, getState_bind, ConstIterator.getIndex]
    rw [if_neg (by omega), hbuf]
    have e1 : (⟨a, j⟩ : ConstIterator) = ⟨a, P.length + G.length⟩ := by
      congr 1; omega
    have e2 : (⟨a, i⟩ : ConstIterator) = ⟨a, P.length⟩ := by rw [hP]
    simp only [cend]
    rw [e1, e2, bind_ok hcopy, modifyState_run]
    simp only [hsz]
    congr 1
    simp
  · apply holds_mk _ _ _ _ ha
    rw [← hcap, hlen]
    simp
    omega

theorem eraseRange_invalid (v : Vector α) (first last : ConstIterator)
    (h : first.index > last.index) :
    eraseRange first last v = Res.throw Exception.invalid_argument v := by
  simp [eraseRange, getState_bind, ConstIterator.getIndex, h]

theorem vec_erase_spec (v : Vector α) (s : List α) (i : Nat) (hv : v.Holds s)
    (hi : i < s.length) (hn : s.length < SIZE_MOD) :
    ∃ v1, erase ⟨v.addr, i⟩ v = Res.ok () v1 ∧ v1.Holds (s.take i ++ s.drop (i + 1))
      ∧ v1.addr = v.addr ∧ v1.maxCapacity = v.maxCapacity := by
  obtain ⟨rest, hveq, hcap, hsize, ha⟩ := hv.buffer
  generalize v.addr = a at hveq ha
  generalize v.maxCapacity = c at hveq hcap
  subst hveq
  have hs : s = s.take i ++ ([s[i]] ++ s.drop (i + 1)) := by
    rw [List.singleton_append, ← List.drop_eq_getElem_cons hi, List.take_append_drop]
  have hP : (s.take i).length = i := by simp; omega
  have hT : (s.drop (i + 1)).length = s.length - (i + 1) := by simp
  generalize s.take i = P at hs hP
  generalize s[i] = g at hs
  generalize s.drop (i + 1) = T at hs hT
  have hlen : s.length = P.length + [g].length + T.length := by
    rw [hs]; simp; omega
  have hcopy := std_copy_spec a c ha P [g] T rest (by omega)
  rw [← hlen] at hcopy
  have hbuf : s ++ rest = P ++ ([g] ++ (T ++ rest)) := by rw [hs]; simp
  have hplus := plus_one_spec (⟨a, s ++ rest, c, s.length⟩ : Vector α) a i hi hn
  refine ⟨⟨a, (P ++ T) ++ (([g] ++ T).drop T.length ++ rest), c, (P ++ T).length⟩, ?_, ?_, rfl, rfl⟩
  · simp only [erase, getState_bind, ConstIterator.getIndex]
    rw [if_neg (by omega), bind_ok hplus]
    have e1 : (⟨a, i + 1⟩ : ConstIterator) = ⟨a, P.length + [g].length⟩ := by
      rw [hP]; rfl
    have e2 : (⟨a, i⟩ : ConstIterator) = ⟨a, P.length⟩ := by rw [hP]
    simp only [cend]
    rw [e1, e2, hbuf, bind_ok hcopy, modifyState_run]
    have e3 : s.length - 1 = (P ++ T).length := by
      simp at hlen ⊢; omega
    rw [e3]
    congr 1
    simp
  · apply holds_mk _ _ _ _ ha
    rw [← hcap, hlen]
    simp
    omega

theorem erase_invalid (v : Vector α) (a i : Nat) (hi : v.size ≤ i) (hn : v.size + 1 < SIZE_MOD) :
    erase ⟨a, i⟩ v = Res.throw
      (if v.size < i then Exception.invalid_argument else Exception.out_of_range) v := by
  by_cases h : v.size < i
  · simp [erase, getState_bind, ConstIterator.getIndex, h]
  · have hi2 : i = v.size := by omega
    subst hi2
    have hp := indexPlus_small v.size 1 (by omega)
    simp only [Nat.cast_one] at hp
    have : ConstIterator.plus ⟨a, v.size⟩ 1 v = Res.throw Exception.out_of_range v := by
      simp [ConstIterator.plus, hp]
    simp only [erase, getState_bind, ConstIterator.getIndex, lt_irrefl, gt_iff_lt, if_false]
    rw [bind_throw this]

end Vector

/-! ## Lemmas: the bounded copy loops always finish -/

section monad2
variable {σ ρ τ : Type}

theorem bind_ne_timeout {m : M σ ρ} {f : ρ → M σ τ} {s : σ} (hm : m s ≠ Res.timeout)
    (hf : ∀ r t, m s = Res.ok r t → f r t ≠ Res.timeout) : (m >>= f) s ≠ Res.timeout := by
  rw [bind_run]
  unfold M.bind
  cases h : m s with
  | ok r t => exact hf r t h
  | throw e t => simp
  | ub => simp
  | timeout => exact absurd h hm

end monad2

namespace Vector
variable {α : Type}

theorem deref_cases (it : ConstIterator) (v : Vector α) :
    ConstIterator.deref it v ≠ Res.timeout ∧
    ∀ x t, ConstIterator.deref it v = Res.ok x t → t = v ∧ it.index < v.size := by
  unfold ConstIterator.deref
  split
  · exact ⟨by simp, by intro x t h; cases h⟩
  split
  · exact ⟨by simp, by intro x t h; cases h⟩
  · rename_i hc
    unfold readElem
    split
    · refine ⟨by simp, ?_⟩
      intro x t h
      cases h
      exact ⟨rfl, by
        by_contra hlt
        exact hc (Or.inl (by omega))⟩
    · exact ⟨by simp, by intro x t h; cases h⟩

theorem assign_cases (it : Iterator) (x : α) (v : Vector α) :
    Iterator.assign it x v ≠ Res.timeout ∧
    ∀ u t, Iterator.assign it x v = Res.ok u t → t.size = v.size := by
  unfold Iterator.assign
  split
  · exact ⟨by simp, by intro u t h; cases h⟩
  split
  · exact ⟨by simp, by intro u t h; cases h⟩
  · unfold writeElem
    split
    · refine ⟨by simp, ?_⟩
      intro u t h
      cases h
      rfl
    · exact ⟨by simp, by intro u t h; cases h⟩

theorem increment_cases (it : ConstIterator) (v : Vector α) :
    ConstIterator.increment it v ≠ Res.timeout ∧
    ∀ r t, ConstIterator.increment it v = Res.ok r t →
      t = v ∧ r.index = (it.index + 1) % SIZE_MOD := by
  unfold ConstIterator.increment
  split
  · exact ⟨by simp, by intro r t h; cases h⟩
  · refine ⟨by simp, ?_⟩
    intro r t h
    cases h
    exact ⟨rfl, rfl⟩

theorem copyLoop_total : ∀ (fuel : Nat) (first last : ConstIterator) (result : Iterator)
    (v : Vector α), v.size < SIZE_MOD → 1 ≤ fuel → v.size + 1 ≤ fuel + first.index →
    copyLoop fuel first last result v ≠ Res.timeout := by
  intro fuel
  induction fuel with
  | zero => intro _ _ _ _ _ h; omega
  | succ n ih =>
    intro first last result v hs _ hf
    unfold copyLoop
    split
    · simp
    · apply bind_ne_timeout (deref_cases first v).1
      intro x t hd
      obtain ⟨ht, hlt⟩ := (deref_cases first v).2 x t hd
      subst ht
      apply bind_ne_timeout (assign_cases result x t).1
      intro u t1 ha
      have hsz := (assign_cases result x t).2 u t1 ha
      apply bind_ne_timeout (increment_cases result t1).1
      intro r1 t2 hi1
      obtain ⟨ht2, _⟩ := (increment_cases result t1).2 r1 t2 hi1
      subst ht2
      apply bind_ne_timeout (increment_cases first t2).1
      intro f1 t3 hi2
      obtain ⟨ht3, hidx⟩ := (increment_cases first t2).2 f1 t3 hi2
      subst ht3
      have hmod : (first.index + 1) % SIZE_MOD = first.index + 1 :=
        Nat.mod_eq_of_lt (by omega)
      apply ih
      · omega
      · omega
      · rw [hidx, hmod]; omega

theorem std_copy_total (first last : ConstIterator) (result : Iterator) (v : Vector α)
    (hs : v.size < SIZE_MOD) : std_copy first last result v ≠ Res.timeout := by
  simp only [std_copy, getState_bind]
  exact copyLoop_total _ _ _ _ _ hs (by omega) (by omega)

theorem copyToArray_total : ∀ (fuel : Nat) (first last : ConstIterator) (temp : List α)
    (k : Nat) (v : Vector α), v.size < SIZE_MOD → 1 ≤ fuel → v.size + 1 ≤ fuel + first.index →
    copyToArray fuel first last temp k v ≠ Res.timeout := by
  intro fuel
  induction fuel with
  | zero => intro _ _ _ _ _ _ h; omega
  | succ n ih =>
    intro first last temp k v hs _ hf
    unfold copyToArray
    split
    · simp
    · apply bind_ne_timeout (deref_cases first v).1
      intro x t hd
      obtain ⟨ht, hlt⟩ := (deref_cases first v).2 x t hd
      subst ht
      split
      · apply bind_ne_timeout (increment_cases first t).1
        intro f1 t3 hi2
        obtain ⟨ht3, hidx⟩ := (increment_cases first t).2 f1 t3 hi2
        subst ht3
        have hmod : (first.index + 1) % SIZE_MOD = first.index + 1 :=
          Nat.mod_eq_of_lt (by omega)
        apply ih
        · omega
        · omega
        · rw [hidx, hmod]; omega
      · simp [undefined]

end Vector

/-! ## Lemmas: `LinkedList` -/

namespace LinkedList
variable {α : Type} {τ : Type}


/-! ### Primitive steps -/

theorem getNext_bind (p : Nat) (f : Nat → M (LinkedList α) τ) (l : LinkedList α) (h : l.valid p) :
    (getNext p >>= f) l = f (l.heap.next p) l :=
  bind_ok (by simp [getNext, h])

theorem getPrev_bind (p : Nat) (f : Nat → M (LinkedList α) τ) (l : LinkedList α) (h : l.valid p) :
    (getPrev p >>= f) l = f (l.heap.prev p) l :=
  bind_ok (by simp [getPrev, h])

theorem getValue_bind (p : Nat) (f : α → M (LinkedList α) τ) (l : LinkedList α) (h : l.valid p) :
    (getValue p >>= f) l = f (l.heap.value p) l :=
  bind_ok (by simp [getValue, h])

theorem setNext_bind (p q : Nat) (f : Unit → M (LinkedList α) τ) (l : LinkedList α) (h : l.valid p) :
    (setNext p q >>= f) l = f () (l.withNext p q) :=
  bind_ok (by simp [setNext, h])

theorem setPrev_bind (p q : Nat) (f : Unit → M (LinkedList α) τ) (l : LinkedList α) (h : l.valid p) :
    (setPrev p q >>= f) l = f () (l.withPrev p q) :=
  bind_ok (by simp [setPrev, h])

@[simp] theorem newNode_bind (nd : Node α) (f : Nat → M (LinkedList α) τ) (l : LinkedList α) :
    (newNode nd >>= f) l = f (l.heap.brk + 1) (l.withNew nd) := rfl

theorem deleteNode_bind (p : Nat) (f : Unit → M (LinkedList α) τ) (l : LinkedList α) (h : l.valid p) :
    (deleteNode p >>= f) l = f () (l.withDelete p) :=
  bind_ok (by simp [deleteNode, h.2]; exact fun h0 => absurd h0 h.1)

theorem deleteNode_run (p : Nat) (l : LinkedList α) (h : l.valid p) :
    deleteNode p l = Res.ok () (l.withDelete p) := by
  simp [deleteNode, h.2]; exact fun h0 => absurd h0 h.1

/-! ### Linked paths -/

theorem Linked_cons_cons (h : Heap α) (a b : Nat) (rest : List Nat) :
    Linked h (a :: b :: rest) ↔ h.next a = b ∧ h.prev b = a ∧ Linked h (b :: rest) := by
  simp [Linked]

@[simp] theorem Linked_nil (h : Heap α) : Linked h [] := by simp [Linked]

@[simp] theorem Linked_singleton (h : Heap α) (a : Nat) : Linked h [a] := by simp [Linked]

theorem Linked_append (h : Heap α) : ∀ (U : List Nat) (y : Nat) (V : List Nat),
    Linked h (U ++ y :: V) ↔ Linked h (U ++ [y]) ∧ Linked h (y :: V) := by
  intro U
  induction U with
  | nil => intro y V; simp
  | cons a U ih =>
    intro y V
    cases U with
    | nil => simp [Linked_cons_cons, and_assoc]
    | cons b U =>
      have := ih y V
      simp only [List.cons_append, Linked_cons_cons] at this ⊢
      rw [this]
      tauto

theorem Linked_frame (h h1 : Heap α) : ∀ (path : List Nat),
    (∀ p ∈ path.dropLast, h1.next p = h.next p) → (∀ p ∈ path.tail, h1.prev p = h.prev p) →
    Linked h path → Linked h1 path := by
  intro path
  induction path with
  | nil => intro _ _ _; simp
  | cons a rest ih =>
    intro hn hp hl
    cases rest with
    | nil => simp
    | cons b rest =>
      rw [Linked_cons_cons] at hl ⊢
      refine ⟨?_, ?_, ?_⟩
      · rw [hn a (by simp)]; exact hl.1
      · rw [hp b (by simp)]; exact hl.2.1
      · apply ih
        · intro p hp1; apply hn; simp [List.dropLast] at hp1 ⊢; right; exact hp1
        · intro p hp1; apply hp; simp at hp1 ⊢; right; exact hp1
        · exact hl.2.2


theorem Linked_insert (h h1 : Heap α) (X Y : List Nat) (a b t : Nat)
    (hl : Linked h (X ++ a :: b :: Y))
    (hX : ∀ p ∈ X, p ≠ a ∧ p ≠ t)
    (hXt : ∀ p ∈ (X ++ [a]).tail, p ≠ b ∧ p ≠ t)
    (hY : ∀ p ∈ (b :: Y).dropLast, p ≠ a ∧ p ≠ t)
    (hYt : ∀ p ∈ Y, p ≠ b ∧ p ≠ t)
    (hta : t ≠ a) (htb : t ≠ b)
    (hnext : h1.next = Function.update (Function.update h.next t b) a t)
    (hprev : h1.prev = Function.update (Function.update h.prev t a) b t) :
    Linked h1 (X ++ a :: t :: b :: Y) := by
  rw [Linked_append, Linked_cons_cons] at hl
  obtain ⟨hl1, hab, hba, hl2⟩ := hl
  rw [Linked_append, Linked_cons_cons, Linked_cons_cons]
  refine ⟨?_, ?_, ?_, ?_, ?_, ?_⟩
  · apply Linked_frame h h1 _ _ _ hl1
    · intro p hp
      rw [List.dropLast_concat] at hp
      have := hX p hp
      simp [hnext, Function.update_apply, this.1, this.2]
    · intro p hp
      have := hXt p hp
      simp [hprev, Function.update_apply, this.1, this.2]
  · simp [hnext]
  · simp [hprev, Function.update_apply, hta, htb]
  · simp [hnext, Function.update_apply, hta, htb]
  · simp [hprev]
  · apply Linked_frame h h1 _ _ _ hl2
    · intro p hp
      have := hY p hp
      simp [hnext, Function.update_apply, this.1, this.2]
    · intro p hp
      have := hYt p hp
      simp [hprev, Function.update_apply, this.1, this.2]

theorem Linked_bypass (h h1 : Heap α) (X R Y : List Nat) (a b : Nat)
    (hl : Linked h (X ++ a :: (R ++ b :: Y)))
    (hna : h1.next a = b) (hpb : h1.prev b = a)
    (hX : ∀ p ∈ X, h1.next p = h.next p)
    (hXt : ∀ p ∈ (X ++ [a]).tail, h1.prev p = h.prev p)
    (hY : ∀ p ∈ (b :: Y).dropLast, h1.next p = h.next p)
    (hYt : ∀ p ∈ Y, h1.prev p = h.prev p) :
    Linked h1 (X ++ a :: b :: Y) := by
  rw [Linked_append] at hl
  obtain ⟨hl1, hl2⟩ := hl
  rw [← List.cons_append, Linked_append] at hl2
  rw [Linked_append, Linked_cons_cons]
  refine ⟨?_, hna, hpb, ?_⟩
  · apply Linked_frame h h1 _ _ _ hl1
    · intro p hp
      rw [List.dropLast_concat] at hp
      exact hX p hp
    · exact hXt
  · apply Linked_frame h h1 _ _ _ hl2.2
    · exact hY
    · exact hYt


theorem Ring.ne_fresh {l : LinkedList α} {ps : List Nat} (hr : Ring l ps) :
    ∀ p ∈ l.sentinel :: ps, p ≠ l.heap.brk + 1 := by
  intro p hp
  have := (hr.live p hp).2
  omega

theorem Ring.insert_between {l : LinkedList α} {pre post : List Nat} (hr : Ring l (pre ++ post))
    (x : α) :
    Ring (l.linkedBetween (pre.getLastD l.sentinel) (post.headD l.sentinel) x)
      (pre ++ (l.heap.brk + 1) :: post) := by
  have hfresh := hr.ne_fresh
  have hlive := hr.live
  have hnd := hr.nodup
  have hlk := hr.linked
  refine ⟨?_, ?_, ?_, ?_⟩
  · -- nodup
    show (l.sentinel :: (pre ++ (l.heap.brk + 1) :: post)).Nodup
    have h1 : (l.sentinel :: (pre ++ (l.heap.brk + 1) :: post)).Perm
        ((l.heap.brk + 1) :: l.sentinel :: (pre ++ post)) := by
      have := @List.perm_middle _ (l.heap.brk + 1) (l.sentinel :: pre) post
      simpa using this
    rw [h1.nodup_iff, List.nodup_cons]
    refine ⟨?_, hnd⟩
    intro hm
    exact hfresh _ hm rfl
  · -- live
    intro p hp
    show (p ≠ nullptr ∧ Function.update l.heap.live (l.heap.brk + 1) true p = true) ∧ p ≤ l.heap.brk + 1
    by_cases hpt : p = l.heap.brk + 1
    · subst hpt
      simp [nullptr]
    · have hp' : p ∈ l.sentinel :: (pre ++ post) := by
        simp at hp ⊢
        tauto
      have := hlive p hp'
      simp [Function.update_apply, hpt, this.1.1, this.1.2]
      omega
  · -- linked
    show Linked (l.linkedBetween (pre.getLastD l.sentinel) (post.headD l.sentinel) x).heap
      (l.sentinel :: (pre ++ (l.heap.brk + 1) :: post ++ [l.sentinel]))
    rcases List.eq_nil_or_concat pre with rfl | ⟨pre1, a, rfl⟩
    · cases post with
      | nil =>
        have := Linked_insert l.heap (l.linkedBetween l.sentinel l.sentinel x).heap [] []
          l.sentinel l.sentinel (l.heap.brk + 1) (by simpa using hlk)
          (by simp) (by simp) (by simp) (by simp)
          (hfresh _ (by simp)).symm (hfresh _ (by simp)).symm rfl rfl
        simpa using this
      | cons b post1 =>
        have := Linked_insert l.heap (l.linkedBetween l.sentinel b x).heap [] (post1 ++ [l.sentinel])
          l.sentinel b (l.heap.brk + 1) (by simpa using hlk)
          (by simp) (by simp)
          (by
            intro p hp
            rw [← List.cons_append, List.dropLast_concat] at hp
            have h1 := hfresh p (by simp at hp ⊢; tauto)
            refine ⟨?_, h1⟩
            rintro rfl
            clear hr hlk hlive hfresh
            simp [List.nodup_append, List.nodup_cons] at hnd hp
            aesop)
          (by
            intro p hp
            have h1 := hfresh p (by simp at hp ⊢; tauto)
            refine ⟨?_, h1⟩
            rintro rfl
            clear hr hlk hlive hfresh
            simp [List.nodup_append, List.nodup_cons] at hnd hp
            aesop)
          (hfresh _ (by simp)).symm (hfresh _ (by simp)).symm rfl rfl
        simpa using this
    · simp only [List.concat_eq_append] at hr hfresh hlive hnd hlk ⊢
      have hg : (pre1 ++ [a]).getLastD l.sentinel = a := by simp
      rw [hg]
      cases post with
      | nil =>
        have := Linked_insert l.heap (l.linkedBetween a l.sentinel x).heap (l.sentinel :: pre1) []
          a l.sentinel (l.heap.brk + 1) (by simpa using hlk)
          (by
            intro p hp
            have h1 := hfresh p (by simp at hp ⊢; tauto)
            refine ⟨?_, h1⟩
            rintro rfl
            clear hr hlk hlive hfresh
            simp [List.nodup_append, List.nodup_cons] at hnd hp
            aesop)
          (by
            intro p hp
            have h1 := hfresh p (by simp at hp ⊢; tauto)
            refine ⟨?_, h1⟩
            rintro rfl
            clear hr hlk hlive hfresh
            simp [List.nodup_append, List.nodup_cons] at hnd hp
            aesop)
          (by simp) (by simp)
          (hfresh _ (by simp)).symm (hfresh _ (by simp)).symm rfl rfl
        simpa using this
      | cons b post1 =>
        have := Linked_insert l.heap (l.linkedBetween a b x).heap (l.sentinel :: pre1)
          (post1 ++ [l.sentinel])
          a b (l.heap.brk + 1) (by simpa using hlk)
          (by
            intro p hp
            have h1 := hfresh p (by simp at hp ⊢; tauto)
            refine ⟨?_, h1⟩
            rintro rfl
            clear hr hlk hlive hfresh
            simp [List.nodup_append, List.nodup_cons] at hnd hp
            aesop)
          (by
            intro p hp
            have h1 := hfresh p (by simp at hp ⊢; tauto)
            refine ⟨?_, h1⟩
            rintro rfl
            clear hr hlk hlive hfresh
            simp [List.nodup_append, List.nodup_cons] at hnd hp
            aesop)
          (by
            intro p hp
            rw [← List.cons_append, List.dropLast_concat] at hp
            have h1 := hfresh p (by simp at hp ⊢; tauto)
            refine ⟨?_, h1⟩
            rintro rfl
            clear hr hlk hlive hfresh
            simp [List.nodup_append, List.nodup_cons] at hnd hp
            aesop)
          (by
            intro p hp
            have h1 := hfresh p (by simp at hp ⊢; tauto)
            refine ⟨?_, h1⟩
            rintro rfl
            clear hr hlk hlive hfresh
            simp [List.nodup_append, List.nodup_cons] at hnd hp
            aesop)
          (hfresh _ (by simp)).symm (hfresh _ (by simp)).symm rfl rfl
        simpa using this
  · show l.size + 1 = _
    simp [hr.size]
    omega


theorem Ring.map_value_insert {l : LinkedList α} {pre post : List Nat} (hr : Ring l (pre ++ post))
    (a b : Nat) (x : α) :
    (pre ++ (l.heap.brk + 1) :: post).map (l.linkedBetween a b x).heap.value
      = pre.map l.heap.value ++ x :: post.map l.heap.value := by
  have hfresh := hr.ne_fresh
  have hv : (l.linkedBetween a b x).heap.value = Function.update l.heap.value (l.heap.brk + 1) x := rfl
  rw [hv, List.map_append, List.map_cons, Function.update_same]
  congr 1
  · apply List.map_congr_left
    intro p hp
    rw [Function.update_noteq (hfresh p (by simp [hp]))]
  · congr 1
    apply List.map_congr_left
    intro p hp
    rw [Function.update_noteq (hfresh p (by simp [hp]))]

theorem Linked_mid (h : Heap α) (X Y : List Nat) (a b : Nat) (hl : Linked h (X ++ a :: b :: Y)) :
    h.next a = b ∧ h.prev b = a := by
  rw [Linked_append, Linked_cons_cons] at hl
  exact ⟨hl.2.1, hl.2.2.1⟩

theorem Ring.valid_sentinel {l : LinkedList α} {ps : List Nat} (hr : Ring l ps) :
    l.valid l.sentinel := (hr.live _ (by simp)).1

theorem Ring.valid_mem {l : LinkedList α} {ps : List Nat} (hr : Ring l ps) {p : Nat} (hp : p ∈ ps) :
    l.valid p := (hr.live _ (by simp [hp])).1

theorem Ring.next_at {l : LinkedList α} {P Q : List Nat} (hr : Ring l (P ++ Q)) :
    l.heap.next (P.getLastD l.sentinel) = Q.headD l.sentinel ∧
    l.heap.prev (Q.headD l.sentinel) = P.getLastD l.sentinel := by
  have hlk := hr.linked
  rcases List.eq_nil_or_concat P with rfl | ⟨pre1, a, rfl⟩
  · cases Q with
    | nil => exact Linked_mid l.heap [] [] _ _ (by simpa using hlk)
    | cons b post1 => exact Linked_mid l.heap [] (post1 ++ [l.sentinel]) _ _ (by simpa using hlk)
  · simp only [List.concat_eq_append] at hlk ⊢
    have hg : (pre1 ++ [a]).getLastD l.sentinel = a := by simp
    rw [hg]
    cases Q with
    | nil => exact Linked_mid l.heap (l.sentinel :: pre1) [] _ _ (by simpa using hlk)
    | cons b post1 =>
      exact Linked_mid l.heap (l.sentinel :: pre1) (post1 ++ [l.sentinel]) _ _ (by simpa using hlk)

theorem Ring.next_sentinel {l : LinkedList α} {ps : List Nat} (hr : Ring l ps) :
    l.heap.next l.sentinel = ps.headD l.sentinel :=
  (Ring.next_at (P := []) (Q := ps) hr).1

theorem Ring.prev_sentinel {l : LinkedList α} {ps : List Nat} (hr : Ring l ps) :
    l.heap.prev l.sentinel = ps.getLastD l.sentinel := by
  have := (Ring.next_at (P := ps) (Q := []) (by simpa using hr)).2
  simpa using this

theorem Ring.valid_headD {l : LinkedList α} {ps : List Nat} (hr : Ring l ps) :
    l.valid (ps.headD l.sentinel) := by
  cases ps with
  | nil => exact hr.valid_sentinel
  | cons b _ => exact hr.valid_mem (by simp)

theorem Ring.valid_getLastD {l : LinkedList α} {ps : List Nat} (hr : Ring l ps) :
    l.valid (ps.getLastD l.sentinel) := by
  rcases List.eq_nil_or_concat ps with rfl | ⟨pre1, a, rfl⟩
  · exact hr.valid_sentinel
  · simp only [List.concat_eq_append] at hr ⊢
    have hg : (pre1 ++ [a]).getLastD l.sentinel = a := by simp
    rw [hg]
    exact hr.valid_mem (by simp)

@[simp] theorem valid_withNext (l : LinkedList α) (a b p : Nat) :
    (l.withNext a b).valid p ↔ l.valid p := Iff.rfl

@[simp] theorem valid_withPrev (l : LinkedList α) (a b p : Nat) :
    (l.withPrev a b).valid p ↔ l.valid p := Iff.rfl

@[simp] theorem valid_withSize (l : LinkedList α) (n p : Nat) :
    (l.withSize n).valid p ↔ l.valid p := Iff.rfl

theorem valid_withNew {l : LinkedList α} {p : Nat} (nd : Node α) (h : l.valid p) :
    (l.withNew nd).valid p := by
  refine ⟨h.1, ?_⟩
  show Function.update l.heap.live (l.heap.brk + 1) true p = true
  simp [Function.update_apply, h.2]

theorem valid_fresh (l : LinkedList α) (nd : Node α) : (l.withNew nd).valid (l.heap.brk + 1) := by
  refine ⟨by simp [nullptr], ?_⟩
  show Function.update l.heap.live (l.heap.brk + 1) true (l.heap.brk + 1) = true
  simp

theorem valid_withDelete {l : LinkedList α} {p r : Nat} (h : l.valid p) (hne : p ≠ r) :
    (l.withDelete r).valid p := by
  refine ⟨h.1, ?_⟩
  show Function.update l.heap.live r false p = true
  simp [Function.update_apply, h.2, hne]

theorem prepend_spec {l : LinkedList α} {ps : List Nat} (hr : Ring l ps) (x : α) :
    prepend x l = Res.ok () (l.linkedBetween l.sentinel (ps.headD l.sentinel) x) := by
  have hs := hr.valid_sentinel
  have hf := hr.valid_headD
  have hn := hr.next_sentinel
  have hfresh := hr.ne_fresh l.sentinel (by simp)
  have hs1 := valid_withNew ⟨x, l.sentinel, ps.headD l.sentinel⟩ hs
  have hf1 := valid_withNew ⟨x, l.sentinel, ps.headD l.sentinel⟩ hf
  have hn1 : (l.withNew ⟨x, l.sentinel, ps.headD l.sentinel⟩).heap.next l.sentinel
      = ps.headD l.sentinel := by
    show Function.update l.heap.next (l.heap.brk + 1) _ l.sentinel = _
    rw [Function.update_noteq hfresh, hn]
  simp only [prepend, getState_bind, getNext_bind, setPrev_bind, setNext_bind, newNode_bind,
    hs, hn, hs1, hn1, hf1, valid_withPrev]
  rfl


theorem append_spec {l : LinkedList α} {ps : List Nat} (hr : Ring l ps) (x : α) :
    append x l = Res.ok () (l.linkedBetween (ps.getLastD l.sentinel) l.sentinel x) := by
  by_cases h0 : l.size = 0
  · have hps : ps = [] := by
      have := hr.size
      rw [h0] at this
      exact List.length_eq_zero.mp this.symm
    subst hps
    simp only [append, getState_bind, h0, if_true]
    exact prepend_spec hr x
  · have hs := hr.valid_sentinel
    have hf := hr.valid_getLastD
    have hn := hr.prev_sentinel
    have hfresh := hr.ne_fresh l.sentinel (by simp)
    have hs1 := valid_withNew ⟨x, ps.getLastD l.sentinel, l.sentinel⟩ hs
    have hf1 := valid_withNew ⟨x, ps.getLastD l.sentinel, l.sentinel⟩ hf
    have hn1 : (l.withNew ⟨x, ps.getLastD l.sentinel, l.sentinel⟩).heap.prev l.sentinel
        = ps.getLastD l.sentinel := by
      show Function.update l.heap.prev (l.heap.brk + 1) _ l.sentinel = _
      rw [Function.update_noteq hfresh, hn]
    simp only [append, getState_bind, h0, if_false, getPrev_bind, setPrev_bind, setNext_bind,
      newNode_bind, hs, hn, hs1, hn1, hf1, valid_withNext]
    rfl

theorem scanBefore_spec (l : LinkedList α) (target : Nat) :
    ∀ (qs : List Nat) (temp fuel : Nat), Linked l.heap (temp :: (qs ++ [target])) →
      (∀ p ∈ temp :: qs, l.valid p) → target ∉ qs → qs.length < fuel →
      scanBefore fuel target temp l = Res.ok (qs.getLastD temp) l := by
  intro qs
  induction qs with
  | nil =>
    intro temp fuel hl hv _ hf
    cases fuel with
    | zero => simp at hf
    | succ f =>
      have hn : l.heap.next temp = target := (Linked_mid l.heap [] [] temp target hl).1
      have ht := hv temp (by simp)
      simp only [scanBefore, getNext_bind, ht, hn, ne_eq, not_true_eq_false, if_false]
      rfl
  | cons q qs ih =>
    intro temp fuel hl hv ht hf
    cases fuel with
    | zero => simp at hf
    | succ f =>
      have hn : l.heap.next temp = q := (Linked_mid l.heap [] (qs ++ [target]) temp q hl).1
      have hvt := hv temp (by simp)
      have hq : q ≠ target := fun h => ht (by simp [h])
      have hl1 : Linked l.heap (q :: (qs ++ [target])) := by
        rw [List.cons_append, Linked_cons_cons] at hl
        exact hl.2.2
      have := ih q f hl1 (fun p hp => hv p (by simp at hp ⊢; tauto)) (fun h => ht (by simp [h]))
        (by simp at hf; omega)
      simp only [scanBefore, getNext_bind, hvt, hn, ne_eq, hq, not_false_eq_true, if_true]
      rw [this, List.getLastD_cons]

theorem scanTo_spec (l : LinkedList α) (target : Nat) :
    ∀ (qs : List Nat) (fuel : Nat), Linked l.heap (qs ++ [target]) →
      (∀ p ∈ qs, l.valid p) → target ∉ qs → qs.length < fuel →
      scanTo fuel target ((qs ++ [target]).headD target) l = Res.ok target l := by
  intro qs
  induction qs with
  | nil =>
    intro fuel _ _ _ hf
    cases fuel with
    | zero => simp at hf
    | succ f => simp [scanTo]
  | cons q qs ih =>
    intro fuel hl hv ht hf
    cases fuel with
    | zero => simp at hf
    | succ f =>
      have hq : q ≠ target := fun h => ht (by simp [h])
      have hvq := hv q (by simp)
      have hn : l.heap.next q = (qs ++ [target]).headD target := by
        cases qs with
        | nil => exact (Linked_mid l.heap [] [] q target hl).1
        | cons q2 qs2 => exact (Linked_mid l.heap [] (qs2 ++ [target]) q q2 hl).1
      have hl1 : Linked l.heap (qs ++ [target]) := by
        cases qs with
        | nil => simp
        | cons q2 qs2 =>
          rw [List.cons_append, List.cons_append, Linked_cons_cons] at hl
          exact hl.2.2
      have := ih f hl1 (fun p hp => hv p (by simp [hp])) (fun h => ht (by simp [h]))
        (by simp at hf; omega)
      simp only [List.cons_append, List.headD_cons, scanTo, ne_eq, hq, not_false_eq_true, if_true,
        getNext_bind, hvq, hn]
      exact this


theorem cbegin_spec {l : LinkedList α} {ps : List Nat} (hr : Ring l ps) :
    cbegin l = Res.ok ⟨l.addr, ps.headD l.sentinel⟩ l := by
  simp only [cbegin, getState_bind, getNext_bind, hr.valid_sentinel, hr.next_sentinel]
  rfl

theorem cbegin_bind {l : LinkedList α} {ps : List Nat} (hr : Ring l ps)
    (f : ConstIterator → M (LinkedList α) τ) :
    (cbegin >>= f) l = f ⟨l.addr, ps.headD l.sentinel⟩ l :=
  bind_ok (cbegin_spec hr)

theorem Linked_prefix (h : Heap α) (U V : List Nat) (hl : Linked h (U ++ V)) : Linked h U := by
  cases V with
  | nil => simpa using hl
  | cons y V =>
    rw [Linked_append] at hl
    rcases List.eq_nil_or_concat U with rfl | ⟨U1, a, rfl⟩
    · simp
    · simp only [List.concat_eq_append] at hl ⊢
      have := hl.1
      rw [List.append_assoc, List.singleton_append, Linked_append] at this
      exact this.1

theorem Linked_suffix (h : Heap α) (U V : List Nat) (hl : Linked h (U ++ V)) : Linked h V := by
  cases V with
  | nil => simp
  | cons y V =>
    rw [Linked_append] at hl
    exact hl.2

theorem insert_spec {l : LinkedList α} {pre post : List Nat} (hr : Ring l (pre ++ post)) (x : α)
    (fuel : Nat) (hf : pre.length < fuel) :
    insert fuel ⟨l.addr, post.headD l.sentinel⟩ x l
      = Res.ok () (l.linkedBetween (pre.getLastD l.sentinel) (post.headD l.sentinel) x) := by
  have hnd := hr.nodup
  cases pre with
  | nil =>
    simp only [insert, cbegin_bind hr, List.nil_append, if_true]
    exact prepend_spec hr x
  | cons p1 pre1 =>
    have hne : post.headD l.sentinel ≠ p1 := by
      intro h
      cases post with
      | nil => simp at h hnd; tauto
      | cons b post1 =>
        simp at h; subst h
        simp [List.nodup_append, List.nodup_cons] at hnd
    simp only [insert, cbegin_bind hr, List.cons_append, List.headD_cons, ConstIterator.mk.injEq,
      true_and, hne, if_false, getState_bind, cend]
    cases post with
    | nil =>
      simp only [List.headD_nil, if_true]
      have := append_spec hr x
      simpa using this
    | cons c post1 =>
      have hc : c ≠ l.sentinel := by
        intro h; subst h
        simp [List.nodup_append, List.nodup_cons] at hnd
      have hlk : Linked l.heap (l.sentinel :: ((p1 :: pre1) ++ [c])) := by
        have := hr.linked
        apply Linked_prefix l.heap _ (post1 ++ [l.sentinel])
        simpa using this
      have hscan := scanBefore_spec l c (p1 :: pre1) l.sentinel fuel hlk
        (fun p hp => (hr.live p (by simp at hp ⊢; tauto)).1)
        (by
          intro hm
          simp [List.nodup_append, List.nodup_cons] at hnd hm
          aesop)
        hf
      have hnx := (hr.next_at).1
      have ha : l.valid ((p1 :: pre1).getLastD l.sentinel) := by
        have : (p1 :: pre1).getLastD l.sentinel ∈ l.sentinel :: (p1 :: pre1 ++ c :: post1) := by
          rw [List.getLastD_cons]
          have := List.getLastD_mem_cons pre1 p1
          simp at this ⊢
          tauto
        exact (hr.live _ this).1
      have hcv : l.valid c := hr.valid_mem (by simp)
      have hta : (p1 :: pre1).getLastD l.sentinel ≠ l.heap.brk + 1 := by
        have : (p1 :: pre1).getLastD l.sentinel ∈ l.sentinel :: (p1 :: pre1 ++ c :: post1) := by
          rw [List.getLastD_cons]
          have := List.getLastD_mem_cons pre1 p1
          simp at this ⊢
          tauto
        exact hr.ne_fresh _ this
      generalize (p1 :: pre1).getLastD l.sentinel = a at hscan hnx ha hta ⊢
      simp only [List.headD_cons] at hnx ⊢
      simp only [hc, if_false, ConstIterator.getCurrent]
      rw [bind_ok hscan]
      have ha1 := valid_withNew ⟨x, a, c⟩ ha
      have hc1 := valid_withNew ⟨x, a, c⟩ hcv
      have ht1 : ((l.withNew ⟨x, a, c⟩).withNext a (l.heap.brk + 1)).valid (l.heap.brk + 1) :=
        valid_fresh l ⟨x, a, c⟩
      have hn1 : ((l.withNew ⟨x, a, c⟩).withNext a (l.heap.brk + 1)).heap.next (l.heap.brk + 1)
          = c := by
        show Function.update (Function.update l.heap.next (l.heap.brk + 1) c) a (l.heap.brk + 1)
          (l.heap.brk + 1) = c
        rw [Function.update_noteq (Ne.symm hta), Function.update_same]
      simp only [getNext_bind, ha, hnx, newNode_bind, setNext_bind, ha1, ht1, hn1, setPrev_bind,
        valid_withNext, hc1]
      rfl


theorem increment_spec (l : LinkedList α) (a q : Nat) (hv : l.valid q) (hq : q ≠ l.sentinel) :
    ConstIterator.increment ⟨a, q⟩ l = Res.ok ⟨a, l.heap.next q⟩ l := by
  simp only [ConstIterator.increment, getState_bind, cend, ConstIterator.mk.injEq, hq, and_false,
    if_false]
  rw [getNext_bind _ _ _ hv]
  rfl

theorem increment_end (l : LinkedList α) :
    ConstIterator.increment l.cend l = Res.throw Exception.out_of_range l := by
  simp [ConstIterator.increment, getState_bind]

theorem incrementTimes_spec (l : LinkedList α) (b : Nat) :
    ∀ (qs : List Nat), Linked l.heap (qs ++ [b]) → (∀ p ∈ qs, l.valid p ∧ p ≠ l.sentinel) →
      ConstIterator.incrementTimes qs.length ⟨l.addr, (qs ++ [b]).headD b⟩ l
        = Res.ok ⟨l.addr, b⟩ l := by
  intro qs
  induction qs with
  | nil => intro _ _; rfl
  | cons q qs ih =>
    intro hl hv
    have hq := hv q (by simp)
    have hn : l.heap.next q = (qs ++ [b]).headD b := by
      cases qs with
      | nil => exact (Linked_mid l.heap [] [] q b hl).1
      | cons q2 qs2 => exact (Linked_mid l.heap [] (qs2 ++ [b]) q q2 hl).1
    have hl1 : Linked l.heap (qs ++ [b]) := Linked_suffix l.heap [q] _ hl
    have := ih hl1 (fun p hp => hv p (by simp [hp]))
    simp only [List.length_cons, ConstIterator.incrementTimes, List.cons_append, List.headD_cons]
    rw [bind_ok (increment_spec l l.addr q hq.1 hq.2), hn]
    exact this

theorem headD_append_headD (pre post : List Nat) (s : Nat) :
    (pre ++ [post.headD s]).headD (post.headD s) = (pre ++ post).headD s := by
  cases pre <;> simp

theorem plus_nat (it : ConstIterator) (d : Nat) (hd : d < 2 ^ 31) :
    (ConstIterator.plus it (d : Int) : M (LinkedList α) ConstIterator)
      = ConstIterator.incrementTimes d it := by
  have h0 : ¬ ((d : Int) = -(2 ^ 63)) := by omega
  simp only [ConstIterator.plus, Int.natAbs_ofNat, if_neg h0, if_pos hd]

theorem plus_nat_large (it : ConstIterator) (d : Nat) (hd : 2 ^ 31 ≤ d) :
    (ConstIterator.plus it (d : Int) : M (LinkedList α) ConstIterator)
      = (ConstIterator.incrementTimes (2 ^ 31) it >>= fun _ => undefined) := by
  have h0 : ¬ ((d : Int) = -(2 ^ 63)) := by omega
  have h1 : ¬ (d < 2 ^ 31) := by omega
  simp only [ConstIterator.plus, Int.natAbs_ofNat, if_neg h0, if_neg h1]

theorem position_spec {l : LinkedList α} {pre post : List Nat} (hr : Ring l (pre ++ post))
    (hn : pre.length < 2 ^ 31) :
    (cbegin >>= fun b => b.plus (pre.length : Int)) l
      = Res.ok ⟨l.addr, post.headD l.sentinel⟩ l := by
  have hnd := hr.nodup
  rw [cbegin_bind hr]
  rw [plus_nat _ _ hn]
  have hl : Linked l.heap (pre ++ [post.headD l.sentinel]) := by
    have h1 := Linked_suffix l.heap [l.sentinel] _ hr.linked
    cases post with
    | nil => simpa using h1
    | cons b post1 =>
      apply Linked_prefix l.heap _ (post1 ++ [l.sentinel])
      simpa using h1
  have := incrementTimes_spec l (post.headD l.sentinel) pre hl
    (by
      intro p hp
      refine ⟨hr.valid_mem (by simp [hp]), ?_⟩
      rintro rfl
      simp [List.nodup_append, List.nodup_cons] at hnd
      tauto)
  rw [headD_append_headD] at this
  exact this


theorem ring_split (s : Nat) (pre post : List Nat) (hnd : (s :: (pre ++ post)).Nodup) :
    ∃ X Y, s :: pre = X ++ [pre.getLastD s] ∧ post ++ [s] = post.headD s :: Y ∧
      (∀ p ∈ X, p ≠ pre.getLastD s ∧ p ∈ s :: (pre ++ post)) ∧
      (∀ p ∈ (X ++ [pre.getLastD s]).tail, p ≠ post.headD s ∧ p ∈ s :: (pre ++ post)) ∧
      (∀ p ∈ (post.headD s :: Y).dropLast, p ≠ pre.getLastD s ∧ p ∈ s :: (pre ++ post)) ∧
      (∀ p ∈ Y, p ≠ post.headD s ∧ p ∈ s :: (pre ++ post)) := by
  rcases List.eq_nil_or_concat pre with rfl | ⟨pre1, a, rfl⟩
  · cases post with
    | nil => exact ⟨[], [], by simp⟩
    | cons b post1 =>
      refine ⟨[], post1 ++ [s], by simp, by simp, by simp, by simp, ?_, ?_⟩
      · intro p hp
        rw [← List.cons_append, List.dropLast_concat] at hp
        refine ⟨?_, by simp at hp ⊢; tauto⟩
        rintro rfl
        simp [List.nodup_append, List.nodup_cons] at hnd hp
        aesop
      · intro p hp
        refine ⟨?_, by simp at hp ⊢; tauto⟩
        rintro rfl
        simp [List.nodup_append, List.nodup_cons] at hnd hp
        aesop
  · simp only [List.concat_eq_append] at hnd ⊢
    have hg : (pre1 ++ [a]).getLastD s = a := by simp
    rw [hg]
    cases post with
    | nil =>
      refine ⟨s :: pre1, [], by simp, by simp, ?_, ?_, by simp, by simp⟩
      · intro p hp
        refine ⟨?_, by simp at hp ⊢; tauto⟩
        rintro rfl
        simp [List.nodup_append, List.nodup_cons] at hnd hp
        aesop
      · intro p hp
        refine ⟨?_, by simp at hp ⊢; tauto⟩
        rintro rfl
        simp [List.nodup_append, List.nodup_cons] at hnd hp
        aesop
    | cons b post1 =>
      refine ⟨s :: pre1, post1 ++ [s], by simp, by simp, ?_, ?_, ?_, ?_⟩
      · intro p hp
        refine ⟨?_, by simp at hp ⊢; tauto⟩
        rintro rfl
        simp [List.nodup_append, List.nodup_cons] at hnd hp
        aesop
      · intro p hp
        refine ⟨?_, by simp at hp ⊢; tauto⟩
        rintro rfl
        simp [List.nodup_append, List.nodup_cons] at hnd hp
        aesop
      · intro p hp
        rw [← List.cons_append, List.dropLast_concat] at hp
        refine ⟨?_, by simp at hp ⊢; tauto⟩
        rintro rfl
        simp [List.nodup_append, List.nodup_cons] at hnd hp
        aesop
      · intro p hp
        refine ⟨?_, by simp at hp ⊢; tauto⟩
        rintro rfl
        simp [List.nodup_append, List.nodup_cons] at hnd hp
        aesop

theorem Ring.bypass {l m : LinkedList α} {P R Q : List Nat}
    (hr : Ring l (P ++ (R ++ Q)))
    (hsent : m.sentinel = l.sentinel) (hsize : m.size = l.size - R.length)
    (hbrk : l.heap.brk ≤ m.heap.brk)
    (hlive : ∀ p, p ∉ R → m.heap.live p = l.heap.live p)
    (hnext : ∀ p, p ∉ R → m.heap.next p
        = Function.update l.heap.next (P.getLastD l.sentinel) (Q.headD l.sentinel) p)
    (hprev : ∀ p, p ∉ R → m.heap.prev p
        = Function.update l.heap.prev (Q.headD l.sentinel) (P.getLastD l.sentinel) p) :
    Ring m (P ++ Q) := by
  have hnd := hr.nodup
  have hsub : (l.sentinel :: (P ++ Q)).Sublist (l.sentinel :: (P ++ (R ++ Q))) := by
    apply List.Sublist.cons₂
    apply List.Sublist.append_left
    exact List.sublist_append_right R Q
  have hnd1 : (l.sentinel :: (P ++ Q)).Nodup := hnd.sublist hsub
  have hR : ∀ p ∈ l.sentinel :: (P ++ Q), p ∉ R := by
    intro p hp hm
    simp [List.nodup_append, List.nodup_cons] at hnd hp
    aesop
  obtain ⟨X, Y, hX, hY, h1, h2, h3, h4⟩ := ring_split l.sentinel P Q hnd1
  have ha : P.getLastD l.sentinel ∈ l.sentinel :: (P ++ Q) := by
    have : P.getLastD l.sentinel ∈ l.sentinel :: P := by rw [hX]; simp
    simp at this ⊢; tauto
  have hb : Q.headD l.sentinel ∈ l.sentinel :: (P ++ Q) := by
    have : Q.headD l.sentinel ∈ Q ++ [l.sentinel] := by rw [hY]; simp
    simp at this ⊢; tauto
  refine ⟨?_, ?_, ?_, ?_⟩
  · rw [hsent]; exact hnd1
  · rw [hsent]
    intro p hp
    have := hr.live p (hsub.subset hp)
    refine ⟨⟨this.1.1, ?_⟩, le_trans this.2 hbrk⟩
    rw [hlive p (hR p hp)]
    exact this.1.2
  · rw [hsent]
    have hlk := hr.linked
    have e1 : l.sentinel :: (P ++ (R ++ Q) ++ [l.sentinel])
        = X ++ P.getLastD l.sentinel :: (R ++ Q.headD l.sentinel :: Y) := by
      have : l.sentinel :: (P ++ (R ++ Q) ++ [l.sentinel])
          = (l.sentinel :: P) ++ (R ++ (Q ++ [l.sentinel])) := by simp
      rw [this, hX, hY]; simp
    have e2 : l.sentinel :: (P ++ Q ++ [l.sentinel])
        = X ++ P.getLastD l.sentinel :: Q.headD l.sentinel :: Y := by
      have : l.sentinel :: (P ++ Q ++ [l.sentinel])
          = (l.sentinel :: P) ++ (Q ++ [l.sentinel]) := by simp
      rw [this, hX, hY]; simp
    rw [e1] at hlk
    rw [e2]
    apply Linked_bypass l.heap m.heap X R Y _ _ hlk
    · rw [hnext _ (hR _ ha)]; simp
    · rw [hprev _ (hR _ hb)]; simp
    · intro p hp
      rw [hnext p (hR p (h1 p hp).2), Function.update_noteq (h1 p hp).1]
    · intro p hp
      rw [hprev p (hR p (h2 p hp).2), Function.update_noteq (h2 p hp).1]
    · intro p hp
      rw [hnext p (hR p (h3 p hp).2), Function.update_noteq (h3 p hp).1]
    · intro p hp
      rw [hprev p (hR p (h4 p hp).2), Function.update_noteq (h4 p hp).1]
  · rw [hsize, hr.size]
    simp
    omega

theorem Ring.not_mem_removed {l : LinkedList α} {pre R post : List Nat}
    (hr : Ring l (pre ++ (R ++ post))) : ∀ p ∈ l.sentinel :: (pre ++ post), p ∉ R := by
  have hnd := hr.nodup
  intro p hp hm
  simp [List.nodup_append, List.nodup_cons] at hnd hp
  aesop


theorem Ring.unlink {l : LinkedList α} {pre post : List Nat} {r : Nat}
    (hr : Ring l (pre ++ r :: post)) :
    Ring (l.unlinked (pre.getLastD l.sentinel) (post.headD l.sentinel) r) (pre ++ post) := by
  have hr1 : Ring l (pre ++ ([r] ++ post)) := by simpa using hr
  apply Ring.bypass (m := l.unlinked (pre.getLastD l.sentinel) (post.headD l.sentinel) r)
    hr1 rfl rfl (le_refl _)
  · intro p hp
    show Function.update l.heap.live r false p = _
    rw [Function.update_noteq (by simpa using hp)]
  · intro p _; rfl
  · intro p _; rfl

theorem Ring.next_node {l : LinkedList α} {P Q : List Nat} {r : Nat}
    (hr : Ring l (P ++ r :: Q)) : l.heap.next r = Q.headD l.sentinel := by
  have := (Ring.next_at (l := l) (P := P ++ [r]) (Q := Q) (by simpa using hr)).1
  simpa using this

theorem Ring.prev_node {l : LinkedList α} {P Q : List Nat} {r : Nat}
    (hr : Ring l (P ++ r :: Q)) : l.heap.prev r = P.getLastD l.sentinel := by
  have := (Ring.next_at (l := l) (P := P) (Q := r :: Q) hr).2
  simpa using this

theorem Ring.valid_pred {l : LinkedList α} {P Q : List Nat} (hr : Ring l (P ++ Q)) :
    l.valid (P.getLastD l.sentinel) := by
  rcases List.eq_nil_or_concat P with rfl | ⟨pre1, a, rfl⟩
  · exact hr.valid_sentinel
  · simp only [List.concat_eq_append] at hr ⊢
    have hg : (pre1 ++ [a]).getLastD l.sentinel = a := by simp
    rw [hg]
    exact hr.valid_mem (by simp)

theorem Ring.valid_succ {l : LinkedList α} {P Q : List Nat} (hr : Ring l (P ++ Q)) :
    l.valid (Q.headD l.sentinel) := by
  cases Q with
  | nil => exact hr.valid_sentinel
  | cons b _ => exact hr.valid_mem (by simp)

theorem Ring.pred_ne {l : LinkedList α} {P Q : List Nat} {r : Nat}
    (hr : Ring l (P ++ r :: Q)) : r ≠ P.getLastD l.sentinel := by
  have hnd := hr.nodup
  rcases List.eq_nil_or_concat P with rfl | ⟨pre1, a, rfl⟩
  · simp at hnd ⊢; tauto
  · simp only [List.concat_eq_append] at hnd ⊢
    have hg : (pre1 ++ [a]).getLastD l.sentinel = a := by simp
    rw [hg]
    rintro rfl
    simp [List.nodup_append, List.nodup_cons] at hnd

theorem popFirst_spec {l : LinkedList α} {Q : List Nat} {r : Nat}
    (hr : Ring l (r :: Q)) :
    popFirst l = Res.ok (l.heap.value r) (l.unlinked l.sentinel (Q.headD l.sentinel) r) := by
  have hs := hr.valid_sentinel
  have hrv : l.valid r := hr.valid_mem (by simp)
  have hns : l.heap.next l.sentinel = r := by simpa using hr.next_sentinel
  have hnr := Ring.next_node (P := []) hr
  have hb := Ring.valid_succ (P := [r]) (Q := Q) hr
  have hrs : r ≠ l.sentinel := Ring.pred_ne (P := []) hr
  have hsz : l.size ≠ 0 := by rw [hr.size]; simp
  have hn1 : (l.withNext l.sentinel (Q.headD l.sentinel)).heap.next r
      = Q.headD l.sentinel := by
    show Function.update l.heap.next l.sentinel _ r = _
    rw [Function.update_noteq hrs, hnr]
  have hrv2 : ((l.withNext l.sentinel (Q.headD l.sentinel)).withPrev (Q.headD l.sentinel)
      l.sentinel).valid r := hrv
  simp only [popFirst, getState_bind, hsz, if_false, getNext_bind, getValue_bind, setNext_bind,
    setPrev_bind, hs, hns, hrv, hnr, valid_withNext, hn1, hb]
  rw [deleteNode_bind _ _ _ hrv2]
  rfl

theorem popLast_spec {l : LinkedList α} {P : List Nat} {r : Nat}
    (hr : Ring l (P ++ [r])) :
    popLast l = Res.ok (l.heap.value r) (l.unlinked (P.getLastD l.sentinel) l.sentinel r) := by
  have hsz : l.size ≠ 0 := by rw [hr.size]; simp
  by_cases h1 : l.size = 1
  · have hpre : P = [] := by
      have := hr.size
      rw [h1] at this
      simp at this
      exact this
    subst hpre
    simp only [popLast, getState_bind, hsz, h1, if_false, if_true]
    exact popFirst_spec (Q := []) hr
  · have hs := hr.valid_sentinel
    have hrv : l.valid r := hr.valid_mem (by simp)
    have hps : l.heap.prev l.sentinel = r := by simpa using hr.prev_sentinel
    have hpr := Ring.prev_node (Q := []) hr
    have hnr : l.heap.next r = l.sentinel := by simpa using Ring.next_node (Q := []) hr
    have ha := Ring.valid_pred (P := P) (Q := [r]) hr
    have hra := Ring.pred_ne (Q := []) hr
    have hn1 : (l.withNext (P.getLastD l.sentinel) l.sentinel).heap.next r = l.sentinel := by
      show Function.update l.heap.next _ _ r = _
      rw [Function.update_noteq hra, hnr]
    have hp1 : (l.withNext (P.getLastD l.sentinel) l.sentinel).heap.prev r
        = P.getLastD l.sentinel := hpr
    have hrv2 : ((l.withNext (P.getLastD l.sentinel) l.sentinel).withPrev l.sentinel
        (P.getLastD l.sentinel)).valid r := hrv
    simp only [popLast, getState_bind, hsz, h1, if_false, getPrev_bind, getValue_bind,
      setNext_bind, getNext_bind, setPrev_bind, hs, hps, hrv, hpr, ha, valid_withNext, hn1, hp1]
    rw [deleteNode_bind _ _ _ hrv2]
    rfl


theorem getLastD_append_cons {β : Type} (U V : List β) (z d : β) :
    (U ++ z :: V).getLastD d = V.getLastD z := by
  induction U generalizing d with
  | nil => rw [List.nil_append, List.getLastD_cons]
  | cons u U ih => rw [List.cons_append, List.getLastD_cons, ih]

theorem decrement_end_spec {l : LinkedList α} {ps : List Nat} (hr : Ring l ps) (hne : ps ≠ []) :
    ConstIterator.decrement l.cend l = Res.ok ⟨l.addr, ps.getLastD l.sentinel⟩ l := by
  have hnd := hr.nodup
  have hh : l.sentinel ≠ ps.headD l.sentinel := by
    cases ps with
    | nil => exact absurd rfl hne
    | cons p _ => simp at hnd ⊢; tauto
  simp only [ConstIterator.decrement, cbegin_bind hr, cend, ConstIterator.mk.injEq, true_and, hh,
    if_false]
  rw [getPrev_bind _ _ _ hr.valid_sentinel, hr.prev_sentinel]
  rfl

theorem erase_end {l : LinkedList α} (fuel : Nat) :
    erase fuel l.cend l = Res.throw Exception.out_of_range l := by
  simp [erase, getState_bind]

theorem erase_spec {l : LinkedList α} {pre post : List Nat} {r : Nat}
    (hr : Ring l (pre ++ r :: post)) (fuel : Nat) (hf : pre.length < fuel) :
    erase fuel ⟨l.addr, r⟩ l
      = Res.ok () (l.unlinked (pre.getLastD l.sentinel) (post.headD l.sentinel) r) := by
  have hnd := hr.nodup
  have hsz : l.size ≠ 0 := by rw [hr.size]; simp
  have hrs : r ≠ l.sentinel := by
    rintro rfl
    simp [List.nodup_append, List.nodup_cons] at hnd
  simp only [erase, getState_bind, hsz, cend, ConstIterator.mk.injEq, true_and, hrs, or_self,
    if_false, cbegin_bind hr]
  cases pre with
  | nil =>
    simp only [List.nil_append, List.headD_cons, if_true]
    rw [bind_ok (popFirst_spec hr)]
    rfl
  | cons p1 pre1 =>
    have hne : r ≠ p1 := by
      rintro rfl
      simp [List.nodup_append, List.nodup_cons] at hnd
    have hhead : ((p1 :: pre1) ++ r :: post).headD l.sentinel = p1 := rfl
    simp only [hhead, hne, if_false]
    have hdec := decrement_end_spec hr (by simp)
    simp only [cend] at hdec
    rw [bind_ok hdec]
    cases post with
    | nil =>
      have hl : ((p1 :: pre1) ++ [r]).getLastD l.sentinel = r := by
        rw [getLastD_append_cons]; rfl
      simp only [hl, if_true]
      rw [bind_ok (popLast_spec (P := p1 :: pre1) hr)]
      rfl
    | cons c post1 =>
      have hl : r ≠ ((p1 :: pre1) ++ r :: c :: post1).getLastD l.sentinel := by
        rw [getLastD_append_cons, List.getLastD_cons]
        have hm := List.getLastD_mem_cons post1 c
        intro h
        rw [← h] at hm
        simp [List.nodup_append, List.nodup_cons] at hnd hm
        aesop
      simp only [ConstIterator.mk.injEq, true_and, hl, if_false, ConstIterator.getCurrent]
      have hs := hr.valid_sentinel
      have hns : l.heap.next l.sentinel = p1 := by simpa using hr.next_sentinel
      have hlk : Linked l.heap ((p1 :: pre1) ++ [r]) := by
        have h1 := Linked_suffix l.heap [l.sentinel] _ hr.linked
        apply Linked_prefix l.heap _ (c :: post1 ++ [l.sentinel])
        simpa using h1
      have hscan := scanTo_spec l r (p1 :: pre1) fuel hlk
        (fun p hp => hr.valid_mem (by simp at hp ⊢; tauto))
        (by
          intro hm
          simp [List.nodup_append, List.nodup_cons] at hnd hm
          aesop)
        hf
      simp only [List.cons_append, List.headD_cons] at hscan
      have hrv : l.valid r := hr.valid_mem (by simp)
      have hpr := Ring.prev_node hr
      have hnr := Ring.next_node hr
      have ha := Ring.valid_pred (P := p1 :: pre1) (Q := r :: c :: post1) hr
      have hb := Ring.valid_succ (P := p1 :: pre1 ++ [r]) (Q := c :: post1)
        (by simpa using hr)
      have hra := Ring.pred_ne hr
      generalize (p1 :: pre1).getLastD l.sentinel = a at hpr ha hra ⊢
      simp only [List.headD_cons] at hnr hb ⊢
      have hn1 : (l.withNext a c).heap.next r = c := by
        show Function.update l.heap.next _ _ r = _
        rw [Function.update_noteq hra, hnr]
      have hp1 : (l.withNext a c).heap.prev r = a := hpr
      have hrv2 : (((l.withNext a c).withPrev c a).withSize
          (((l.withNext a c).withPrev c a).size - 1)).valid r := hrv
      rw [getNext_bind _ _ _ hs, hns, bind_ok hscan]
      simp only [getPrev_bind, getNext_bind, setNext_bind, setPrev_bind, hrv, hpr, hnr, ha,
        valid_withNext, hn1, hp1, hb, modifyState_bind]
      rw [deleteNode_run _ _ hrv2]
      rfl


theorem released_cons (l : LinkedList α) (r : Nat) (rs : List Nat) :
    released l (r :: rs) = released ((l.withSize (l.size - 1)).withDelete r) rs := rfl

theorem released_fields (rs : List Nat) : ∀ (l : LinkedList α),
    (released l rs).sentinel = l.sentinel ∧ (released l rs).addr = l.addr ∧
    (released l rs).heap.next = l.heap.next ∧ (released l rs).heap.prev = l.heap.prev ∧
    (released l rs).heap.value = l.heap.value ∧ (released l rs).heap.brk = l.heap.brk ∧
    (released l rs).size = l.size - rs.length ∧
    (∀ p, p ∉ rs → (released l rs).heap.live p = l.heap.live p) := by
  induction rs with
  | nil => intro l; exact ⟨rfl, rfl, rfl, rfl, rfl, rfl, rfl, fun _ _ => rfl⟩
  | cons r rs ih =>
    intro l
    obtain ⟨h1, h2, h3, h4, h5, h6, h7, h8⟩ := ih ((l.withSize (l.size - 1)).withDelete r)
    rw [released_cons]
    refine ⟨h1, h2, h3, h4, h5, h6, ?_, ?_⟩
    · rw [h7]
      show l.size - 1 - rs.length = l.size - (rs.length + 1)
      omega
    · intro p hp
      rw [h8 p (fun h => hp (by simp [h]))]
      show Function.update l.heap.live r false p = _
      rw [Function.update_noteq (fun h => hp (by simp [h]))]

theorem deleteChain_spec : ∀ (rs : List Nat) (l : LinkedList α) (fuel : Nat),
    List.Chain' (fun x y => l.heap.next x = y) (rs ++ [nullptr]) → (∀ r ∈ rs, l.valid r) →
      rs.Nodup → rs.length < fuel →
      deleteChain fuel ((rs ++ [nullptr]).headD nullptr) l = Res.ok () (released l rs) := by
  intro rs
  induction rs with
  | nil =>
    intro l fuel _ _ _ hf
    cases fuel with
    | zero => simp at hf
    | succ f => simp [deleteChain, released]
  | cons r rs ih =>
    intro l fuel hc hv hnd hf
    cases fuel with
    | zero => simp at hf
    | succ f =>
      have hr := hv r (by simp)
      have hr0 : r ≠ nullptr := hr.1
      have hn : l.heap.next r = (rs ++ [nullptr]).headD nullptr := by
        cases rs with
        | nil => simpa using hc
        | cons r2 rs2 =>
          simp only [List.cons_append, List.chain'_cons] at hc
          exact hc.1
      have hc1 : List.Chain' (fun x y => l.heap.next x = y) (rs ++ [nullptr]) := by
        rw [List.cons_append] at hc
        exact hc.tail
      have hnd1 := List.nodup_cons.mp hnd
      have := ih ((l.withSize (l.size - 1)).withDelete r) f hc1
        (fun p hp => valid_withDelete (hv p (by simp [hp])) (fun h => hnd1.1 (h ▸ hp)))
        hnd1.2 (by simp at hf; omega)
      have hr1 : (l.withSize (l.size - 1)).valid r := hr
      simp only [List.cons_append, List.headD_cons, deleteChain, ne_eq, hr0, not_false_eq_true,
        if_true]
      rw [getNext_bind _ _ _ hr, modifyState_bind, deleteNode_bind _ _ _ hr1, hn, released_cons]
      exact this

theorem chain_of_linked (h : Heap α) (nx : Nat → Nat) (b z : Nat) : ∀ (U : List Nat),
    Linked h (U ++ [b]) → (∀ p ∈ U.dropLast, nx p = h.next p) →
      (∀ hU : U ≠ [], nx (U.getLast hU) = z) →
      List.Chain' (fun x y => nx x = y) (U ++ [z]) := by
  intro U
  induction U with
  | nil => intro _ _ _; simp
  | cons u U ih =>
    intro hl hd hlast
    cases U with
    | nil =>
      have := hlast (by simp)
      simpa using this
    | cons u2 U2 =>
      have hl2 := Linked_mid h [] (U2 ++ [b]) u u2 hl
      simp only [List.cons_append, List.chain'_cons]
      refine ⟨?_, ?_⟩
      · rw [hd u (by simp)]; exact hl2.1
      · apply ih (Linked_suffix h [u] _ hl)
        · intro p hp
          apply hd
          simp only [List.dropLast_cons₂, List.mem_cons] at hp ⊢
          right; exact hp
        · intro hU
          have := hlast (by simp)
          simpa using this


theorem scan_last_spec {l : LinkedList α} {pre R1 post : List Nat} {r1 : Nat}
    (hr : Ring l (pre ++ (r1 :: R1 ++ post))) (fuel : Nat)
    (hf : pre.length + (R1.length + 1) + post.length < fuel) :
    scanBefore fuel (post.headD l.sentinel) ((R1 ++ post).headD l.sentinel) l
      = Res.ok (R1.getLastD r1) l := by
  have hnd := hr.nodup
  have hlk := hr.linked
  cases R1 with
  | cons r2 R2 =>
    have hl : Linked l.heap (r2 :: (R2 ++ [post.headD l.sentinel])) := by
      have h1 := Linked_suffix l.heap (l.sentinel :: (pre ++ [r1])) (r2 :: R2 ++ (post ++ [l.sentinel]))
        (by simpa using hlk)
      cases post with
      | nil => simpa using h1
      | cons b post1 =>
        apply Linked_prefix l.heap _ (post1 ++ [l.sentinel])
        simpa using h1
    have := scanBefore_spec l (post.headD l.sentinel) R2 r2 fuel hl
      (fun p hp => hr.valid_mem (by simp at hp ⊢; tauto))
      (by
        intro hm
        cases post with
        | nil =>
          simp [List.nodup_append, List.nodup_cons] at hnd hm
          aesop
        | cons b post1 =>
          simp [List.nodup_append, List.nodup_cons] at hnd hm
          aesop)
      (by simp at hf; omega)
    rw [List.getLastD_cons]
    exact this
  | nil =>
    simp only [List.nil_append, List.getLastD_nil]
    cases post with
    | nil =>
      have hl : Linked l.heap (l.sentinel :: ((pre ++ [r1]) ++ [l.sentinel])) := by
        simpa using hlk
      have := scanBefore_spec l l.sentinel (pre ++ [r1]) l.sentinel fuel hl
        (fun p hp => (hr.live p (by simp at hp ⊢; tauto)).1)
        (by
          intro hm
          simp [List.nodup_append, List.nodup_cons] at hnd hm
          aesop)
        (by simp at hf ⊢; omega)
      rw [getLastD_append_cons] at this
      exact this
    | cons b post1 =>
      simp only [List.headD_cons]
      have h1 : Linked l.heap (b :: (post1 ++ [l.sentinel])) :=
        Linked_suffix l.heap (l.sentinel :: (pre ++ [r1])) _ (by simpa using hlk)
      have h2 : Linked l.heap (l.sentinel :: (pre ++ [r1, b])) := by
        apply Linked_prefix l.heap _ (post1 ++ [l.sentinel])
        simpa using hlk
      have hl : Linked l.heap (b :: ((post1 ++ l.sentinel :: (pre ++ [r1])) ++ [b])) := by
        have := (Linked_append l.heap (b :: post1) l.sentinel (pre ++ [r1, b])).mpr
          ⟨by simpa using h1, h2⟩
        simpa using this
      have := scanBefore_spec l b (post1 ++ l.sentinel :: (pre ++ [r1])) b fuel hl
        (fun p hp => (hr.live p (by simp at hp ⊢; tauto)).1)
        (by
          intro hm
          simp [List.nodup_append, List.nodup_cons] at hnd hm
          aesop)
        (by simp at hf ⊢; omega)
      rw [getLastD_append_cons, getLastD_append_cons] at this
      exact this


theorem getLastD_mem_block {β : Type} (r1 : β) (R1 : List β) : R1.getLastD r1 ∈ r1 :: R1 :=
  List.getLastD_mem_cons R1 r1

theorem Ring.splice {l : LinkedList α} {pre R1 post : List Nat} {r1 : Nat}
    (hr : Ring l (pre ++ (r1 :: R1 ++ post))) :
    Ring (l.spliced (pre.getLastD l.sentinel) (post.headD l.sentinel) (R1.getLastD r1) (r1 :: R1))
      (pre ++ post) := by
  obtain ⟨h1, _, h3, h4, _, h6, h7, h8⟩ := released_fields (r1 :: R1)
    (((l.withNext (pre.getLastD l.sentinel) (post.headD l.sentinel)).withPrev
      (post.headD l.sentinel) (pre.getLastD l.sentinel)).withNext (R1.getLastD r1) nullptr)
  apply Ring.bypass (m := l.spliced (pre.getLastD l.sentinel) (post.headD l.sentinel)
    (R1.getLastD r1) (r1 :: R1)) hr
  · exact h1
  · exact h7
  · exact le_of_eq h6.symm
  · intro p hp
    exact h8 p hp
  · intro p hp
    have hz : p ≠ R1.getLastD r1 := fun h => hp (h ▸ getLastD_mem_block r1 R1)
    show (l.spliced _ _ _ _).heap.next p = _
    unfold spliced
    rw [h3]
    show Function.update (Function.update l.heap.next _ _) _ _ p = _
    rw [Function.update_noteq hz]
  · intro p _
    show (l.spliced _ _ _ _).heap.prev p = _
    unfold spliced
    rw [h4]
    rfl

theorem Ring.splice_value {l : LinkedList α} (a b z : Nat) (rs : List Nat) :
    (l.spliced a b z rs).heap.value = l.heap.value := by
  unfold spliced
  rw [(released_fields rs _).2.2.2.2.1]
  rfl


theorem block_init {β : Type} : ∀ (R1 : List β) (r1 : β),
    ∃ I, r1 :: R1 = I ++ [R1.getLastD r1] := by
  intro R1
  induction R1 with
  | nil => intro r1; exact ⟨[], rfl⟩
  | cons r2 R2 ih =>
    intro r1
    obtain ⟨I, hI⟩ := ih r2
    refine ⟨r1 :: I, ?_⟩
    rw [List.getLastD_cons, List.cons_append, ← hI]

theorem chain_of_linked_concat (h : Heap α) (nx : Nat → Nat) (b w z : Nat) (I : List Nat)
    (hl : Linked h ((I ++ [z]) ++ [b])) (hI : ∀ p ∈ I, nx p = h.next p) (hz : nx z = w) :
    List.Chain' (fun x y => nx x = y) ((I ++ [z]) ++ [w]) := by
  apply chain_of_linked h nx b w (I ++ [z]) hl
  · intro p hp
    rw [List.dropLast_concat] at hp
    exact hI p hp
  · intro _
    simpa using hz

theorem eraseRange_spec {l : LinkedList α} {pre R1 post : List Nat} {r1 : Nat}
    (hr : Ring l (pre ++ (r1 :: R1 ++ post))) (fuel : Nat)
    (hf : pre.length + (R1.length + 1) + post.length < fuel) (i1 i2 : Nat) :
    eraseRange fuel ⟨i1, r1⟩ ⟨i2, post.headD l.sentinel⟩ l
      = Res.ok () (l.spliced (pre.getLastD l.sentinel) (post.headD l.sentinel) (R1.getLastD r1)
          (r1 :: R1)) := by
  have hnd := hr.nodup
  have hnotR := Ring.not_mem_removed hr
  have hs := hr.valid_sentinel
  have hr1v : l.valid r1 := hr.valid_mem (by simp)
  have hb : l.valid (post.headD l.sentinel) :=
    Ring.valid_succ (P := pre ++ r1 :: R1) (Q := post) (by simpa using hr)
  have ha : l.valid (pre.getLastD l.sentinel) := Ring.valid_pred hr
  have hbmem : post.headD l.sentinel ∈ l.sentinel :: (pre ++ post) := by
    cases post with
    | nil => simp
    | cons b _ => simp
  have hamem : pre.getLastD l.sentinel ∈ l.sentinel :: (pre ++ post) := by
    have := List.getLastD_mem_cons pre l.sentinel
    simp at this ⊢; tauto
  have hne : r1 ≠ post.headD l.sentinel := fun h => hnotR _ hbmem (h ▸ List.mem_cons_self _ _)
  -- the first scan
  have hlk1 : Linked l.heap (pre ++ [r1]) := by
    have h1 := Linked_suffix l.heap [l.sentinel] _ hr.linked
    apply Linked_prefix l.heap _ (R1 ++ post ++ [l.sentinel])
    simpa using h1
  have hscan1 := scanTo_spec l r1 pre fuel hlk1 (fun p hp => hr.valid_mem (by simp [hp]))
    (by
      intro hm
      simp [List.nodup_append, List.nodup_cons] at hnd hm
      aesop)
    (by omega)
  have hhead : (pre ++ [r1]).headD r1 = (pre ++ (r1 :: R1 ++ post)).headD l.sentinel := by
    cases pre <;> rfl
  rw [hhead] at hscan1
  have hnr1 : l.heap.next r1 = (R1 ++ post).headD l.sentinel :=
    Ring.next_node (P := pre) (Q := R1 ++ post) (by simpa using hr)
  have hscan2 := scan_last_spec hr fuel hf
  have hpr1 : l.heap.prev r1 = pre.getLastD l.sentinel :=
    Ring.prev_node (P := pre) (Q := R1 ++ post) (by simpa using hr)
  -- the last node of the block
  obtain ⟨I, hI⟩ := block_init R1 r1
  have hzmem : R1.getLastD r1 ∈ r1 :: R1 := List.getLastD_mem_cons R1 r1
  have hr2 : Ring l ((pre ++ I) ++ R1.getLastD r1 :: post) := by
    have : pre ++ (r1 :: R1 ++ post) = (pre ++ I) ++ R1.getLastD r1 :: post := by
      rw [hI]; simp
    rw [← this]; exact hr
  have hnz : l.heap.next (R1.getLastD r1) = post.headD l.sentinel := Ring.next_node hr2
  have hzv : l.valid (R1.getLastD r1) := hr.valid_mem (by simp at hzmem ⊢; tauto)
  have hza : R1.getLastD r1 ≠ pre.getLastD l.sentinel := fun h => hnotR _ hamem (h ▸ hzmem)
  have hndR : (r1 :: R1).Nodup := by
    have hsub : (r1 :: R1).Sublist (l.sentinel :: (pre ++ (r1 :: R1 ++ post))) := by
      apply List.Sublist.cons
      apply List.Sublist.trans _ (List.sublist_append_right pre _)
      exact List.sublist_append_left _ post
    exact hnd.sublist hsub
  generalize hz : R1.getLastD r1 = z at *
  generalize hA : pre.getLastD l.sentinel = a at *
  generalize hB : post.headD l.sentinel = b at *
  -- the release loop
  have hchain : List.Chain' (fun x y => (((l.withNext a b).withPrev b a).withNext z nullptr).heap.next x = y)
      ((r1 :: R1) ++ [nullptr]) := by
    rw [hI]
    apply chain_of_linked_concat l.heap _ b nullptr z I
    · rw [← hI]
      have h1 := Linked_suffix l.heap (l.sentinel :: pre) (r1 :: R1 ++ (post ++ [l.sentinel]))
        (by simpa using hr.linked)
      cases post with
      | nil => simp at hB; subst hB; simpa using h1
      | cons b1 post1 =>
        simp at hB; subst hB
        apply Linked_prefix l.heap _ (post1 ++ [l.sentinel])
        simpa using h1
    · intro p hp
      have hpz : p ≠ z := by
        rintro rfl
        rw [hI] at hndR
        simp [List.nodup_append] at hndR
        exact hndR.2 hp
      have hpa : p ≠ a := fun h => hnotR _ hamem (by rw [← h, hI]; simp [hp])
      show Function.update (Function.update l.heap.next a b) z nullptr p = _
      rw [Function.update_noteq hpz, Function.update_noteq hpa]
    · show Function.update (Function.update l.heap.next a b) z nullptr z = _
      simp
  have hdel := deleteChain_spec (r1 :: R1) (((l.withNext a b).withPrev b a).withNext z nullptr)
    fuel hchain (fun r hrm => hr.valid_mem (by simp at hrm ⊢; tauto)) hndR
    (by simp; omega)
  simp only [List.cons_append, List.headD_cons] at hdel
  have hn1 : (l.withNext a b).heap.next z = b := by
    show Function.update l.heap.next a b z = b
    rw [Function.update_noteq hza, hnz]
  have hp1 : (l.withNext a b).heap.prev r1 = a := hpr1
  simp only [eraseRange, ConstIterator.getCurrent, hne, if_false, getState_bind]
  rw [getNext_bind _ _ _ hs, hr.next_sentinel, bind_ok hscan1, getNext_bind _ _ _ hr1v, hnr1,
    bind_ok hscan2]
  simp only [getPrev_bind, getNext_bind, setNext_bind, setPrev_bind, hr1v, hpr1, hzv, hnz, ha,
    valid_withNext, valid_withPrev, hn1, hp1, hb]
  exact hdel

end LinkedList

/-! ## Lemmas: what the containers hold after each call -/

section holds

variable {α : Type}

theorem Vector.vec_holds_size {v : Vector α} {s : List α} (h : v.Holds s) : v.size = s.length := by
  obtain ⟨_, _, _, hs, _⟩ := h.buffer
  exact hs

theorem Vector.vec_append_spec [Inhabited α] (v : Vector α) (s : List α) (x : α)
    (hv : v.Holds s) (hn : s.length < SIZE_MOD) :
    ∃ v1, Vector.append (Vector.Item.outside x) v = Res.ok () v1 ∧ v1.Holds (s ++ [x]) ∧ v1.addr = v.addr
      ∧ v1.maxCapacity = Vector.grown v.maxCapacity v.size := by
  have hsz := Vector.vec_holds_size hv
  obtain ⟨v1, h1, h2, h3, h4⟩ := Vector.vec_insert_spec v s v.cend x hv
    (by simp [Vector.cend, hsz]) (by omega)
  refine ⟨v1, ?_, ?_, h3, h4⟩
  · simp only [Vector.append, getState_bind]; exact h1
  · simpa [Vector.cend, hsz] using h2

theorem Vector.vec_prepend_spec [Inhabited α] (v : Vector α) (s : List α) (x : α)
    (hv : v.Holds s) (hn : s.length < SIZE_MOD) :
    ∃ v1, Vector.prepend (Vector.Item.outside x) v = Res.ok () v1 ∧ v1.Holds (x :: s) ∧ v1.addr = v.addr
      ∧ v1.maxCapacity = Vector.grown v.maxCapacity v.size := by
  have hsz := Vector.vec_holds_size hv
  obtain ⟨v1, h1, h2, h3, h4⟩ := Vector.vec_insert_spec v s v.cbegin x hv
    (by simp [Vector.cbegin]) (by omega)
  refine ⟨v1, ?_, ?_, h3, h4⟩
  · simp only [Vector.prepend, getState_bind]; exact h1
  · simpa [Vector.cbegin] using h2

theorem LinkedList.Holds.split {l : LinkedList α} {s : List α} (h : l.Holds s) (i : Nat)
    (hi : i ≤ s.length) :
    ∃ pre post, LinkedList.Ring l (pre ++ post) ∧ pre.length = i ∧
      pre.map l.heap.value = s.take i ∧ post.map l.heap.value = s.drop i := by
  obtain ⟨ps, hr, hm⟩ := h
  refine ⟨ps.take i, ps.drop i, by rw [List.take_append_drop]; exact hr, ?_, ?_, ?_⟩
  · have : ps.length = s.length := by rw [← hm]; simp
    simp; omega
  · rw [← hm, List.map_take]
  · rw [← hm, List.map_drop]

theorem LinkedList.holds_size {l : LinkedList α} {s : List α} (h : l.Holds s) :
    l.size = s.length := by
  obtain ⟨ps, hr, hm⟩ := h
  rw [hr.size, ← hm]; simp

theorem LinkedList.holds_linkedBetween {l : LinkedList α} {pre post : List Nat}
    (hr : LinkedList.Ring l (pre ++ post)) (x : α) :
    (l.linkedBetween (pre.getLastD l.sentinel) (post.headD l.sentinel) x).Holds
      (pre.map l.heap.value ++ [x] ++ post.map l.heap.value) :=
  ⟨_, hr.insert_between x, by
    rw [LinkedList.Ring.map_value_insert hr]; simp⟩

theorem LinkedList.position_at {l : LinkedList α} {pre post : List Nat}
    (hr : LinkedList.Ring l (pre ++ post)) (hn : pre.length < 2 ^ 31) :
    (do
      let b ← LinkedList.begin
      LinkedList.ConstIterator.plus b (pre.length : Int) : M (LinkedList α) LinkedList.Iterator) l
      = Res.ok ⟨l.addr, post.headD l.sentinel⟩ l :=
  LinkedList.position_spec hr hn

theorem LinkedList.example12345_holds : LinkedList.example12345.Holds [1, 2, 3, 4, 5] :=
  ⟨[2, 3, 4, 5, 6], ⟨by decide, by decide, by decide, rfl⟩, rfl⟩

theorem LinkedList.example10_holds : LinkedList.example10.Holds [10] :=
  ⟨[2], ⟨by decide, by decide, by decide, rfl⟩, rfl⟩

theorem LinkedList.exampleEmpty_holds : LinkedList.exampleEmpty.Holds [] :=
  ⟨[], ⟨by decide, by decide, by decide, rfl⟩, rfl⟩

theorem Vector.vec_appendAll_spec [Inhabited α] : ∀ (xs : List α) (v : Vector α) (s : List α),
    v.Holds s → s.length + xs.length ≤ SIZE_MOD →
    ∃ v1, Vector.appendAll xs v = Res.ok () v1 ∧ v1.Holds (s ++ xs) := by
  intro xs
  induction xs with
  | nil => intro v s hv _; exact ⟨v, rfl, by simpa using hv⟩
  | cons x xs ih =>
    intro v s hv hn
    simp only [List.length_cons] at hn
    obtain ⟨v1, h1, h2, _, _⟩ := Vector.vec_append_spec v s x hv (by omega)
    obtain ⟨v2, h3, h4⟩ := ih v1 (s ++ [x]) h2 (by simp; omega)
    refine ⟨v2, ?_, by simpa using h4⟩
    simp only [Vector.appendAll]
    rw [bind_ok h1]
    exact h3

theorem Vector.vec_popFirstN_spec : ∀ (xs : List α) (v : Vector α) (rest : List α),
    v.Holds (xs ++ rest) →
    ∃ v1, Vector.popFirstN xs.length v = Res.ok xs v1 ∧ v1.Holds rest := by
  intro xs
  induction xs with
  | nil => intro v rest hv; exact ⟨v, rfl, by simpa using hv⟩
  | cons x xs ih =>
    intro v rest hv
    obtain ⟨v1, h1, h2, _, _⟩ := Vector.vec_popFirst_spec v x (xs ++ rest) hv
    obtain ⟨v2, h3, h4⟩ := ih v1 rest h2
    refine ⟨v2, ?_, h4⟩
    simp only [List.length_cons, Vector.popFirstN]
    rw [bind_ok h1, bind_ok h3]
    rfl

theorem LinkedList.holds_unlinked {l : LinkedList α} {pre post : List Nat} {r : Nat}
    (hr : LinkedList.Ring l (pre ++ r :: post)) :
    (l.unlinked (pre.getLastD l.sentinel) (post.headD l.sentinel) r).Holds
      (pre.map l.heap.value ++ post.map l.heap.value) :=
  ⟨_, hr.unlink, by rw [List.map_append]; rfl⟩

theorem LinkedList.holds_append {l : LinkedList α} {s : List α} (hl : l.Holds s) (x : α) :
    ∃ l1, LinkedList.append x l = Res.ok () l1 ∧ l1.Holds (s ++ [x]) := by
  obtain ⟨ps, hr, hm⟩ := hl
  have hr1 : LinkedList.Ring l (ps ++ []) := by simpa using hr
  have h := LinkedList.holds_linkedBetween hr1 x
  rw [hm] at h
  exact ⟨_, LinkedList.append_spec hr x, by simpa using h⟩

theorem LinkedList.holds_popFirst {l : LinkedList α} {s : List α} {x : α}
    (hl : l.Holds (x :: s)) :
    ∃ l1, LinkedList.popFirst l = Res.ok x l1 ∧ l1.Holds s := by
  obtain ⟨ps, hr, hm⟩ := hl
  cases ps with
  | nil => simp at hm
  | cons r post =>
    simp only [List.map_cons, List.cons.injEq] at hm
    have hr1 : LinkedList.Ring l ([] ++ r :: post) := by simpa using hr
    have h := LinkedList.holds_unlinked hr1
    rw [List.map_nil, List.nil_append, hm.2] at h
    have hp := LinkedList.popFirst_spec hr
    rw [hm.1] at hp
    exact ⟨_, hp, h⟩

theorem LinkedList.holds_popLast {l : LinkedList α} {s : List α} {x : α}
    (hl : l.Holds (s ++ [x])) :
    ∃ l1, LinkedList.popLast l = Res.ok x l1 ∧ l1.Holds s := by
  obtain ⟨ps, hr, hm⟩ := hl
  rcases List.eq_nil_or_concat ps with rfl | ⟨pre, r, rfl⟩
  · simp at hm
  · simp only [List.concat_eq_append, List.map_append, List.map_cons, List.map_nil] at hm hr
    have hm2 := List.append_inj' hm (by simp)
    simp only [List.cons.injEq, and_true] at hm2
    have h := LinkedList.holds_unlinked hr
    rw [List.map_nil, List.append_nil, hm2.1] at h
    have hp := LinkedList.popLast_spec hr
    rw [hm2.2] at hp
    exact ⟨_, hp, h⟩

theorem LinkedList.appendAll_spec : ∀ (xs : List α) (l : LinkedList α) (s : List α),
    l.Holds s → ∃ l1, LinkedList.appendAll xs l = Res.ok () l1 ∧ l1.Holds (s ++ xs) := by
  intro xs
  induction xs with
  | nil => intro l s hl; exact ⟨l, rfl, by simpa using hl⟩
  | cons x xs ih =>
    intro l s hl
    obtain ⟨l1, h1, h2⟩ := LinkedList.holds_append hl x
    obtain ⟨l2, h3, h4⟩ := ih l1 (s ++ [x]) h2
    refine ⟨l2, ?_, by simpa using h4⟩
    simp only [LinkedList.appendAll]
    rw [bind_ok h1]
    exact h3

theorem LinkedList.popFirstN_spec : ∀ (xs : List α) (l : LinkedList α) (rest : List α),
    l.Holds (xs ++ rest) →
    ∃ l1, LinkedList.popFirstN xs.length l = Res.ok xs l1 ∧ l1.Holds rest := by
  intro xs
  induction xs with
  | nil => intro l rest hl; exact ⟨l, rfl, by simpa using hl⟩
  | cons x xs ih =>
    intro l rest hl
    obtain ⟨l1, h1, h2⟩ := LinkedList.holds_popFirst hl
    obtain ⟨l2, h3, h4⟩ := ih l1 rest h2
    refine ⟨l2, ?_, h4⟩
    simp only [List.length_cons, LinkedList.popFirstN]
    rw [bind_ok h1, bind_ok h3]
    rfl

theorem Vector.empty_holds (addr : Nat) (h : addr ≠ 0) : (Vector.empty addr : Vector α).Holds [] :=
  ⟨⟨h, rfl, le_refl _⟩, rfl⟩

theorem Vector.vec_ofList_holds (addr : Nat) (h : addr ≠ 0) (xs : List α) :
    (Vector.ofList addr xs).Holds xs :=
  ⟨⟨h, rfl, le_refl _⟩, by simp [Vector.toList, Vector.ofList]⟩

theorem LinkedList.Ring.head_ne_sentinel {l : LinkedList α} {pre post : List Nat} {r : Nat}
    (hr : LinkedList.Ring l (pre ++ r :: post)) : r ≠ l.sentinel := by
  have hnd := hr.nodup
  rintro rfl
  simp [List.nodup_append, List.nodup_cons] at hnd

theorem LinkedList.holds_spliced {l : LinkedList α} {pre R1 post : List Nat} {r1 : Nat}
    (hr : LinkedList.Ring l (pre ++ (r1 :: R1 ++ post))) :
    (l.spliced (pre.getLastD l.sentinel) (post.headD l.sentinel) (R1.getLastD r1)
      (r1 :: R1)).Holds (pre.map l.heap.value ++ post.map l.heap.value) :=
  ⟨_, hr.splice, by rw [LinkedList.Ring.splice_value, List.map_append]⟩

theorem LinkedList.Holds.split3 {l : LinkedList α} {s : List α} (h : l.Holds s) (i j : Nat)
    (hij : i ≤ j) (hj : j ≤ s.length) :
    ∃ pre R post, LinkedList.Ring l (pre ++ (R ++ post)) ∧ pre.length = i ∧ R.length = j - i ∧
      pre.map l.heap.value = s.take i ∧ post.map l.heap.value = s.drop j := by
  obtain ⟨ps, hr, hm⟩ := h
  have hl : ps.length = s.length := by rw [← hm]; simp
  refine ⟨ps.take i, (ps.drop i).take (j - i), ps.drop j, ?_, ?_, ?_, ?_, ?_⟩
  · have h1 : ps.drop j = (ps.drop i).drop (j - i) := by
      rw [List.drop_drop]; congr 1; omega
    rw [h1, List.take_append_drop, List.take_append_drop]
    exact hr
  · simp; omega
  · simp; omega
  · rw [← hm, List.map_take]
  · rw [← hm, List.map_drop]

theorem LinkedList.holds_nil_ring {l : LinkedList α} (hl : l.Holds []) :
    l.heap.next l.sentinel = l.sentinel ∧ l.heap.prev l.sentinel = l.sentinel ∧ l.size = 0 := by
  obtain ⟨ps, hr, hm⟩ := hl
  have hps : ps = [] := by simpa using hm
  subst hps
  have h1 := hr.next_sentinel
  have h2 := hr.prev_sentinel
  exact ⟨h1, h2, hr.size⟩

theorem Vector.plus_cases (v : Vector α) (it : Vector.ConstIterator) (d : Int) :
    Vector.ConstIterator.plus it d v = Res.throw Exception.out_of_range v ∨
    ∃ k, k ≤ v.size ∧ Vector.ConstIterator.plus it d v = Res.ok ⟨it.vector, k⟩ v := by
  by_cases h : Vector.indexPlus it.index d > v.size
  · left; simp [Vector.ConstIterator.plus, h]
  · right
    exact ⟨Vector.indexPlus it.index d, by omega, by simp [Vector.ConstIterator.plus, h]⟩

theorem Vector.vec_step_cases [Inhabited α] (op : Op α) (v : Vector α) (s : List α)
    (hv : v.Holds s) (hn : s.length + 1 < SIZE_MOD) :
    (∃ e, Vector.step op v = Res.throw e v) ∨
    (∃ v1 s1, Vector.step op v = Res.ok () v1 ∧ v1.Holds s1 ∧
      (if op.isInsertion then s1.length = s.length + 1 else s1.length + 1 = s.length)) := by
  have hsz := Vector.vec_holds_size hv
  cases op with
  | append x =>
    right
    obtain ⟨v1, h1, h2, _, _⟩ := Vector.vec_append_spec v s x hv (by omega)
    exact ⟨v1, _, h1, h2, by simp [Op.isInsertion]⟩
  | prepend x =>
    right
    obtain ⟨v1, h1, h2, _, _⟩ := Vector.vec_prepend_spec v s x hv (by omega)
    exact ⟨v1, _, h1, h2, by simp [Op.isInsertion]⟩
  | insert i x =>
    rcases Vector.plus_cases v v.begin (i : Int) with h | ⟨k, hk, h⟩
    · left
      refine ⟨Exception.out_of_range, ?_⟩
      simp only [Vector.step, getState_bind]
      rw [bind_throw h]
    · right
      obtain ⟨v1, h1, h2, _, _⟩ := Vector.vec_insert_spec v s ⟨v.begin.vector, k⟩ x hv
        (by simp; omega) (by omega)
      refine ⟨v1, _, ?_, h2, ?_⟩
      · simp only [Vector.step, getState_bind]
        rw [bind_ok h]
        exact h1
      · simp [Op.isInsertion]; omega
  | popFirst =>
    cases s with
    | nil =>
      left
      refine ⟨Exception.logic_error, ?_⟩
      simp only [Vector.step]
      rw [bind_throw (Vector.popFirst_empty v (by simpa using hsz))]
    | cons x s1 =>
      right
      obtain ⟨v1, h1, h2, _, _⟩ := Vector.vec_popFirst_spec v x s1 hv
      refine ⟨v1, s1, ?_, h2, by simp [Op.isInsertion]⟩
      simp only [Vector.step]
      rw [bind_ok h1]
      rfl
  | popLast =>
    rcases List.eq_nil_or_concat s with rfl | ⟨s1, x, rfl⟩
    · left
      refine ⟨Exception.logic_error, ?_⟩
      simp only [Vector.step]
      rw [bind_throw (Vector.popLast_empty v (by simpa using hsz))]
    · right
      simp only [List.concat_eq_append] at hv ⊢
      obtain ⟨v1, h1, h2, _, _⟩ := Vector.vec_popLast_spec v x s1 hv
      refine ⟨v1, s1, ?_, h2, by simp [Op.isInsertion]⟩
      simp only [Vector.step]
      rw [bind_ok h1]
      rfl
  | erase i =>
    rcases Vector.plus_cases v v.begin (i : Int) with h | ⟨k, hk, h⟩
    · left
      refine ⟨Exception.out_of_range, ?_⟩
      simp only [Vector.step, getState_bind]
      rw [bind_throw h]
    · by_cases hkn : k < s.length
      · right
        obtain ⟨v1, h1, h2, _, _⟩ := Vector.vec_erase_spec v s k hv hkn (by omega)
        refine ⟨v1, _, ?_, h2, ?_⟩
        · simp only [Vector.step, getState_bind]
          rw [bind_ok h]
          exact h1
        · simp [Op.isInsertion]; omega
      · left
        refine ⟨if v.size < k then Exception.invalid_argument else Exception.out_of_range, ?_⟩
        simp only [Vector.step, getState_bind]
        rw [bind_ok h]
        exact Vector.erase_invalid v _ k (by omega) (by omega)

theorem LinkedList.incrementTimes_past (l : LinkedList α) (k : Nat) :
    ∀ (qs : List Nat), LinkedList.Linked l.heap (qs ++ [l.sentinel]) →
      (∀ p ∈ qs, l.valid p ∧ p ≠ l.sentinel) →
      LinkedList.ConstIterator.incrementTimes (qs.length + (k + 1))
          ⟨l.addr, (qs ++ [l.sentinel]).headD l.sentinel⟩ l
        = Res.throw Exception.out_of_range l := by
  intro qs
  induction qs with
  | nil =>
    intro _ _
    have : (0 : Nat) + (k + 1) = k + 1 := by omega
    simp only [List.length_nil, List.nil_append, List.headD_cons, this,
      LinkedList.ConstIterator.incrementTimes]
    exact bind_throw (LinkedList.increment_end l)
  | cons q qs ih =>
    intro hl hv
    have hq := hv q (by simp)
    have hn : l.heap.next q = (qs ++ [l.sentinel]).headD l.sentinel := by
      cases qs with
      | nil => exact (LinkedList.Linked_mid l.heap [] [] q l.sentinel hl).1
      | cons q2 qs2 => exact (LinkedList.Linked_mid l.heap [] (qs2 ++ [l.sentinel]) q q2 hl).1
    have hl1 : LinkedList.Linked l.heap (qs ++ [l.sentinel]) :=
      LinkedList.Linked_suffix l.heap [q] _ hl
    have := ih hl1 (fun p hp => hv p (by simp [hp]))
    have e : (q :: qs).length + (k + 1) = (qs.length + (k + 1)) + 1 := by simp; omega
    rw [e]
    simp only [LinkedList.ConstIterator.incrementTimes, List.cons_append, List.headD_cons]
    rw [bind_ok (LinkedList.increment_spec l l.addr q hq.1 hq.2), hn]
    exact this

theorem LinkedList.incrementTimes_begin_past {l : LinkedList α} {ps : List Nat}
    (hr : LinkedList.Ring l ps) (i : Nat) (hi : ps.length < i) :
    LinkedList.ConstIterator.incrementTimes i ⟨l.addr, ps.headD l.sentinel⟩ l
      = Res.throw Exception.out_of_range l := by
  have hnd := hr.nodup
  obtain ⟨k, hk⟩ : ∃ k, i = ps.length + (k + 1) := ⟨i - ps.length - 1, by omega⟩
  have hl : LinkedList.Linked l.heap (ps ++ [l.sentinel]) :=
    LinkedList.Linked_suffix l.heap [l.sentinel] _ hr.linked
  have := LinkedList.incrementTimes_past l k ps hl
    (by
      intro p hp
      refine ⟨hr.valid_mem hp, ?_⟩
      rintro rfl
      simp at hnd
      tauto)
  have hh : (ps ++ [l.sentinel]).headD l.sentinel = ps.headD l.sentinel := by
    cases ps <;> rfl
  rw [hh, ← hk] at this
  exact this

theorem LinkedList.position_past {l : LinkedList α} {ps : List Nat} (hr : LinkedList.Ring l ps)
    (hn : ps.length < 2 ^ 31) (i : Nat) (hi : ps.length < i) :
    (do
      let b ← LinkedList.begin
      LinkedList.ConstIterator.plus b (i : Int) : M (LinkedList α) LinkedList.Iterator) l
      = Res.throw Exception.out_of_range l := by
  show (LinkedList.cbegin >>= fun b => LinkedList.ConstIterator.plus b (i : Int)) l = _
  rw [LinkedList.cbegin_bind hr]
  by_cases h31 : i < 2 ^ 31
  · rw [LinkedList.plus_nat _ _ h31]
    exact LinkedList.incrementTimes_begin_past hr i hi
  · rw [LinkedList.plus_nat_large _ _ (by omega)]
    exact bind_throw (LinkedList.incrementTimes_begin_past hr (2 ^ 31) hn)

theorem LinkedList.popFirst_empty_list (l : LinkedList α) (h : l.size = 0) :
    LinkedList.popFirst l = Res.throw Exception.logic_error l := by
  simp [LinkedList.popFirst, getState_bind, h]

theorem LinkedList.popLast_empty_list (l : LinkedList α) (h : l.size = 0) :
    LinkedList.popLast l = Res.throw Exception.logic_error l := by
  simp [LinkedList.popLast, getState_bind, h]

theorem LinkedList.create_holds [Inhabited α] (addr : Nat) (h : Heap α) :
    ∃ l, LinkedList.create addr h = Res.ok () l ∧ l.Holds [] ∧ l.addr = addr := by
  have hv : ∀ (m : LinkedList α), m.heap.live (h.brk + 1) = true → m.valid (h.brk + 1) :=
    fun m hm => ⟨Nat.succ_ne_zero _, hm⟩
  have hlive : Function.update h.live (h.brk + 1) true (h.brk + 1) = true := by simp
  refine ⟨((({ LinkedList.withNew ⟨addr, 0, nullptr, h⟩ ⟨default, nullptr, nullptr⟩ with
      sentinel := h.brk + 1 } : LinkedList α).withNext (h.brk + 1) (h.brk + 1)).withPrev
      (h.brk + 1) (h.brk + 1)), ?_, ⟨[], ⟨?_, ?_, ?_, rfl⟩, rfl⟩, rfl⟩
  · simp only [LinkedList.create, LinkedList.init, LinkedList.newNode_bind, modifyState_bind,
      getState_bind]
    rw [LinkedList.setNext_bind _ _ _ _ (hv _ hlive), getState_bind]
    exact if_pos (hv _ hlive)
  · simp
  · intro p hp
    simp only [List.mem_singleton] at hp
    subst hp
    exact ⟨hv _ hlive, le_refl _⟩
  · show LinkedList.Linked _ [h.brk + 1, h.brk + 1]
    rw [LinkedList.Linked_cons_cons]
    refine ⟨?_, ?_, by simp⟩
    · show Function.update (Function.update h.next (h.brk + 1) nullptr) (h.brk + 1) (h.brk + 1)
        (h.brk + 1) = h.brk + 1
      simp
    · show Function.update (Function.update h.prev (h.brk + 1) nullptr) (h.brk + 1) (h.brk + 1)
        (h.brk + 1) = h.brk + 1
      simp

theorem LinkedList.ofList_holds [Inhabited α] (addr : Nat) (h : Heap α) (xs : List α) :
    ∃ l, LinkedList.ofList addr h xs = Res.ok () l ∧ l.Holds xs := by
  obtain ⟨l0, h0, h1, _⟩ := @LinkedList.create_holds α _ addr h
  obtain ⟨l1, h2, h3⟩ := LinkedList.appendAll_spec xs l0 [] h1
  refine ⟨l1, ?_, by simpa using h3⟩
  unfold LinkedList.ofList
  rw [bind_ok (show LinkedList.init (⟨addr, 0, nullptr, h⟩ : LinkedList α) = Res.ok () l0 from h0)]
  exact h2

end holds

/-! ## The claims -/

section claims

variable {α : Type}

/-- C1 (the code departs from the claim when `item` refers to an element of
the vector itself). `Vector::insert` on a vector holding `s`, for every index
`i ≤ s.length`. When `item` is an object outside the vector, holding `x`,
`insert(begin() + i, item)` returns and leaves the vector holding
`s.take i ++ [x] ++ s.drop i` with `getSize() = s.length + 1`, whatever the
capacity (so with or without a reallocation); `append(item)` leaves `s ++ [x]`
and `prepend(item)` leaves `x :: s`. When `item` is the element at index `k` of
the vector (`*(begin() + k)`), the reference is read after `realloc()` and the
shift loop: without a reallocation the value inserted is `s[k]` for `k ≤ i`
but `s[k - 1]` for `k > i`, and with a reallocation the element read lies in
the released buffer, which is undefined behaviour. -/
theorem C1_vector_insert [Inhabited α] (v : Vector α) (s : List α) (i : Nat) (x : α)
    (hv : v.Holds s) (hi : i ≤ s.length) (hn : s.length < SIZE_MOD) :
    (∃ v1, (do
        let it ← Vector.ConstIterator.plus v.begin (i : Int)
        Vector.insert it (Vector.Item.outside x) : M (Vector α) Unit) v = Res.ok () v1
      ∧ v1.Holds (s.take i ++ [x] ++ s.drop i) ∧ v1.getSize = s.length + 1) ∧
    (∃ v2, Vector.append (Vector.Item.outside x) v = Res.ok () v2 ∧ v2.Holds (s ++ [x])
      ∧ v2.getSize = s.length + 1) ∧
    (∃ v3, Vector.prepend (Vector.Item.outside x) v = Res.ok () v3 ∧ v3.Holds (x :: s)
      ∧ v3.getSize = s.length + 1) ∧
    (∀ k, k < s.length →
      (v.getSize < v.maxCapacity →
        ∃ v1 z, (do
            let it ← Vector.ConstIterator.plus v.begin (i : Int)
            Vector.insert it (Vector.Item.element k) : M (Vector α) Unit) v = Res.ok () v1
          ∧ v1.Holds (s.take i ++ [z] ++ s.drop i) ∧ v1.getSize = s.length + 1
          ∧ s[if k ≤ i then k else k - 1]? = some z) ∧
      (v.getSize = v.maxCapacity →
        (do
          let it ← Vector.ConstIterator.plus v.begin (i : Int)
          Vector.insert it (Vector.Item.element k) : M (Vector α) Unit) v = Res.ub)) := by
  have hsz := Vector.vec_holds_size hv
  have hplus := Vector.plus_nat_spec v v.addr i (by omega) (by omega)
  refine ⟨?_, ?_, ?_, ?_⟩
  · obtain ⟨v1, h1, h2, _, _⟩ := Vector.vec_insert_spec v s ⟨v.addr, i⟩ x hv hi (by omega)
    refine ⟨v1, ?_, h2, ?_⟩
    · show (Vector.ConstIterator.plus ⟨v.addr, 0⟩ (i : Int) >>= _) v = _
      rw [bind_ok hplus]
      exact h1
    · rw [Vector.getSize, Vector.vec_holds_size h2]
      simp
      omega
  · obtain ⟨v2, h1, h2, _, _⟩ := Vector.vec_append_spec v s x hv hn
    exact ⟨v2, h1, h2, by rw [Vector.getSize, Vector.vec_holds_size h2]; simp⟩
  · obtain ⟨v3, h1, h2, _, _⟩ := Vector.vec_prepend_spec v s x hv hn
    exact ⟨v3, h1, h2, by rw [Vector.getSize, Vector.vec_holds_size h2]; simp⟩
  · intro k hk
    obtain ⟨g1, g2⟩ := Vector.vec_insert_element v s ⟨v.addr, i⟩ k hv hi (by omega) hk
    constructor
    · intro hlt
      obtain ⟨v1, z, h1, h2, h3⟩ := g1 hlt
      refine ⟨v1, z, ?_, h2, ?_, h3⟩
      · show (Vector.ConstIterator.plus ⟨v.addr, 0⟩ (i : Int) >>= _) v = _
        rw [bind_ok hplus]
        exact h1
      · rw [Vector.getSize, Vector.vec_holds_size h2]
        simp
        omega
    · intro heq
      show (Vector.ConstIterator.plus ⟨v.addr, 0⟩ (i : Int) >>= _) v = _
      rw [bind_ok hplus]
      exact g2 heq

/-- Witness of C1, the failing input included: the vector `{10, 20, 30}` of
capacity 16 at `i = 0`. With the outside item `15` it becomes
`{15, 10, 20, 30}`; with its own element at index 1 as the item, which holds
`20` when the call is made, it becomes `{10, 10, 20, 30}`. On the full vector
`{10, 20, 30}` of capacity 3 the same call reallocates and reads the item in
the released buffer. -/
theorem C1_vector_insert_witness :
    (∃ v1, (do
        let it ← Vector.ConstIterator.plus
          (⟨1, [10, 20, 30] ++ List.replicate 13 0, 16, 3⟩ : Vector Int).begin ((0 : Nat) : Int)
        Vector.insert it (Vector.Item.outside 15) : M (Vector Int) Unit)
          ⟨1, [10, 20, 30] ++ List.replicate 13 0, 16, 3⟩ = Res.ok () v1
      ∧ v1.Holds [15, 10, 20, 30] ∧ v1.getSize = 4) ∧
    (∃ v1, (do
        let it ← Vector.ConstIterator.plus
          (⟨1, [10, 20, 30] ++ List.replicate 13 0, 16, 3⟩ : Vector Int).begin ((0 : Nat) : Int)
        Vector.insert it (Vector.Item.element 1) : M (Vector Int) Unit)
          ⟨1, [10, 20, 30] ++ List.replicate 13 0, 16, 3⟩ = Res.ok () v1
      ∧ v1.Holds [10, 10, 20, 30] ∧ v1.getSize = 4) ∧
    (do
      let it ← Vector.ConstIterator.plus (Vector.ofList 1 [(10 : Int), 20, 30]).begin
        ((0 : Nat) : Int)
      Vector.insert it (Vector.Item.element 1) : M (Vector Int) Unit)
        (Vector.ofList 1 [10, 20, 30]) = Res.ub :=
  match C1_vector_insert (⟨1, [10, 20, 30] ++ List.replicate 13 0, 16, 3⟩ : Vector Int)
    [10, 20, 30] 0 15 ⟨⟨by decide, by decide, by decide⟩, by decide⟩ (by decide)
    (by simp [SIZE_MOD]),
    C1_vector_insert (Vector.ofList 1 [(10 : Int), 20, 30]) [10, 20, 30] 0 15
      (Vector.vec_ofList_holds 1 (by decide) _) (by decide) (by simp [SIZE_MOD]) with
  | ⟨h1, _, _, h4⟩, ⟨_, _, _, j4⟩ =>
    match (h4 1 (by decide)).1 (by decide) with
    | ⟨v1, z, k1, k2, k3, k4⟩ =>
      ⟨h1, ⟨v1, k1, by
        have hz : z = 10 := by simpa using k4.symm
        rw [hz] at k2
        exact k2, k3⟩, (j4 1 (by decide)).2 rfl⟩

/-- C2. `LinkedList::insert`: on a well-formed list holding `s`, of fewer than
`2^31` elements (the step counter of `operator+` is a 32-bit `int`), for every
`i ≤ s.length` and item `x`, `insert(begin() + i, x)` returns (for every scan
budget above `s.length`) and leaves a well-formed list holding
`s.take i ++ [x] ++ s.drop i` with `getSize() = s.length + 1`; at `i = 0` it is
the call `prepend(x)` and at `i = s.length` the call `append(x)`; on the empty
list, `insert(begin(), x)` followed by `popFirst()` returns `x`. -/
theorem C2_list_insert (l : LinkedList α) (s : List α) (i : Nat) (x : α) (fuel : Nat)
    (hl : l.Holds s) (hi : i ≤ s.length) (hf : s.length < fuel) (h31 : s.length < 2 ^ 31) :
    ∃ it, (do
        let b ← LinkedList.begin
        LinkedList.ConstIterator.plus b (i : Int) : M (LinkedList α) LinkedList.Iterator) l
        = Res.ok it l ∧
      (∃ l1, LinkedList.insert fuel it x l = Res.ok () l1
        ∧ l1.Holds (s.take i ++ [x] ++ s.drop i) ∧ l1.getSize = s.length + 1) ∧
      (i = 0 → LinkedList.insert fuel it x l = LinkedList.prepend x l) ∧
      (i = s.length → LinkedList.insert fuel it x l = LinkedList.append x l) ∧
      (s = [] → ∃ l2, (do
          LinkedList.insert fuel it x
          LinkedList.popFirst : M (LinkedList α) α) l = Res.ok x l2 ∧ l2.Holds []) := by
  obtain ⟨pre, post, hr, hlen, hpre, hpost⟩ := hl.split i hi
  have hpos := LinkedList.position_at hr (by omega)
  rw [hlen] at hpos
  have hins := LinkedList.insert_spec hr x fuel (by omega)
  have hholds := LinkedList.holds_linkedBetween hr x
  rw [hpre, hpost] at hholds
  refine ⟨_, hpos, ⟨_, hins, hholds, ?_⟩, ?_, ?_, ?_⟩
  · rw [LinkedList.getSize, LinkedList.holds_size hholds]
    simp
    omega
  · intro h0
    have hp : pre = [] := List.length_eq_zero.mp (hlen.trans h0)
    subst hp
    rw [hins, LinkedList.prepend_spec hr]
    rfl
  · intro hn
    have hp : post = [] := by
      have h1 : (post.map l.heap.value).length = 0 := by rw [hpost]; simp; omega
      simpa using h1
    subst hp
    rw [hins, LinkedList.append_spec hr]
    simp
  · intro hs
    subst hs
    have hp : pre = [] := List.length_eq_zero.mp (by simp at hi; omega)
    have hq : post = [] := by
      have h1 : (post.map l.heap.value).length = 0 := by rw [hpost]; simp
      simpa using h1
    subst hp hq
    have hr1 := hr.insert_between x
    simp only [List.nil_append] at hr1
    have hpop := LinkedList.popFirst_spec hr1
    have hun := @LinkedList.Ring.unlink _ _ [] [] _ hr1
    refine ⟨_, ?_, ⟨[], hun, rfl⟩⟩
    rw [bind_ok hins, hpop]
    congr 1
    show Function.update l.heap.value (l.heap.brk + 1) x (l.heap.brk + 1) = x
    simp

/-- Witness of C2: the list `{1, 2, 3, 4, 5}`, `i = 2`, `x = 9`, budget 6. -/
theorem C2_list_insert_witness :
    ∃ it, (do
        let b ← LinkedList.begin
        LinkedList.ConstIterator.plus b ((2 : Nat) : Int) : M (LinkedList Int) LinkedList.Iterator)
          LinkedList.example12345 = Res.ok it LinkedList.example12345 ∧
      ∃ l1, LinkedList.insert 6 it 9 LinkedList.example12345 = Res.ok () l1
        ∧ l1.Holds [1, 2, 9, 3, 4, 5] ∧ l1.getSize = 6 := by
  obtain ⟨it, h1, h2, _⟩ := C2_list_insert LinkedList.example12345 [1, 2, 3, 4, 5] 2 9 6
    LinkedList.example12345_holds (by decide) (by decide) (by norm_num)
  exact ⟨it, h1, h2⟩

/-- C3. FIFO through `append` and `popFirst`, for both containers: appending
`vs` in order to an empty container (of any capacity, so growth occurs as soon
as `vs` is longer) and then calling `popFirst()` `vs.length` times returns the
values of `vs` in order and leaves the container empty. -/
theorem C3_fifo [Inhabited α] (vs : List α) (v : Vector α) (l : LinkedList α)
    (hv : v.Holds []) (hl : l.Holds []) (hn : vs.length < SIZE_MOD) :
    (∃ v1, (do
        Vector.appendAll vs
        Vector.popFirstN vs.length : M (Vector α) (List α)) v = Res.ok vs v1
      ∧ v1.Holds [] ∧ v1.isEmpty = true) ∧
    (∃ l1, (do
        LinkedList.appendAll vs
        LinkedList.popFirstN vs.length : M (LinkedList α) (List α)) l = Res.ok vs l1
      ∧ l1.Holds [] ∧ l1.isEmpty = true) := by
  constructor
  · obtain ⟨v1, h1, h2⟩ := Vector.vec_appendAll_spec vs v [] hv (by simp; omega)
    obtain ⟨v2, h3, h4⟩ := Vector.vec_popFirstN_spec vs v1 [] (by simpa using h2)
    refine ⟨v2, ?_, h4, ?_⟩
    · rw [bind_ok h1]; exact h3
    · simp [Vector.isEmpty, Vector.vec_holds_size h4]
  · obtain ⟨l1, h1, h2⟩ := LinkedList.appendAll_spec vs l [] hl
    obtain ⟨l2, h3, h4⟩ := LinkedList.popFirstN_spec vs l1 [] (by simpa using h2)
    refine ⟨l2, ?_, h4, ?_⟩
    · rw [bind_ok h1]; exact h3
    · simp [LinkedList.isEmpty, LinkedList.holds_size h4]

/-- Witness of C3: the values `1, 2, 3` through a default-constructed vector
(capacity 0, so the first `append` grows it) and through the empty ring. -/
theorem C3_fifo_witness :
    (∃ v1, (do
        Vector.appendAll [(1 : Int), 2, 3]
        Vector.popFirstN 3 : M (Vector Int) (List Int)) (Vector.empty 1) = Res.ok [1, 2, 3] v1
      ∧ v1.Holds [] ∧ v1.isEmpty = true) ∧
    (∃ l1, (do
        LinkedList.appendAll [(1 : Int), 2, 3]
        LinkedList.popFirstN 3 : M (LinkedList Int) (List Int)) LinkedList.exampleEmpty
          = Res.ok [1, 2, 3] l1
      ∧ l1.Holds [] ∧ l1.isEmpty = true) :=
  C3_fifo [(1 : Int), 2, 3] (Vector.empty 1) LinkedList.exampleEmpty
    (Vector.empty_holds 1 (by decide)) LinkedList.exampleEmpty_holds (by decide)

/-- C4. `Vector::erase(position)`: on a vector holding `s`, for the iterator of
that vector at index `i`: when `i < s.length` the call returns and leaves the
vector holding `s` without its element at index `i`, `getSize()` one less; when
`i ≥ s.length` it throws (`std::out_of_range` from `position + 1` at `end()`,
`std::invalid_argument` beyond) and the vector is exactly as before. -/
theorem C4_vector_erase (v : Vector α) (s : List α) (i : Nat) (hv : v.Holds s)
    (hn : s.length + 1 < SIZE_MOD) :
    (i < s.length → ∃ v1, Vector.erase ⟨v.addr, i⟩ v = Res.ok () v1
      ∧ v1.Holds (s.take i ++ s.drop (i + 1)) ∧ v1.getSize = s.length - 1) ∧
    (s.length ≤ i → Vector.erase ⟨v.addr, i⟩ v = Res.throw
      (if s.length < i then Exception.invalid_argument else Exception.out_of_range) v) := by
  have hsz := Vector.vec_holds_size hv
  constructor
  · intro hi
    obtain ⟨v1, h1, h2, _, _⟩ := Vector.vec_erase_spec v s i hv hi (by omega)
    refine ⟨v1, h1, h2, ?_⟩
    rw [Vector.getSize, Vector.vec_holds_size h2]
    simp
    omega
  · intro hi
    have := Vector.erase_invalid v v.addr i (by omega) (by omega)
    rw [hsz] at this
    exact this

/-- Witness of C4: on `{1, 2, 3}`, erasing at index 1 leaves `{1, 3}` and
erasing at `end()` throws `std::out_of_range` and changes nothing. -/
theorem C4_vector_erase_witness :
    (∃ v1, Vector.erase ⟨1, 1⟩ (Vector.ofList 1 [(1 : Int), 2, 3]) = Res.ok () v1
      ∧ v1.Holds [1, 3] ∧ v1.getSize = 2) ∧
    Vector.erase ⟨1, 3⟩ (Vector.ofList 1 [(1 : Int), 2, 3])
      = Res.throw Exception.out_of_range (Vector.ofList 1 [(1 : Int), 2, 3]) :=
  ⟨(C4_vector_erase (Vector.ofList 1 [(1 : Int), 2, 3]) [1, 2, 3] 1
      (Vector.vec_ofList_holds 1 (by decide) _) (by decide)).1 (by decide),
   (C4_vector_erase (Vector.ofList 1 [(1 : Int), 2, 3]) [1, 2, 3] 3
      (Vector.vec_ofList_holds 1 (by decide) _) (by decide)).2 (by decide)⟩

/-- C5. `LinkedList::erase(position)`: on a well-formed list holding `s`, of
fewer than `2^31` elements (the step counter of `operator+` is a 32-bit `int`),
for the position `begin() + i` with `i ≤ s.length`: the position is `end()` exactly
when `i = s.length` (always so on the empty list); the call throws
`std::out_of_range` exactly when the position is `end()`, and the list is then
exactly as before; otherwise it returns (for every scan budget above
`s.length`) and leaves a well-formed list holding `s` without its element at
index `i`, `getSize()` one less. -/
theorem C5_list_erase (l : LinkedList α) (s : List α) (i : Nat) (fuel : Nat)
    (hl : l.Holds s) (hi : i ≤ s.length) (hf : s.length < fuel) (h31 : s.length < 2 ^ 31) :
    ∃ it, (do
        let b ← LinkedList.begin
        LinkedList.ConstIterator.plus b (i : Int) : M (LinkedList α) LinkedList.Iterator) l
        = Res.ok it l ∧
      (it = l.end ↔ i = s.length) ∧
      (LinkedList.erase fuel it l = Res.throw Exception.out_of_range l ↔ it = l.end) ∧
      (it ≠ l.end → ∃ l1, LinkedList.erase fuel it l = Res.ok () l1
        ∧ l1.Holds (s.take i ++ s.drop (i + 1)) ∧ l1.getSize = s.length - 1) := by
  obtain ⟨pre, post, hr, hlen, hpre, hpost⟩ := hl.split i hi
  have hpos := LinkedList.position_at hr (by omega)
  rw [hlen] at hpos
  refine ⟨_, hpos, ?_⟩
  cases post with
  | nil =>
    have hin : i = s.length := by
      have h1 : (s.drop i).length = 0 := by rw [← hpost]; simp
      simp at h1; omega
    have hend : (⟨l.addr, ([] : List Nat).headD l.sentinel⟩ : LinkedList.ConstIterator) = l.end := rfl
    refine ⟨⟨fun _ => hin, fun _ => hend⟩, ⟨fun _ => hend, fun _ => ?_⟩, fun h => absurd hend h⟩
    rw [hend]
    exact LinkedList.erase_end fuel
  | cons r post1 =>
    have hrs := LinkedList.Ring.head_ne_sentinel hr
    have hne : (⟨l.addr, (r :: post1).headD l.sentinel⟩ : LinkedList.ConstIterator) ≠ l.end := by
      intro h
      have := congrArg LinkedList.ConstIterator.current h
      exact hrs this
    have hin : i ≠ s.length := by
      intro h
      have h1 : (s.drop i).length = post1.length + 1 := by rw [← hpost]; simp
      simp at h1; omega
    have her := LinkedList.erase_spec hr fuel (by omega)
    have hh := LinkedList.holds_unlinked hr
    rw [hpre] at hh
    have hpost1 : post1.map l.heap.value = s.drop (i + 1) := by
      have := congrArg List.tail hpost
      simpa using this
    rw [hpost1] at hh
    refine ⟨⟨fun h => absurd h hne, fun h => absurd h hin⟩, ⟨fun h => ?_, fun h => absurd h hne⟩,
      fun _ => ⟨_, her, hh, ?_⟩⟩
    · simp only [List.headD_cons] at h
      rw [her] at h
      cases h
    · rw [LinkedList.getSize, LinkedList.holds_size hh]
      simp
      omega

/-- Witness of C5: the list `{1, 2, 3, 4, 5}`, position `begin() + 2`,
budget 6: the call returns and leaves `{1, 2, 4, 5}`. -/
theorem C5_list_erase_witness :
    ∃ it, (do
        let b ← LinkedList.begin
        LinkedList.ConstIterator.plus b ((2 : Nat) : Int) : M (LinkedList Int) LinkedList.Iterator)
          LinkedList.example12345 = Res.ok it LinkedList.example12345 ∧
      it ≠ LinkedList.example12345.end ∧
      ∃ l1, LinkedList.erase 6 it LinkedList.example12345 = Res.ok () l1
        ∧ l1.Holds [1, 2, 4, 5] ∧ l1.getSize = 4 := by
  obtain ⟨it, h1, h2, _, h4⟩ := C5_list_erase LinkedList.example12345 [1, 2, 3, 4, 5] 2 6
    LinkedList.example12345_holds (by decide) (by decide) (by norm_num)
  have hne : it ≠ LinkedList.example12345.end := fun h => absurd (h2.mp h) (by decide)
  exact ⟨it, h1, hne, h4 hne⟩

/-- C6. Range erase of `Vector`: on a vector holding `s`, for the iterators of
that vector at indices `i, j ≤ s.length`: when `i > j` the call throws
`std::invalid_argument` and the vector is exactly as before; when `i ≤ j` it
returns and leaves the vector holding `s.take i ++ s.drop j` with
`getSize() = s.length - (j - i)`; `erase(it, it)` leaves the vector holding `s`
with the same size. -/
theorem C6_vector_erase_range (v : Vector α) (s : List α) (i j : Nat) (hv : v.Holds s)
    (hi : i ≤ s.length) (hj : j ≤ s.length) (hn : s.length < SIZE_MOD) :
    (j < i → Vector.eraseRange ⟨v.addr, i⟩ ⟨v.addr, j⟩ v
      = Res.throw Exception.invalid_argument v) ∧
    (i ≤ j → ∃ v1, Vector.eraseRange ⟨v.addr, i⟩ ⟨v.addr, j⟩ v = Res.ok () v1
      ∧ v1.Holds (s.take i ++ s.drop j) ∧ v1.getSize = s.length - (j - i)) ∧
    (∃ v2, Vector.eraseRange ⟨v.addr, i⟩ ⟨v.addr, i⟩ v = Res.ok () v2
      ∧ v2.Holds s ∧ v2.getSize = v.getSize) := by
  have hsz := Vector.vec_holds_size hv
  refine ⟨?_, ?_, ?_⟩
  · intro hlt
    exact Vector.eraseRange_invalid v _ _ hlt
  · intro hij
    obtain ⟨v1, h1, h2, _, _⟩ := Vector.vec_eraseRange_spec v s i j hv hij hj hn
    refine ⟨v1, h1, h2, ?_⟩
    rw [Vector.getSize, Vector.vec_holds_size h2]
    simp
    omega
  · obtain ⟨v1, h1, h2, _, _⟩ := Vector.vec_eraseRange_spec v s i i hv (le_refl _) hi hn
    rw [List.take_append_drop] at h2
    exact ⟨v1, h1, h2, by rw [Vector.getSize, Vector.getSize, Vector.vec_holds_size h2, hsz]⟩

/-- Witness of C6: `{1, 2, 3, 4, 5}` with `erase(begin() + 1, begin() + 3)`
becomes `{1, 4, 5}` of size 3. -/
theorem C6_vector_erase_range_witness :
    ∃ v1, Vector.eraseRange ⟨1, 1⟩ ⟨1, 3⟩ (Vector.ofList 1 [(1 : Int), 2, 3, 4, 5]) = Res.ok () v1
      ∧ v1.Holds [1, 4, 5] ∧ v1.getSize = 3 :=
  (C6_vector_erase_range (Vector.ofList 1 [(1 : Int), 2, 3, 4, 5]) [1, 2, 3, 4, 5] 1 3
    (Vector.vec_ofList_holds 1 (by decide) _) (by decide) (by decide) (by decide)).2.1 (by decide)

/-- C7. Range erase of `LinkedList`: on a well-formed list holding `s`, of
fewer than `2^31` elements (the step counter of `operator+` is a 32-bit `int`),
for `i ≤ j ≤ s.length`, `erase(begin() + i, begin() + j)` returns (for every loop
budget above `s.length`) and leaves a well-formed ring holding
`s.take i ++ s.drop j` with `getSize() = s.length - (j - i)`; this covers
`j = i + 1` and `j = s.length`, and for `i = j` the list is exactly as
before. -/
theorem C7_list_erase_range (l : LinkedList α) (s : List α) (i j : Nat) (fuel : Nat)
    (hl : l.Holds s) (hij : i ≤ j) (hj : j ≤ s.length) (hf : s.length < fuel)
    (h31 : s.length < 2 ^ 31) :
    ∃ first last,
      (do
        let b ← LinkedList.begin
        LinkedList.ConstIterator.plus b (i : Int) : M (LinkedList α) LinkedList.Iterator) l
        = Res.ok first l ∧
      (do
        let b ← LinkedList.begin
        LinkedList.ConstIterator.plus b (j : Int) : M (LinkedList α) LinkedList.Iterator) l
        = Res.ok last l ∧
      (∃ l1, LinkedList.eraseRange fuel first last l = Res.ok () l1
        ∧ l1.Holds (s.take i ++ s.drop j) ∧ l1.getSize = s.length - (j - i)) ∧
      (i = j → LinkedList.eraseRange fuel first last l = Res.ok () l) := by
  have hsize := LinkedList.holds_size hl
  obtain ⟨pre, R, post, hr, hlen, hlenR, hpre, hpost⟩ := hl.split3 i j hij hj
  have hn : pre.length + R.length + post.length = s.length := by
    have h1 := hr.size
    rw [hsize] at h1
    rw [h1]; simp; omega
  have hpos1 := LinkedList.position_at hr (by omega)
  have hr2 : LinkedList.Ring l ((pre ++ R) ++ post) := by simpa using hr
  have hpos2 := LinkedList.position_at hr2 (by simp; omega)
  rw [hlen] at hpos1
  have hj2 : (pre ++ R).length = j := by simp; omega
  rw [hj2] at hpos2
  refine ⟨_, _, hpos1, hpos2, ?_⟩
  cases R with
  | nil =>
    have hji : i = j := by simp at hlenR; omega
    have hno : LinkedList.eraseRange fuel ⟨l.addr, (([] : List Nat) ++ post).headD l.sentinel⟩
        ⟨l.addr, post.headD l.sentinel⟩ l = Res.ok () l := by
      simp [LinkedList.eraseRange, LinkedList.ConstIterator.getCurrent]
    refine ⟨⟨l, hno, ?_, ?_⟩, fun _ => hno⟩
    · obtain ⟨ps, hps, hm⟩ := hl
      refine ⟨ps, hps, ?_⟩
      rw [hm, ← hji, List.take_append_drop]
    · rw [LinkedList.getSize, hsize, hji]; simp
  | cons r1 R1 =>
    have hji : i ≠ j := by simp at hlenR; omega
    have her := LinkedList.eraseRange_spec hr fuel (by simp at hn ⊢; omega) l.addr l.addr
    have hh := LinkedList.holds_spliced hr
    rw [hpre, hpost] at hh
    refine ⟨⟨_, her, hh, ?_⟩, fun h => absurd h hji⟩
    rw [LinkedList.getSize, LinkedList.holds_size hh]
    simp
    omega

/-- Witness of C7: `{1, 2, 3, 4, 5}` with `erase(begin() + 1, begin() + 3)`
becomes `{1, 4, 5}` of size 3 (budget 6). -/
theorem C7_list_erase_range_witness :
    ∃ first last,
      (do
        let b ← LinkedList.begin
        LinkedList.ConstIterator.plus b ((1 : Nat) : Int) : M (LinkedList Int) LinkedList.Iterator)
          LinkedList.example12345 = Res.ok first LinkedList.example12345 ∧
      (do
        let b ← LinkedList.begin
        LinkedList.ConstIterator.plus b ((3 : Nat) : Int) : M (LinkedList Int) LinkedList.Iterator)
          LinkedList.example12345 = Res.ok last LinkedList.example12345 ∧
      ∃ l1, LinkedList.eraseRange 6 first last LinkedList.example12345 = Res.ok () l1
        ∧ l1.Holds [1, 4, 5] ∧ l1.getSize = 3 := by
  obtain ⟨first, last, h1, h2, h3, _⟩ := C7_list_erase_range LinkedList.example12345
    [1, 2, 3, 4, 5] 1 3 6 LinkedList.example12345_holds (by decide) (by decide) (by decide)
    (by norm_num)
  exact ⟨first, last, h1, h2, h3⟩

/-- C8. `popLast` on a non-empty container, for both containers: when the
container holds `s ≠ []`, `popLast()` returns the last element of `s` and
leaves the container holding `s` without it, `getSize()` one less; for a
`LinkedList` of size 1 what is left is the empty ring: the sentinel is its own
`next` and `prev`, and `isEmpty()` holds. -/
theorem C8_pop_last (v : Vector α) (l : LinkedList α) (s : List α) (hs : s ≠ [])
    (hv : v.Holds s) (hl : l.Holds s) :
    (∃ v1, Vector.popLast v = Res.ok (s.getLast hs) v1 ∧ v1.Holds s.dropLast
      ∧ v1.getSize = s.length - 1) ∧
    (∃ l1, LinkedList.popLast l = Res.ok (s.getLast hs) l1 ∧ l1.Holds s.dropLast
      ∧ l1.getSize = s.length - 1 ∧
      (s.length = 1 → l1.heap.next l1.sentinel = l1.sentinel
        ∧ l1.heap.prev l1.sentinel = l1.sentinel ∧ l1.isEmpty = true)) := by
  have hsplit := List.dropLast_append_getLast hs
  constructor
  · obtain ⟨v1, h1, h2, _, _⟩ := Vector.vec_popLast_spec v (s.getLast hs) s.dropLast
      (by rw [hsplit]; exact hv)
    refine ⟨v1, h1, h2, ?_⟩
    rw [Vector.getSize, Vector.vec_holds_size h2]
    simp
  · obtain ⟨l1, h1, h2⟩ := LinkedList.holds_popLast (l := l) (s := s.dropLast)
      (x := s.getLast hs) (by rw [hsplit]; exact hl)
    refine ⟨l1, h1, h2, ?_, ?_⟩
    · rw [LinkedList.getSize, LinkedList.holds_size h2]
      simp
    · intro h1len
      have hd : s.dropLast = [] := by
        apply List.length_eq_zero.mp
        simp [h1len]
      rw [hd] at h2
      obtain ⟨e1, e2, e3⟩ := LinkedList.holds_nil_ring h2
      exact ⟨e1, e2, by simp [LinkedList.isEmpty, e3]⟩

/-- Witness of C8: the containers `{10}`; `popLast()` returns 10 and leaves
them empty, the ring with its sentinel linked to itself. -/
theorem C8_pop_last_witness :
    (∃ v1, Vector.popLast (Vector.ofList 1 [(10 : Int)]) = Res.ok 10 v1 ∧ v1.Holds []
      ∧ v1.getSize = 0) ∧
    (∃ l1, LinkedList.popLast LinkedList.example10 = Res.ok 10 l1 ∧ l1.Holds []
      ∧ l1.getSize = 0 ∧ l1.heap.next l1.sentinel = l1.sentinel
      ∧ l1.heap.prev l1.sentinel = l1.sentinel ∧ l1.isEmpty = true) := by
  obtain ⟨hvec, l1, h1, h2, h3, h4⟩ := C8_pop_last (Vector.ofList 1 [(10 : Int)])
    LinkedList.example10 [10] (by decide) (Vector.vec_ofList_holds 1 (by decide) _)
    LinkedList.example10_holds
  exact ⟨hvec, l1, h1, h2, h3, h4 rfl⟩

/-- C9. Pop on an empty container, for both containers: when `getSize()` is 0,
`popFirst()` and `popLast()` each throw `std::logic_error` and the container is
exactly as before (so still empty and well formed), and `begin() == end()`. -/
theorem C9_pop_empty (v : Vector α) (l : LinkedList α) (hv : v.getSize = 0)
    (hl : l.Holds []) :
    Vector.popFirst v = Res.throw Exception.logic_error v ∧
    Vector.popLast v = Res.throw Exception.logic_error v ∧
    v.begin = v.end ∧
    LinkedList.popFirst l = Res.throw Exception.logic_error l ∧
    LinkedList.popLast l = Res.throw Exception.logic_error l ∧
    LinkedList.begin l = Res.ok l.end l := by
  obtain ⟨e1, _, e3⟩ := LinkedList.holds_nil_ring hl
  obtain ⟨ps, hr, hm⟩ := hl
  have hps : ps = [] := by simpa using hm
  subst hps
  refine ⟨Vector.popFirst_empty v hv, Vector.popLast_empty v hv, ?_, ?_, ?_, ?_⟩
  · simp only [Vector.begin, Vector.end, Vector.cbegin, Vector.cend]
    rw [show v.size = 0 from hv]
  · simp [LinkedList.popFirst, getState_bind, e3]
  · simp [LinkedList.popLast, getState_bind, e3]
  · exact LinkedList.cbegin_spec hr

/-- Witness of C9: the default-constructed vector and the empty ring. -/
theorem C9_pop_empty_witness :
    Vector.popFirst (Vector.empty 1 : Vector Int)
      = Res.throw Exception.logic_error (Vector.empty 1) ∧
    Vector.popLast (Vector.empty 1 : Vector Int)
      = Res.throw Exception.logic_error (Vector.empty 1) ∧
    (Vector.empty 1 : Vector Int).begin = (Vector.empty 1 : Vector Int).end ∧
    LinkedList.popFirst LinkedList.exampleEmpty
      = Res.throw Exception.logic_error LinkedList.exampleEmpty ∧
    LinkedList.popLast LinkedList.exampleEmpty
      = Res.throw Exception.logic_error LinkedList.exampleEmpty ∧
    LinkedList.begin LinkedList.exampleEmpty
      = Res.ok LinkedList.exampleEmpty.end LinkedList.exampleEmpty :=
  C9_pop_empty (Vector.empty 1 : Vector Int) LinkedList.exampleEmpty rfl
    LinkedList.exampleEmpty_holds

end claims

/-! ## Lemmas: construction, assignment and iterator walks of `Vector` -/

section vectorMore

variable {α : Type}


theorem Vector.clear_append [Inhabited α] (other : Vector α) (x : α) (h : other.addr ≠ 0) :
    ∃ a1, Vector.append (Vector.Item.outside x) (Vector.clear other) = Res.ok () a1 ∧ a1.Holds [x] ∧ a1.getSize = 1
      ∧ a1.addr = other.addr := by
  have he : (Vector.clear other).Holds [] := ⟨⟨h, rfl, le_refl _⟩, rfl⟩
  obtain ⟨a1, h1, h2, h3, _⟩ := Vector.vec_append_spec (Vector.clear other) [] x he
    (show ([] : List α).length < SIZE_MOD by simp [SIZE_MOD])
  exact ⟨a1, h1, h2, by simpa using Vector.vec_holds_size h2, h3⟩

theorem Vector.holds_readdress {v : Vector α} {s : List α} (h : v.Holds s) (addr : Nat)
    (ha : addr ≠ 0) :
    (⟨addr, v.elemArray, v.maxCapacity, v.size⟩ : Vector α).Holds s :=
  ⟨⟨ha, h.1.2.1, h.1.2.2⟩, h.2⟩

theorem onConst_ok {σ ω ρ : Type} {other t : ω} {m : M ω ρ} {r : ρ} (s : σ)
    (h : m other = Res.ok r t) : (onConst other m : M σ ρ) s = Res.ok r s := by
  simp [onConst, h]

theorem onConst_throw {σ ω ρ : Type} {other t : ω} {m : M ω ρ} {e : Exception} (s : σ)
    (h : m other = Res.throw e t) : (onConst other m : M σ ρ) s = Res.throw e s := by
  simp [onConst, h]

theorem Vector.deref_at (a c n : Nat) (pre post : List α) (x : α) (ha : a ≠ 0)
    (hn : pre.length < n) :
    Vector.ConstIterator.deref ⟨a, pre.length⟩ (⟨a, pre ++ x :: post, c, n⟩ : Vector α)
      = Res.ok x ⟨a, pre ++ x :: post, c, n⟩ := by
  simp only [Vector.ConstIterator.deref]
  rw [if_neg (by simpa using ha), if_neg (by simp; exact ⟨hn, ha⟩)]
  exact Vector.readElem_append a pre post x c n pre.length rfl

theorem Vector.assign_at (a c n : Nat) (pre post : List α) (x y : α) (ha : a ≠ 0)
    (hn : pre.length < n) :
    Vector.Iterator.assign ⟨a, pre.length⟩ x (⟨a, pre ++ y :: post, c, n⟩ : Vector α)
      = Res.ok () ⟨a, pre ++ x :: post, c, n⟩ := by
  simp only [Vector.Iterator.assign]
  rw [if_neg (by simpa using ha), if_neg (by simp; exact ⟨hn, ha⟩)]
  exact Vector.writeElem_append a pre post x y c n pre.length rfl

theorem Vector.assign_past (it : Vector.Iterator) (x : α) (v : Vector α) (h : v.size ≤ it.index)
    (ho : it.vector ≠ 0) :
    Vector.Iterator.assign it x v = Res.throw Exception.out_of_range v := by
  simp only [Vector.Iterator.assign]
  rw [if_neg ho, if_pos (Or.inl h)]

theorem Vector.copyFromLoop_spec (a b c cb na nb : Nat) (ha : a ≠ 0) (hb : b ≠ 0)
    (hnb : nb < SIZE_MOD) (hle : nb ≤ na) (epost tpost : List α) :
    ∀ (emid : List α) (fuel : Nat) (epre tpre tmid : List α),
      emid.length = tmid.length → epre.length = tpre.length →
      epre.length + emid.length = nb → emid.length < fuel →
      Vector.copyFromLoop (⟨b, epre ++ (emid ++ epost), cb, nb⟩ : Vector α) fuel
          ⟨b, epre.length⟩ ⟨b, nb⟩ ⟨a, epre.length⟩
          (⟨a, tpre ++ (tmid ++ tpost), c, na⟩ : Vector α)
        = Res.ok () ⟨a, tpre ++ (emid ++ tpost), c, na⟩ := by
  intro emid
  induction emid with
  | nil =>
    intro fuel epre tpre tmid h1 h2 h3 h4
    cases fuel with
    | zero => simp at h4
    | succ f =>
      have : tmid = [] := by
        cases tmid with
        | nil => rfl
        | cons _ _ => simp at h1
      subst this
      simp at h3
      simp [Vector.copyFromLoop, h3]
  | cons x emid ih =>
    intro fuel epre tpre tmid h1 h2 h3 h4
    cases fuel with
    | zero => simp at h4
    | succ f =>
      cases tmid with
      | nil => simp at h1
      | cons y tmid =>
        simp only [List.length_cons] at h1 h3 h4
        have hne : epre.length ≠ nb := by omega
        have hmod : (epre.length + 1) % SIZE_MOD = epre.length + 1 := Nat.mod_eq_of_lt (by omega)
        have hih := ih f (epre ++ [x]) (tpre ++ [x]) tmid (by omega) (by simp [h2])
          (by simp; omega) (by omega)
        simp only [List.length_append, List.length_singleton, List.append_assoc,
          List.singleton_append] at hih
        simp only [Vector.copyFromLoop, Vector.ConstIterator.mk.injEq, hne, and_false, if_false,
          List.cons_append]
        rw [bind_ok (onConst_ok _ (Vector.deref_at b cb nb epre (emid ++ epost) x hb (by omega)))]
        rw [h2, bind_ok (Vector.assign_at a c na tpre (tmid ++ tpost) x y ha (by omega))]
        rw [bind_ok_of (⟨a, tpre.length + 1⟩ : Vector.ConstIterator)
          ⟨a, tpre ++ (x :: (tmid ++ tpost)), c, na⟩
          (by simp only [Vector.ConstIterator.increment]; rw [← h2, hmod, if_neg (by omega)])]
        rw [← h2, bind_ok_of (⟨b, epre.length + 1⟩ : Vector.ConstIterator)
          ⟨a, tpre ++ (x :: (tmid ++ tpost)), c, na⟩
          (by
            apply onConst_ok (t := ⟨b, epre ++ x :: (emid ++ epost), cb, nb⟩)
            simp only [Vector.ConstIterator.increment]; rw [hmod, if_neg (by omega)])]
        exact hih

theorem Vector.copyFromLoop_throw (a b c cb na nb : Nat) (ha : a ≠ 0) (hb : b ≠ 0)
    (hna : na < SIZE_MOD) (hlt : na < nb) (y : α) (epost tpost : List α) :
    ∀ (emid : List α) (fuel : Nat) (epre tpre tmid : List α),
      emid.length = tmid.length → epre.length = tpre.length →
      epre.length + emid.length = na → emid.length < fuel →
      Vector.copyFromLoop (⟨b, epre ++ (emid ++ y :: epost), cb, nb⟩ : Vector α) fuel
          ⟨b, epre.length⟩ ⟨b, nb⟩ ⟨a, epre.length⟩
          (⟨a, tpre ++ (tmid ++ tpost), c, na⟩ : Vector α)
        = Res.throw Exception.out_of_range ⟨a, tpre ++ (emid ++ tpost), c, na⟩ := by
  intro emid
  induction emid with
  | nil =>
    intro fuel epre tpre tmid h1 h2 h3 h4
    cases fuel with
    | zero => simp at h4
    | succ f =>
      have : tmid = [] := by
        cases tmid with
        | nil => rfl
        | cons _ _ => simp at h1
      subst this
      simp only [List.length_nil, Nat.add_zero] at h3
      have hne : epre.length ≠ nb := by omega
      simp only [Vector.copyFromLoop, Vector.ConstIterator.mk.injEq, hne, and_false, if_false,
        List.nil_append]
      rw [bind_ok (onConst_ok _ (Vector.deref_at b cb nb epre epost y hb (by omega)))]
      exact bind_throw (Vector.assign_past _ _ _ (by simp [h3]) (by simpa using ha))
  | cons x emid ih =>
    intro fuel epre tpre tmid h1 h2 h3 h4
    cases fuel with
    | zero => simp at h4
    | succ f =>
      cases tmid with
      | nil => simp at h1
      | cons z tmid =>
        simp only [List.length_cons] at h1 h3 h4
        have hne : epre.length ≠ nb := by omega
        have hmod : (epre.length + 1) % SIZE_MOD = epre.length + 1 := Nat.mod_eq_of_lt (by omega)
        have hih := ih f (epre ++ [x]) (tpre ++ [x]) tmid (by omega) (by simp [h2])
          (by simp; omega) (by omega)
        simp only [List.length_append, List.length_singleton, List.append_assoc,
          List.singleton_append] at hih
        simp only [Vector.copyFromLoop, Vector.ConstIterator.mk.injEq, hne, and_false, if_false,
          List.cons_append]
        rw [bind_ok (onConst_ok _
          (Vector.deref_at b cb nb epre (emid ++ y :: epost) x hb (by omega)))]
        rw [h2, bind_ok (Vector.assign_at a c na tpre (tmid ++ tpost) x z ha (by omega))]
        rw [bind_ok_of (⟨a, tpre.length + 1⟩ : Vector.ConstIterator)
          ⟨a, tpre ++ (x :: (tmid ++ tpost)), c, na⟩
          (by simp only [Vector.ConstIterator.increment]; rw [← h2, hmod, if_neg (by omega)])]
        rw [← h2, bind_ok_of (⟨b, epre.length + 1⟩ : Vector.ConstIterator)
          ⟨a, tpre ++ (x :: (tmid ++ tpost)), c, na⟩
          (by
            apply onConst_ok (t := ⟨b, epre ++ x :: (emid ++ y :: epost), cb, nb⟩)
            simp only [Vector.ConstIterator.increment]; rw [hmod, if_neg (by omega)])]
        exact hih

theorem Vector.copyAssign_spec [Inhabited α] (a b : Vector α) (t : List α) (hb : b.Holds t)
    (ha : a.addr ≠ 0) (hne : a.addr ≠ b.addr) (hle : t.length ≤ a.size)
    (hn : t.length < SIZE_MOD) :
    ∃ a1, Vector.copyAssign b a = Res.ok () a1 ∧ a1.Holds t ∧ a1.addr = a.addr
      ∧ a1.maxCapacity = b.maxCapacity := by
  obtain ⟨rest, hbe, hcap, hsz, hba⟩ := hb.buffer
  have hrep : List.replicate b.maxCapacity (default : α)
      = [] ++ (List.replicate t.length default ++ List.replicate rest.length default) := by
    rw [List.nil_append, ← List.replicate_add, hcap]
  have hloop := Vector.copyFromLoop_spec a.addr b.addr b.maxCapacity b.maxCapacity a.size t.length
    ha hba hn hle rest (List.replicate rest.length default) t (t.length + 1) []
    [] (List.replicate t.length default) (by simp) rfl (by simp) (by omega)
  simp only [List.nil_append, List.length_nil] at hloop
  refine ⟨⟨a.addr, t ++ List.replicate rest.length default, b.maxCapacity, t.length⟩, ?_,
    Vector.holds_mk _ _ _ _ ha (by simpa using hcap), rfl, rfl⟩
  simp only [Vector.copyAssign, getState_bind, modifyState_bind]
  rw [if_pos hne]
  simp only [getState_bind, modifyState_bind, Vector.begin, Vector.cbegin, Vector.cend]
  rw [hrep, hsz, List.nil_append]
  rw [hbe] at hloop ⊢
  simp only [] at hloop ⊢
  rw [bind_ok hloop]
  rfl

theorem Vector.copyAssign_throw [Inhabited α] (a b : Vector α) (t : List α) (hb : b.Holds t)
    (ha : a.addr ≠ 0) (hne : a.addr ≠ b.addr) (hlt : a.size < t.length)
    (hn : t.length < SIZE_MOD) :
    ∃ a1, Vector.copyAssign b a = Res.throw Exception.out_of_range a1 ∧ a1.size = a.size
      ∧ a1.maxCapacity = b.maxCapacity ∧ a1.toList = t.take a.size := by
  obtain ⟨rest, hbe, hcap, hsz, hba⟩ := hb.buffer
  obtain ⟨y, hy⟩ : ∃ y, t.drop a.size = y :: t.drop (a.size + 1) := by
    have := List.drop_eq_getElem_cons hlt
    exact ⟨_, this⟩
  have ht : t = t.take a.size ++ y :: t.drop (a.size + 1) := by
    rw [← hy, List.take_append_drop]
  have hlen : (t.take a.size).length = a.size := by simp; omega
  have hrep : List.replicate b.maxCapacity (default : α)
      = [] ++ (List.replicate a.size default ++ List.replicate (b.maxCapacity - a.size) default) := by
    rw [List.nil_append, ← List.replicate_add]
    congr 1
    omega
  have hloop := Vector.copyFromLoop_throw a.addr b.addr b.maxCapacity b.maxCapacity a.size t.length
    ha hba (by omega) hlt y (t.drop (a.size + 1) ++ rest)
    (List.replicate (b.maxCapacity - a.size) default) (t.take a.size) (t.length + 1) []
    [] (List.replicate a.size default) (by rw [hlen]; simp) rfl (by rw [hlen]; simp)
    (by rw [hlen]; omega)
  simp only [List.nil_append, List.length_nil] at hloop
  have hbuf : t.take a.size ++ y :: (t.drop (a.size + 1) ++ rest) = t ++ rest := by
    conv_rhs => rw [ht]
    simp
  rw [hbuf] at hloop
  refine ⟨⟨a.addr, t.take a.size ++ List.replicate (b.maxCapacity - a.size) default,
    b.maxCapacity, a.size⟩, ?_, rfl, rfl, ?_⟩
  · simp only [Vector.copyAssign, getState_bind, modifyState_bind]
    rw [if_pos hne]
    simp only [getState_bind, modifyState_bind, Vector.begin, Vector.cbegin, Vector.cend]
    rw [hrep, hsz, List.nil_append]
    rw [hbe] at hloop ⊢
    simp only [] at hloop ⊢
    exact bind_throw hloop
  · simp only [Vector.toList]
    rw [List.take_append_of_le_length (by omega), List.take_of_length_le (by omega)]

theorem Vector.vec_position_run (v : Vector α) (i : Nat) (hi : i ≤ v.size) (hn : v.size < SIZE_MOD) :
    Vector.position i v = Res.ok ⟨v.addr, i⟩ v := by
  simp only [Vector.position, getState_bind, Vector.begin, Vector.cbegin]
  exact Vector.plus_nat_spec v v.addr i hi hn

theorem Vector.vec_deref_position (v : Vector α) (s : List α) (hv : v.Holds s) (i : Nat)
    (hn : s.length < SIZE_MOD) :
    (i = s.length →
      (Vector.position i >>= Vector.ConstIterator.deref) v = Res.throw Exception.out_of_range v) ∧
    (∀ h : i < s.length,
      (Vector.position i >>= Vector.ConstIterator.deref) v = Res.ok s[i] v) := by
  have hsz := Vector.vec_holds_size hv
  constructor
  · intro hi
    rw [bind_ok (Vector.vec_position_run v i (by omega) (by omega))]
    simp only [Vector.ConstIterator.deref]
    rw [if_neg (by simpa [Vector.begin, Vector.cbegin] using hv.1.1), if_pos (Or.inl (by simp; omega))]
  · intro hi
    rw [bind_ok (Vector.vec_position_run v i (by omega) (by omega))]
    obtain ⟨rest, hbe, _, _, hva⟩ := hv.buffer
    have hs : s = s.take i ++ s[i] :: s.drop (i + 1) := by
      rw [← List.drop_eq_getElem_cons hi, List.take_append_drop]
    have hlen : (s.take i).length = i := by simp; omega
    have := Vector.deref_at v.addr v.maxCapacity s.length (s.take i) (s.drop (i + 1) ++ rest) s[i]
      hva (by omega)
    rw [hlen] at this
    have hb : s.take i ++ s[i] :: (s.drop (i + 1) ++ rest) = s ++ rest :=
      calc s.take i ++ s[i] :: (s.drop (i + 1) ++ rest)
          = (s.take i ++ s[i] :: s.drop (i + 1)) ++ rest := by
            rw [List.append_assoc, List.cons_append]
        _ = s ++ rest := by rw [← hs]
    rw [hb, ← hbe] at this
    exact this

theorem Vector.vec_incrementTimes_spec (v : Vector α) (a : Nat) (hn : v.size < SIZE_MOD) :
    ∀ (d i : Nat), i + d ≤ v.size →
      Vector.ConstIterator.incrementTimes d ⟨a, i⟩ v = Res.ok ⟨a, i + d⟩ v := by
  intro d
  induction d with
  | zero => intro i _; rfl
  | succ d ih =>
    intro i hi
    simp only [Vector.ConstIterator.incrementTimes]
    rw [bind_ok (Vector.vec_increment_spec v a i (by omega) hn), ih (i + 1) (by omega)]
    have : i + 1 + d = i + (d + 1) := by omega
    rw [this]

theorem Vector.vec_increment_end (v : Vector α) (a i : Nat) (hi : v.size ≤ i)
    (hn : i + 1 < SIZE_MOD) :
    Vector.ConstIterator.increment ⟨a, i⟩ v = Res.throw Exception.out_of_range v := by
  simp only [Vector.ConstIterator.increment]
  rw [Nat.mod_eq_of_lt hn, if_pos (by omega)]

theorem Vector.vec_incrementTimes_past (v : Vector α) (a : Nat) (hn : v.size + 1 < SIZE_MOD) :
    ∀ (d i : Nat), i ≤ v.size → v.size < i + d →
      Vector.ConstIterator.incrementTimes d ⟨a, i⟩ v = Res.throw Exception.out_of_range v := by
  intro d
  induction d with
  | zero => intro i h1 h2; omega
  | succ d ih =>
    intro i h1 h2
    simp only [Vector.ConstIterator.incrementTimes]
    by_cases hi : i = v.size
    · exact bind_throw (Vector.vec_increment_end v a i (by omega) (by omega))
    · rw [bind_ok (Vector.vec_increment_spec v a i (by omega) (by omega))]
      exact ih (i + 1) (by omega) (by omega)

theorem Vector.vec_decrementTimes_spec (v : Vector α) (a : Nat) :
    ∀ (d i : Nat), d ≤ i →
      Vector.ConstIterator.decrementTimes d ⟨a, i⟩ v = Res.ok ⟨a, i - d⟩ v := by
  intro d
  induction d with
  | zero => intro i _; rfl
  | succ d ih =>
    intro i hi
    simp only [Vector.ConstIterator.decrementTimes]
    have h1 : Vector.ConstIterator.decrement ⟨a, i⟩ v = Res.ok ⟨a, i - 1⟩ v := by
      simp only [Vector.ConstIterator.decrement]
      rw [if_neg (by omega)]
    rw [bind_ok h1, ih (i - 1) (by omega)]
    have : i - 1 - d = i - (d + 1) := by omega
    rw [this]

theorem Vector.vec_decrementTimes_past (v : Vector α) (a : Nat) :
    ∀ (d i : Nat), i < d →
      Vector.ConstIterator.decrementTimes d ⟨a, i⟩ v = Res.throw Exception.out_of_range v := by
  intro d
  induction d with
  | zero => intro i h; omega
  | succ d ih =>
    intro i h
    simp only [Vector.ConstIterator.decrementTimes]
    by_cases hi : i = 0
    · have h1 : Vector.ConstIterator.decrement ⟨a, i⟩ v = Res.throw Exception.out_of_range v := by
        simp only [Vector.ConstIterator.decrement]
        rw [if_pos hi]
      exact bind_throw h1
    · have h1 : Vector.ConstIterator.decrement ⟨a, i⟩ v = Res.ok ⟨a, i - 1⟩ v := by
        simp only [Vector.ConstIterator.decrement]
        rw [if_neg hi]
      rw [bind_ok h1]
      exact ih (i - 1) (by omega)

theorem Vector.indexMinus_small (k d : Nat) (h : d ≤ k) (hk : k < SIZE_MOD) :
    Vector.indexMinus k (d : Int) = k - d := by
  unfold Vector.indexMinus
  have h1 : ((k : Int) - (d : Int)) = ((k - d : Nat) : Int) := by omega
  rw [h1, ← Int.natCast_mod, Int.toNat_natCast, Nat.mod_eq_of_lt (by omega)]

theorem Vector.vec_plus_steps (v : Vector α) (a i d : Nat) (hi : i ≤ v.size)
    (hn : v.size + d < SIZE_MOD) :
    Vector.ConstIterator.plus ⟨a, i⟩ (d : Int) v = Vector.ConstIterator.incrementTimes d ⟨a, i⟩ v ∧
    (i + d ≤ v.size → Vector.ConstIterator.plus ⟨a, i⟩ (d : Int) v = Res.ok ⟨a, i + d⟩ v) ∧
    (v.size < i + d →
      Vector.ConstIterator.plus ⟨a, i⟩ (d : Int) v = Res.throw Exception.out_of_range v) := by
  have hp : Vector.indexPlus i (d : Int) = i + d := Vector.indexPlus_small i d (by omega)
  have h1 : i + d ≤ v.size → Vector.ConstIterator.plus ⟨a, i⟩ (d : Int) v = Res.ok ⟨a, i + d⟩ v := by
    intro h
    simp only [Vector.ConstIterator.plus, hp]
    rw [if_neg (by omega)]
  have h2 : v.size < i + d →
      Vector.ConstIterator.plus ⟨a, i⟩ (d : Int) v = Res.throw Exception.out_of_range v := by
    intro h
    simp only [Vector.ConstIterator.plus, hp]
    rw [if_pos (by omega)]
  refine ⟨?_, h1, h2⟩
  by_cases h : i + d ≤ v.size
  · rw [h1 h, Vector.vec_incrementTimes_spec v a (by omega) d i h]
  · rw [h2 (by omega), Vector.vec_incrementTimes_past v a (by omega) d i hi (by omega)]

theorem Vector.vec_minus_steps (v : Vector α) (a i d : Nat) (hi : i < SIZE_MOD)
    (hd : d < SIZE_MOD) :
    Vector.ConstIterator.minus ⟨a, i⟩ (d : Int) v = Vector.ConstIterator.decrementTimes d ⟨a, i⟩ v ∧
    (d ≤ i → Vector.ConstIterator.minus ⟨a, i⟩ (d : Int) v = Res.ok ⟨a, i - d⟩ v) ∧
    (i < d →
      Vector.ConstIterator.minus ⟨a, i⟩ (d : Int) v = Res.throw Exception.out_of_range v) := by
  have hp : Vector.indexPlus 0 (d : Int) = d := by
    have := Vector.indexPlus_small 0 d (by omega)
    simpa using this
  have h1 : d ≤ i → Vector.ConstIterator.minus ⟨a, i⟩ (d : Int) v = Res.ok ⟨a, i - d⟩ v := by
    intro h
    simp only [Vector.ConstIterator.minus, hp]
    rw [if_neg (by omega), Vector.indexMinus_small i d h hi]
  have h2 : i < d →
      Vector.ConstIterator.minus ⟨a, i⟩ (d : Int) v = Res.throw Exception.out_of_range v := by
    intro h
    simp only [Vector.ConstIterator.minus, hp]
    rw [if_pos h]
  refine ⟨?_, h1, h2⟩
  by_cases h : d ≤ i
  · rw [h1 h, Vector.vec_decrementTimes_spec v a d i h]
  · rw [h2 (by omega), Vector.vec_decrementTimes_past v a d i (by omega)]

theorem Vector.vec_position_steps (v : Vector α) (s : List α) (i d : Nat) (hv : v.Holds s)
    (hi : i ≤ s.length) (hn : s.length + d < SIZE_MOD) :
    ((Vector.position i >>= fun it => Vector.ConstIterator.plus it (d : Int)) v
        = (Vector.position i >>= Vector.ConstIterator.incrementTimes d) v) ∧
    ((Vector.position i >>= fun it => Vector.ConstIterator.minus it (d : Int)) v
        = (Vector.position i >>= Vector.ConstIterator.decrementTimes d) v) ∧
    (i + d ≤ s.length → ∃ it, Vector.position (i + d) v = Res.ok it v ∧
      (Vector.position i >>= fun it => Vector.ConstIterator.plus it (d : Int)) v = Res.ok it v) ∧
    (s.length < i + d →
      (Vector.position i >>= fun it => Vector.ConstIterator.plus it (d : Int)) v
        = Res.throw Exception.out_of_range v) ∧
    (d ≤ i → ∃ it, Vector.position (i - d) v = Res.ok it v ∧
      (Vector.position i >>= fun it => Vector.ConstIterator.minus it (d : Int)) v = Res.ok it v) ∧
    (i < d →
      (Vector.position i >>= fun it => Vector.ConstIterator.minus it (d : Int)) v
        = Res.throw Exception.out_of_range v) := by
  have hsz := Vector.vec_holds_size hv
  have hq := Vector.vec_position_run v i (by omega) (by omega)
  obtain ⟨p1, p2, p3⟩ := Vector.vec_plus_steps v v.addr i d (by omega) (by omega)
  obtain ⟨m1, m2, m3⟩ := Vector.vec_minus_steps v v.addr i d (by omega) (by omega)
  refine ⟨?_, ?_, fun h => ?_, fun h => ?_, fun h => ?_, fun h => ?_⟩
  · rw [bind_ok hq, bind_ok hq]; exact p1
  · rw [bind_ok hq, bind_ok hq]; exact m1
  · exact ⟨_, Vector.vec_position_run v (i + d) (by omega) (by omega),
      by rw [bind_ok hq]; exact p2 (by omega)⟩
  · rw [bind_ok hq]; exact p3 (by omega)
  · exact ⟨_, Vector.vec_position_run v (i - d) (by omega) (by omega),
      by rw [bind_ok hq]; exact m2 h⟩
  · rw [bind_ok hq]; exact m3 h

theorem Vector.vec_position_single (v : Vector α) (s : List α) (i : Nat) (hv : v.Holds s)
    (hi : i ≤ s.length) (hn : s.length + 1 < SIZE_MOD) :
    ((Vector.position i >>= Vector.ConstIterator.increment) v
        = Res.throw Exception.out_of_range v ↔ i = s.length) ∧
    ((Vector.position i >>= Vector.ConstIterator.decrement) v
        = Res.throw Exception.out_of_range v ↔ i = 0) := by
  have hsz := Vector.vec_holds_size hv
  have hq := Vector.vec_position_run v i (by omega) (by omega)
  rw [bind_ok hq, bind_ok hq]
  constructor
  · constructor
    · intro h
      by_contra hne
      rw [Vector.vec_increment_spec v v.addr i (by omega) (by omega)] at h
      cases h
    · intro h
      exact Vector.vec_increment_end v v.addr i (by omega) (by omega)
  · constructor
    · intro h
      by_contra hne
      simp only [Vector.ConstIterator.decrement] at h
      rw [if_neg hne] at h
      cases h
    · intro h
      simp only [Vector.ConstIterator.decrement]
      rw [if_pos h]

theorem Vector.indexPlus_neg (k m : Nat) :
    Vector.indexPlus k (-(m : Int)) = (((k : Int) - m) % (2 ^ 64 : Int)).toNat := by
  unfold Vector.indexPlus SIZE_MOD
  omega

theorem Vector.vec_position_steps_neg (v : Vector α) (s : List α) (i m : Nat) (hv : v.Holds s)
    (hi : i ≤ s.length) (hn : s.length < 2 ^ 63) (hm0 : 0 < m) (hm : m ≤ 2 ^ 63) :
    (m ≤ i → ∃ it, Vector.position (i - m) v = Res.ok it v ∧
      (Vector.position i >>= fun it => Vector.ConstIterator.plus it (-(m : Int))) v
        = Res.ok it v) ∧
    (i < m →
      (Vector.position i >>= fun it => Vector.ConstIterator.plus it (-(m : Int))) v
        = Res.throw Exception.out_of_range v) ∧
    ((Vector.position i >>= fun it => Vector.ConstIterator.minus it (-(m : Int))) v
        = Res.throw Exception.out_of_range v) := by
  have hsz := Vector.vec_holds_size hv
  have hM : SIZE_MOD = 2 ^ 63 + 2 ^ 63 := by norm_num [SIZE_MOD]
  have hq := Vector.vec_position_run v i (by omega) (by omega)
  refine ⟨fun h => ?_, fun h => ?_, ?_⟩
  · refine ⟨_, Vector.vec_position_run v (i - m) (by omega) (by omega), ?_⟩
    rw [bind_ok hq]
    have hp : Vector.indexPlus i (-(m : Int)) = i - m := by
      rw [Vector.indexPlus_neg]; omega
    simp only [Vector.ConstIterator.plus, hp]
    rw [if_neg (by omega)]
  · rw [bind_ok hq]
    have hp : s.length < Vector.indexPlus i (-(m : Int)) := by
      rw [Vector.indexPlus_neg]; omega
    simp only [Vector.ConstIterator.plus]
    rw [if_pos (by omega)]
  · rw [bind_ok hq]
    have hp : i < Vector.indexPlus 0 (-(m : Int)) := by
      rw [Vector.indexPlus_neg]; omega
    simp only [Vector.ConstIterator.minus]
    rw [if_pos hp]

theorem Vector.vec_copyConstruct_spec [Inhabited α] (v : Vector α) (s : List α) (addr : Nat)
    (hv : v.Holds s) (ha : addr ≠ 0) (hn : s.length < SIZE_MOD) :
    ∃ b, Vector.copyConstruct addr v = Res.ok b v ∧ b.Holds s ∧ b.addr = addr
      ∧ b.maxCapacity = v.maxCapacity ∧ b.size = v.size := by
  obtain ⟨rest, hbe, hcap, hsz, hva⟩ := hv.buffer
  have hrep : List.replicate v.maxCapacity (default : α)
      = [] ++ (List.replicate s.length default ++ List.replicate rest.length default) := by
    rw [List.nil_append, ← List.replicate_add, hcap]
  have hcopy := Vector.copyToArray_spec v.addr v.maxCapacity s.length hva hn rest
    (List.replicate rest.length default) s (s.length + 1) [] [] (List.replicate s.length default)
    (by simp) rfl (by simp) (by omega)
  simp only [List.nil_append, List.length_nil] at hcopy
  refine ⟨⟨addr, s ++ List.replicate rest.length default, v.maxCapacity, s.length⟩, ?_,
    Vector.holds_mk _ _ _ _ ha (by simpa using hcap), rfl, rfl, hsz.symm⟩
  simp only [Vector.copyConstruct, getState_bind, Vector.cbegin, Vector.cend]
  rw [hrep, hsz, List.nil_append]
  rw [hbe] at hcopy ⊢
  simp only [] at hcopy ⊢
  rw [bind_ok hcopy]
  rfl

theorem Vector.vec_position_cases (v : Vector α) (i : Nat) :
    Vector.position i v = Res.throw Exception.out_of_range v ∨
    ∃ k, k ≤ v.size ∧ Vector.position i v = Res.ok ⟨v.addr, k⟩ v := by
  simp only [Vector.position, getState_bind]
  exact Vector.plus_cases v v.begin (i : Int)

theorem Vector.assign_holds (v : Vector α) (s : List α) (k : Nat) (x : α) (hv : v.Holds s)
    (hk : k < s.length) :
    ∃ v1, Vector.Iterator.assign ⟨v.addr, k⟩ x v = Res.ok () v1 ∧ v1.Holds (s.set k x) := by
  obtain ⟨rest, hbe, hcap, hsz, hva⟩ := hv.buffer
  have hs : s = s.take k ++ s[k] :: s.drop (k + 1) := by
    rw [← List.drop_eq_getElem_cons hk, List.take_append_drop]
  have hlen : (s.take k).length = k := by simp; omega
  have hset : s.set k x = s.take k ++ x :: s.drop (k + 1) := by
    conv_lhs => rw [hs]
    have := list_set_append_length (s.take k) (s.drop (k + 1)) x s[k]
    rw [hlen] at this
    exact this
  have hw := Vector.assign_at v.addr v.maxCapacity s.length (s.take k) (s.drop (k + 1) ++ rest)
    x s[k] hva (by omega)
  rw [hlen] at hw
  have hb : s.take k ++ s[k] :: (s.drop (k + 1) ++ rest) = s ++ rest :=
    calc s.take k ++ s[k] :: (s.drop (k + 1) ++ rest)
        = (s.take k ++ s[k] :: s.drop (k + 1)) ++ rest := by
          rw [List.append_assoc, List.cons_append]
      _ = s ++ rest := by rw [← hs]
  rw [hb, ← hbe] at hw
  refine ⟨_, hw, ?_⟩
  have hb2 : s.take k ++ x :: (s.drop (k + 1) ++ rest) = s.set k x ++ rest := by
    rw [hset, List.append_assoc, List.cons_append]
  rw [hb2]
  have := Vector.holds_mk v.addr v.maxCapacity (s.set k x) rest hva (by simpa using hcap)
  simpa using this

theorem Vector.vec_call_cases [Inhabited α] (c : Call α) (v : Vector α) (s : List α)
    (hv : v.Holds s) (hn : s.length + 1 < SIZE_MOD) :
    (∃ e, Vector.call c v = Res.throw e v) ∨
    (∃ v1 s1, Vector.call c v = Res.ok () v1 ∧ v1.Holds s1 ∧ s1.length ≤ s.length + 1) := by
  have hsz := Vector.vec_holds_size hv
  cases c with
  | single op =>
    rcases Vector.vec_step_cases op v s hv hn with h | ⟨v1, s1, h1, h2, h3⟩
    · exact Or.inl h
    · exact Or.inr ⟨v1, s1, h1, h2, by split at h3 <;> omega⟩
  | eraseRange i j =>
    simp only [Vector.call]
    rcases Vector.vec_position_cases v i with hp | ⟨k1, hk1, hp⟩
    · exact Or.inl ⟨_, bind_throw hp⟩
    · rw [bind_ok hp]
      rcases Vector.vec_position_cases v j with hq | ⟨k2, hk2, hq⟩
      · exact Or.inl ⟨_, bind_throw hq⟩
      · rw [bind_ok hq]
        by_cases hij : k1 ≤ k2
        · right
          obtain ⟨v1, h1, h2, _, _⟩ := Vector.vec_eraseRange_spec v s k1 k2 hv hij (by omega)
            (by omega)
          exact ⟨v1, _, h1, h2, by simp; omega⟩
        · left
          exact ⟨_, Vector.eraseRange_invalid v _ _ (by simp; omega)⟩
  | assign i x =>
    simp only [Vector.call]
    rcases Vector.vec_position_cases v i with hp | ⟨k, hk, hp⟩
    · exact Or.inl ⟨_, bind_throw hp⟩
    · rw [bind_ok hp]
      by_cases hlt : k < s.length
      · right
        obtain ⟨v1, h1, h2⟩ := Vector.assign_holds v s k x hv hlt
        exact ⟨v1, _, h1, h2, by simp⟩
      · left
        exact ⟨_, Vector.assign_past _ _ _ (by simp; omega) (by simpa using hv.1.1)⟩

theorem Vector.Object.load_addr {o : Vector.Object} {st : Store α} {v : Vector α}
    (h : o.load st = some v) :
    v.addr = o.addr ∧ v.maxCapacity = o.maxCapacity ∧ v.size = o.size ∧
      (o.elemArray = nullptr → v.elemArray = []) := by
  unfold Vector.Object.load at h
  split at h
  · rename_i h0
    cases h
    exact ⟨rfl, rfl, rfl, fun _ => rfl⟩
  · rename_i h0
    cases hb : st.buffer o.elemArray with
    | none => rw [hb] at h; simp at h
    | some b =>
      rw [hb] at h
      simp only [Option.map_some', Option.some.injEq] at h
      subst h
      exact ⟨rfl, rfl, rfl, fun h1 => absurd h1 h0⟩

theorem Vector.Object.load_store {o : Vector.Object} {st : Store α} {v v1 : Vector α}
    {s s1 : List α} (h : o.load st = some v) (hv : v.Holds s) (hv1 : v1.Holds s1) :
    (o.store st v v1).1.HoldsIn (o.store st v v1).2 s1 := by
  obtain ⟨ha, hc, hz, he⟩ := Vector.Object.load_addr h
  have hao : o.addr ≠ 0 := by rw [← ha]; exact hv.1.1
  have hh := Vector.holds_readdress hv1 o.addr hao
  refine ⟨⟨o.addr, v1.elemArray, v1.maxCapacity, v1.size⟩, ?_, hh⟩
  unfold Vector.Object.store
  split
  · rename_i hcap
    by_cases h0 : o.elemArray = nullptr
    · simp only [h0, if_true, Vector.Object.load]
      have h1 : v1.elemArray.length = 0 := by
        rw [hv1.1.2.1, hcap, ← hv.1.2.1, he h0]
        rfl
      rw [List.length_eq_zero.mp h1]
    · simp [h0, Vector.Object.load]
  · have hne : st.brk + 1 ≠ nullptr := Nat.succ_ne_zero _
    simp [Vector.Object.load, hne]

theorem Vector.Object.store_frame (o : Vector.Object) (st : Store α) (v v1 : Vector α)
    (hb : o.elemArray ≤ st.brk) :
    st.brk ≤ (o.store st v v1).2.brk ∧ (o.store st v v1).1.elemArray ≤ (o.store st v v1).2.brk ∧
    ((o.store st v v1).1.elemArray = o.elemArray ∨ st.brk < (o.store st v v1).1.elemArray) ∧
    ∀ p, p ≠ o.elemArray → p ≤ st.brk → (o.store st v v1).2.buffer p = st.buffer p := by
  unfold Vector.Object.store
  split
  · refine ⟨?_, ?_, Or.inl rfl, ?_⟩
    · split <;> exact le_refl _
    · split <;> exact hb
    · intro p hp _
      split
      · rfl
      · simp [Function.update_apply, hp]
  · refine ⟨Nat.le_succ _, le_refl _, Or.inr (Nat.lt_succ_self _), ?_⟩
    intro p hp hle
    have : p ≠ st.brk + 1 := by omega
    simp [Function.update_apply, hp, this]

theorem Vector.Object.call_spec [Inhabited α] (c : Call α) (o : Vector.Object) (st : Store α)
    (s : List α) (h : o.HoldsIn st s) (hn : s.length + 1 < SIZE_MOD) (hb : o.elemArray ≤ st.brk) :
    ∃ o1 st1 s1, o.call c st = some (o1, st1) ∧ o1.HoldsIn st1 s1 ∧ s1.length ≤ s.length + 1
      ∧ st.brk ≤ st1.brk ∧ o1.elemArray ≤ st1.brk
      ∧ (o1.elemArray = o.elemArray ∨ st.brk < o1.elemArray)
      ∧ ∀ p, p ≠ o.elemArray → p ≤ st.brk → st1.buffer p = st.buffer p := by
  obtain ⟨v, hl, hv⟩ := h
  rcases Vector.vec_call_cases c v s hv hn with ⟨e, hc⟩ | ⟨v1, s1, hc, hv1, hlen⟩
  · obtain ⟨f1, f2, f3, f4⟩ := Vector.Object.store_frame o st v v hb
    exact ⟨_, _, s, by simp only [Vector.Object.call, hl, hc], Vector.Object.load_store hl hv hv,
      by omega, f1, f2, f3, f4⟩
  · obtain ⟨f1, f2, f3, f4⟩ := Vector.Object.store_frame o st v v1 hb
    exact ⟨_, _, s1, by simp only [Vector.Object.call, hl, hc], Vector.Object.load_store hl hv hv1,
      hlen, f1, f2, f3, f4⟩

theorem Vector.Object.load_congr (a : Vector.Object) (st st1 : Store α)
    (h : st1.buffer a.elemArray = st.buffer a.elemArray) : a.load st1 = a.load st := by
  unfold Vector.Object.load
  rw [h]

theorem Vector.Object.obj_runCalls_spec [Inhabited α] (a : Vector.Object) :
    ∀ (cs : List (Call α)) (o : Vector.Object) (st : Store α) (s : List α),
    o.HoldsIn st s → s.length + cs.length < SIZE_MOD → o.elemArray ≤ st.brk →
    a.elemArray < o.elemArray →
    ∃ o1 st1 s1, o.runCalls cs st = some (o1, st1) ∧ o1.HoldsIn st1 s1 ∧
      a.load st1 = a.load st := by
  intro cs
  induction cs with
  | nil => intro o st s h _ _ _; exact ⟨o, st, s, rfl, h, rfl⟩
  | cons c cs ih =>
    intro o st s h hn hb hlt
    simp only [List.length_cons] at hn
    obtain ⟨o1, st1, s1, h1, h2, h3, h4, h5, h6, h7⟩ :=
      Vector.Object.call_spec c o st s h (by omega) hb
    have hlt1 : a.elemArray < o1.elemArray := by
      rcases h6 with h6 | h6
      · rw [h6]; exact hlt
      · omega
    obtain ⟨o2, st2, s2, k1, k2, k3⟩ := ih o1 st1 s1 h2 (by omega) h5 hlt1
    refine ⟨o2, st2, s2, ?_, k2, ?_⟩
    · simp only [Vector.Object.runCalls, h1]
      exact k1
    · rw [k3]
      exact Vector.Object.load_congr a st st1 (h7 _ (by omega) (by omega))

theorem Vector.Object.obj_copyConstruct_spec [Inhabited α] (a : Vector.Object) (st : Store α)
    (s : List α) (addr : Nat) (h : a.HoldsIn st s) (haddr : addr ≠ 0) (hn : s.length < SIZE_MOD)
    (hb : a.elemArray ≤ st.brk) :
    ∃ b st1, Vector.Object.copyConstruct addr a st = some (b, st1) ∧ b.HoldsIn st1 s
      ∧ b.size = a.size ∧ a.load st1 = a.load st ∧ b.elemArray ≤ st1.brk
      ∧ a.elemArray < b.elemArray := by
  obtain ⟨v, hl, hv⟩ := h
  obtain ⟨vb, h1, h2, h3, h4, h5⟩ := Vector.vec_copyConstruct_spec v s addr hv haddr hn
  obtain ⟨_, _, hz, _⟩ := Vector.Object.load_addr hl
  have hne : st.brk + 1 ≠ nullptr := Nat.succ_ne_zero _
  refine ⟨⟨addr, st.brk + 1, vb.maxCapacity, vb.size⟩,
    { buffer := Function.update st.buffer (st.brk + 1) (some vb.elemArray), brk := st.brk + 1 },
    by simp only [Vector.Object.copyConstruct, hl, h1], ⟨vb, ?_, h2⟩,
    by simp only [h5, hz], ?_, le_refl _, Nat.lt_succ_of_le hb⟩
  · simp only [Vector.Object.load, hne, if_false, Function.update_same, Option.map_some']
    rw [← h3]
  · apply Vector.Object.load_congr
    have : a.elemArray ≠ st.brk + 1 := by omega
    simp [Function.update_apply, this]

end vectorMore

/-! ## Lemmas: iterators, construction and frames of `LinkedList` -/

section listMore

variable {α : Type}

theorem LinkedList.position_run {l : LinkedList α} {pre post : List Nat}
    (hr : LinkedList.Ring l (pre ++ post)) (hn : pre.length < 2 ^ 31) :
    LinkedList.position pre.length l = Res.ok ⟨l.addr, post.headD l.sentinel⟩ l :=
  LinkedList.position_spec hr hn

theorem LinkedList.deref_end (l : LinkedList α) :
    LinkedList.ConstIterator.deref l.cend l = Res.throw Exception.out_of_range l := by
  simp [LinkedList.ConstIterator.deref]

theorem LinkedList.deref_node {l : LinkedList α} {pre post : List Nat} {r : Nat}
    (hr : LinkedList.Ring l (pre ++ r :: post)) :
    LinkedList.ConstIterator.deref ⟨l.addr, r⟩ l = Res.ok (l.heap.value r) l := by
  have hne : r ≠ l.sentinel := hr.head_ne_sentinel
  have hv : l.valid r := hr.valid_mem (by simp)
  simp only [LinkedList.ConstIterator.deref, getState_bind, LinkedList.cend,
    LinkedList.ConstIterator.mk.injEq, hne, and_false, if_false]
  simp [LinkedList.getValue, hv]

theorem LinkedList.deref_position (l : LinkedList α) (s : List α) (hl : l.Holds s) (i : Nat)
    (h31 : s.length < 2 ^ 31) :
    (i = s.length →
      (LinkedList.position i >>= LinkedList.ConstIterator.deref) l
        = Res.throw Exception.out_of_range l) ∧
    (∀ h : i < s.length,
      (LinkedList.position i >>= LinkedList.ConstIterator.deref) l = Res.ok s[i] l) := by
  constructor
  · intro hi
    obtain ⟨pre, post, hr, hpre, h1, h2⟩ := hl.split i (by omega)
    have hpost : post = [] := by
      have : post.length = 0 := by
        have := congrArg List.length h2
        simpa [hi] using this
      exact List.length_eq_zero.mp this
    subst hpost
    rw [← hpre, bind_ok (LinkedList.position_run hr (by omega))]
    exact LinkedList.deref_end l
  · intro hi
    obtain ⟨pre, post, hr, hpre, h1, h2⟩ := hl.split i (by omega)
    have hd : s.drop i = s[i] :: s.drop (i + 1) := List.drop_eq_getElem_cons hi
    subst hpre
    cases post with
    | nil => rw [hd] at h2; simp at h2; omega
    | cons r post =>
      rw [hd] at h2
      simp only [List.map_cons, List.cons.injEq] at h2
      rw [bind_ok (LinkedList.position_run hr (by omega))]
      simp only [List.headD_cons]
      rw [LinkedList.deref_node hr, h2.1]

theorem bind_assoc_run {σ ρ τ υ : Type} (m : M σ ρ) (f : ρ → M σ τ) (g : τ → M σ υ) (s : σ) :
    ((m >>= f) >>= g) s = (m >>= fun r => f r >>= g) s := by
  simp only [bind_run, M.bind]
  cases m s <;> rfl

theorem LinkedList.incrementTimes_add (a : Nat) : ∀ (b : Nat) (it : LinkedList.ConstIterator)
    (l : LinkedList α),
    LinkedList.ConstIterator.incrementTimes (b + a) it l
      = (LinkedList.ConstIterator.incrementTimes b it
          >>= LinkedList.ConstIterator.incrementTimes a) l := by
  intro b
  induction b with
  | zero => intro it l; simp [LinkedList.ConstIterator.incrementTimes]; rfl
  | succ b ih =>
    intro it l
    have : b + 1 + a = (b + a) + 1 := by omega
    rw [this]
    simp only [LinkedList.ConstIterator.incrementTimes]
    rw [bind_assoc_run]
    simp only [bind_run, M.bind]
    cases h : LinkedList.ConstIterator.increment it l with
    | ok r s => simp only []; rw [ih]; rfl
    | throw e s => rfl
    | ub => rfl
    | timeout => rfl

theorem LinkedList.decrementTimes_add (a : Nat) : ∀ (b : Nat) (it : LinkedList.ConstIterator)
    (l : LinkedList α),
    LinkedList.ConstIterator.decrementTimes (b + a) it l
      = (LinkedList.ConstIterator.decrementTimes b it
          >>= LinkedList.ConstIterator.decrementTimes a) l := by
  intro b
  induction b with
  | zero => intro it l; simp [LinkedList.ConstIterator.decrementTimes]; rfl
  | succ b ih =>
    intro it l
    have : b + 1 + a = (b + a) + 1 := by omega
    rw [this]
    simp only [LinkedList.ConstIterator.decrementTimes]
    rw [bind_assoc_run]
    simp only [bind_run, M.bind]
    cases h : LinkedList.ConstIterator.decrement it l with
    | ok r s => simp only []; rw [ih]; rfl
    | throw e s => rfl
    | ub => rfl
    | timeout => rfl

theorem LinkedList.position_ok {l : LinkedList α} {ps : List Nat} (hr : LinkedList.Ring l ps)
    (i : Nat) (hi : i ≤ ps.length) (hn : i < 2 ^ 31) :
    LinkedList.position i l = Res.ok ⟨l.addr, (ps.drop i).headD l.sentinel⟩ l := by
  have hr1 : LinkedList.Ring l (ps.take i ++ ps.drop i) := by simpa using hr
  have hl1 : (ps.take i).length = i := by simp; omega
  have hp := LinkedList.position_run hr1 (by omega)
  rw [hl1] at hp
  exact hp

theorem LinkedList.incrementTimes_from_past {l : LinkedList α} {ps : List Nat}
    (hr : LinkedList.Ring l ps) (i m : Nat) (hi : i ≤ ps.length) (hn : i < 2 ^ 31)
    (hm : ps.length < i + m) :
    LinkedList.ConstIterator.incrementTimes m ⟨l.addr, (ps.drop i).headD l.sentinel⟩ l
      = Res.throw Exception.out_of_range l := by
  have hp := LinkedList.position_ok hr i hi hn
  change (LinkedList.cbegin >>= fun b => LinkedList.ConstIterator.plus b (i : Int)) l = _ at hp
  rw [LinkedList.cbegin_bind hr, LinkedList.plus_nat _ _ hn] at hp
  have hpast := LinkedList.incrementTimes_begin_past hr (i + m) hm
  rw [LinkedList.incrementTimes_add, bind_ok hp] at hpast
  exact hpast

theorem LinkedList.plus_from_past {l : LinkedList α} {ps : List Nat}
    (hr : LinkedList.Ring l ps) (h31 : ps.length < 2 ^ 31) (i d : Nat) (hi : i ≤ ps.length)
    (hm : ps.length < i + d) :
    LinkedList.ConstIterator.plus ⟨l.addr, (ps.drop i).headD l.sentinel⟩ (d : Int) l
      = Res.throw Exception.out_of_range l := by
  by_cases hd : d < 2 ^ 31
  · rw [LinkedList.plus_nat _ _ hd]
    exact LinkedList.incrementTimes_from_past hr i d hi (by omega) hm
  · rw [LinkedList.plus_nat_large _ _ (by omega)]
    exact bind_throw (LinkedList.incrementTimes_from_past hr i (2 ^ 31) hi (by omega) (by omega))

theorem LinkedList.position_add (i d : Nat) {l : LinkedList α} {ps : List Nat}
    (hr : LinkedList.Ring l ps) (h31 : ps.length < 2 ^ 31) :
    (LinkedList.position i >>= fun it => LinkedList.ConstIterator.plus it (d : Int)) l
      = LinkedList.position (i + d) l := by
  by_cases hsum : i + d ≤ ps.length
  · have e1 : (LinkedList.position i : M (LinkedList α) _)
        = (LinkedList.begin >>= LinkedList.ConstIterator.incrementTimes i) := by
      simp only [LinkedList.position]
      congr 1
      funext b
      exact LinkedList.plus_nat b i (by omega)
    have e2 : (LinkedList.position (i + d) : M (LinkedList α) _)
        = (LinkedList.begin >>= LinkedList.ConstIterator.incrementTimes (i + d)) := by
      simp only [LinkedList.position]
      congr 1
      funext b
      exact LinkedList.plus_nat b (i + d) (by omega)
    have e3 : (fun it => LinkedList.ConstIterator.plus it (d : Int) : _ → M (LinkedList α) _)
        = LinkedList.ConstIterator.incrementTimes d := by
      funext b
      exact LinkedList.plus_nat b d (by omega)
    rw [e1, e2, e3, bind_assoc_run]
    simp only [bind_run, M.bind]
    cases h : LinkedList.begin l with
    | ok r s =>
      simp only []
      have := LinkedList.incrementTimes_add d i r s
      simp only [bind_run, M.bind] at this
      rw [this]
    | throw e s => rfl
    | ub => rfl
    | timeout => rfl
  · have hpast : LinkedList.position (i + d) l = Res.throw Exception.out_of_range l :=
      LinkedList.position_past hr h31 (i + d) (by omega)
    rw [hpast]
    by_cases hi : i ≤ ps.length
    · rw [bind_ok (LinkedList.position_ok hr i hi (by omega))]
      exact LinkedList.plus_from_past hr h31 i d hi (by omega)
    · exact bind_throw (LinkedList.position_past hr h31 i (by omega))

theorem LinkedList.decrement_begin {l : LinkedList α} {ps : List Nat} (hr : LinkedList.Ring l ps) :
    LinkedList.ConstIterator.decrement ⟨l.addr, ps.headD l.sentinel⟩ l
      = Res.throw Exception.out_of_range l := by
  simp only [LinkedList.ConstIterator.decrement]
  rw [LinkedList.cbegin_bind hr]
  simp

theorem LinkedList.decrement_at {l : LinkedList α} {pre post : List Nat} {q : Nat}
    (hr : LinkedList.Ring l (pre ++ q :: post)) :
    LinkedList.ConstIterator.decrement ⟨l.addr, post.headD l.sentinel⟩ l
      = Res.ok ⟨l.addr, q⟩ l := by
  have hr1 : LinkedList.Ring l ((pre ++ [q]) ++ post) := by simpa using hr
  have hne : post.headD l.sentinel ≠ (pre ++ q :: post).headD l.sentinel := by
    have hnd := hr.nodup
    cases pre with
    | nil =>
      cases post with
      | nil => simp at hnd ⊢; exact hnd
      | cons b post => simp at hnd ⊢; intro h; simp [h] at hnd
    | cons a pre =>
      cases post with
      | nil => simp at hnd ⊢; intro h; simp [h] at hnd
      | cons b post =>
        simp [List.nodup_append, List.nodup_cons] at hnd ⊢
        intro h
        simp [h] at hnd
  have hv : l.valid (post.headD l.sentinel) := hr1.valid_succ
  have hp : l.heap.prev (post.headD l.sentinel) = q := by
    have := hr1.next_at.2
    simpa using this
  simp only [LinkedList.ConstIterator.decrement]
  rw [LinkedList.cbegin_bind hr]
  simp only [LinkedList.ConstIterator.mk.injEq, true_and, hne, if_false]
  rw [LinkedList.getPrev_bind _ _ _ hv, hp]
  rfl

theorem LinkedList.decrementTimes_spec (l : LinkedList α) :
    ∀ (mid pre post : List Nat), LinkedList.Ring l (pre ++ (mid ++ post)) →
      LinkedList.ConstIterator.decrementTimes mid.length ⟨l.addr, post.headD l.sentinel⟩ l
        = Res.ok ⟨l.addr, (mid ++ post).headD l.sentinel⟩ l := by
  intro mid
  induction mid using List.reverseRecOn with
  | nil => intro pre post _; rfl
  | append_singleton mid q ih =>
    intro pre post hr
    have hr1 : LinkedList.Ring l ((pre ++ mid) ++ q :: post) := by simpa using hr
    have hlen : (mid ++ [q]).length = mid.length + 1 := by simp
    rw [hlen]
    simp only [LinkedList.ConstIterator.decrementTimes]
    rw [bind_ok (LinkedList.decrement_at hr1)]
    have hr2 : LinkedList.Ring l (pre ++ (mid ++ q :: post)) := by simpa using hr
    have := ih pre (q :: post) hr2
    simp only [List.headD_cons] at this
    rw [this]
    simp

theorem LinkedList.decrementTimes_past (l : LinkedList α) (k : Nat) {pre post : List Nat}
    (hr : LinkedList.Ring l (pre ++ post)) :
    LinkedList.ConstIterator.decrementTimes (pre.length + (k + 1))
        ⟨l.addr, post.headD l.sentinel⟩ l
      = Res.throw Exception.out_of_range l := by
  rw [LinkedList.decrementTimes_add]
  have hr0 : LinkedList.Ring l ([] ++ (pre ++ post)) := by simpa using hr
  rw [bind_ok (LinkedList.decrementTimes_spec l pre [] post hr0)]
  simp only [LinkedList.ConstIterator.decrementTimes]
  exact bind_throw (LinkedList.decrement_begin hr)

theorem toInt32_small (d : Nat) (hd : d < 2 ^ 31) : (toInt32 d).toNat = d := by
  unfold toInt32
  have h1 : d % 2 ^ 32 = d := Nat.mod_eq_of_lt (by omega)
  rw [h1, if_pos hd, Int.toNat_natCast]

theorem LinkedList.minus_small (it : LinkedList.ConstIterator) (d : Nat) (hd : d < 2 ^ 31) :
    (LinkedList.ConstIterator.minus it (d : Int) : M (LinkedList α) LinkedList.ConstIterator)
      = LinkedList.ConstIterator.decrementTimes d it := by
  have h0 : ¬ ((d : Int) = -(2 ^ 63)) := by omega
  simp only [LinkedList.ConstIterator.minus, Int.natAbs_ofNat, toInt32_small d hd, if_neg h0]

theorem LinkedList.position_steps (l : LinkedList α) (s : List α) (i d : Nat) (hl : l.Holds s)
    (hi : i ≤ s.length) (h31 : s.length < 2 ^ 31) :
    (i + d ≤ s.length → ∃ it, LinkedList.position (i + d) l = Res.ok it l ∧
      (LinkedList.position i >>= fun it => LinkedList.ConstIterator.plus it (d : Int)) l
        = Res.ok it l) ∧
    (s.length < i + d →
      (LinkedList.position i >>= fun it => LinkedList.ConstIterator.plus it (d : Int)) l
        = Res.throw Exception.out_of_range l) ∧
    (d ≤ i → ∃ it, LinkedList.position (i - d) l = Res.ok it l ∧
      (LinkedList.position i >>= LinkedList.ConstIterator.decrementTimes d) l
        = Res.ok it l) ∧
    (i < d →
      (LinkedList.position i >>= LinkedList.ConstIterator.decrementTimes d) l
        = Res.throw Exception.out_of_range l) := by
  obtain ⟨ps, hr, hm⟩ := hl
  have hlen : ps.length = s.length := by rw [← hm]; simp
  refine ⟨fun h => ?_, fun h => ?_, fun h => ?_, fun h => ?_⟩
  · have hr1 : LinkedList.Ring l (ps.take (i + d) ++ ps.drop (i + d)) := by simpa using hr
    have hl1 : (ps.take (i + d)).length = i + d := by simp; omega
    have hp := LinkedList.position_run hr1 (by omega)
    rw [hl1] at hp
    exact ⟨_, hp, by rw [LinkedList.position_add i d hr (by omega)]; exact hp⟩
  · rw [LinkedList.position_add i d hr (by omega)]
    exact LinkedList.position_past hr (by omega) (i + d) (by omega)
  · have hr1 : LinkedList.Ring l (ps.take (i - d) ++ ((ps.take i).drop (i - d) ++ ps.drop i)) := by
      have : ps.take (i - d) ++ ((ps.take i).drop (i - d) ++ ps.drop i) = ps := by
        have h1 : ps.take (i - d) = (ps.take i).take (i - d) := by
          rw [List.take_take]; congr 1; omega
        rw [h1, ← List.append_assoc, List.take_append_drop, List.take_append_drop]
      rw [this]; exact hr
    have hl1 : (ps.take (i - d)).length = i - d := by simp; omega
    have hp := LinkedList.position_run hr1 (by omega)
    rw [hl1] at hp
    refine ⟨_, hp, ?_⟩
    have hr2 : LinkedList.Ring l (ps.take i ++ ps.drop i) := by simpa using hr
    have hl2 : (ps.take i).length = i := by simp; omega
    have hq := LinkedList.position_run hr2 (by omega)
    rw [hl2] at hq
    rw [bind_ok hq]
    have hd := LinkedList.decrementTimes_spec l ((ps.take i).drop (i - d)) (ps.take (i - d))
      (ps.drop i) hr1
    have hl3 : ((ps.take i).drop (i - d)).length = d := by simp; omega
    rw [hl3] at hd
    exact hd
  · have hr2 : LinkedList.Ring l (ps.take i ++ ps.drop i) := by simpa using hr
    have hl2 : (ps.take i).length = i := by simp; omega
    have hq := LinkedList.position_run hr2 (by omega)
    rw [hl2] at hq
    rw [bind_ok hq]
    have hd := LinkedList.decrementTimes_past l (d - i - 1) hr2
    have : (ps.take i).length + (d - i - 1 + 1) = d := by rw [hl2]; omega
    rw [this] at hd
    exact hd

theorem LinkedList.position_incrementTimes (l : LinkedList α) (s : List α) (i d : Nat)
    (hl : l.Holds s) (hi : i ≤ s.length) (h31 : s.length < 2 ^ 31) :
    (LinkedList.position i >>= fun it => LinkedList.ConstIterator.plus it (d : Int)) l
      = (LinkedList.position i >>= LinkedList.ConstIterator.incrementTimes d) l := by
  obtain ⟨ps, hr, hm⟩ := hl
  have hlen : ps.length = s.length := by rw [← hm]; simp
  by_cases hd : d < 2 ^ 31
  · have e : (fun it => LinkedList.ConstIterator.plus it (d : Int) : _ → M (LinkedList α) _)
        = LinkedList.ConstIterator.incrementTimes d := by
      funext b
      exact LinkedList.plus_nat b d hd
    rw [e]
  · have hp := LinkedList.position_ok hr i (by omega) (by omega)
    rw [bind_ok hp, bind_ok hp,
      LinkedList.plus_from_past hr (by omega) i d (by omega) (by omega),
      LinkedList.incrementTimes_from_past hr i d (by omega) (by omega) (by omega)]

theorem LinkedList.position_single (l : LinkedList α) (s : List α) (i : Nat) (hl : l.Holds s)
    (hi : i ≤ s.length) (h31 : s.length < 2 ^ 31) :
    ((LinkedList.position i >>= LinkedList.ConstIterator.increment) l
        = Res.throw Exception.out_of_range l ↔ i = s.length) ∧
    ((LinkedList.position i >>= LinkedList.ConstIterator.decrement) l
        = Res.throw Exception.out_of_range l ↔ i = 0) := by
  obtain ⟨ps, hr, hm⟩ := hl
  have hlen : ps.length = s.length := by rw [← hm]; simp
  have hr2 : LinkedList.Ring l (ps.take i ++ ps.drop i) := by simpa using hr
  have hl2 : (ps.take i).length = i := by simp; omega
  have hq := LinkedList.position_run hr2 (by omega)
  rw [hl2] at hq
  constructor
  · rw [bind_ok hq]
    constructor
    · intro h
      by_contra hne
      have hlt : i < ps.length := by omega
      have hd : ps.drop i = ps[i] :: ps.drop (i + 1) := List.drop_eq_getElem_cons hlt
      rw [hd] at hr2 h
      simp only [List.headD_cons] at h
      rw [LinkedList.increment_spec l l.addr ps[i] (hr2.valid_mem (by simp))
        hr2.head_ne_sentinel] at h
      cases h
    · intro h
      have hd : ps.drop i = [] := by simp; omega
      rw [hd]
      exact LinkedList.increment_end l
  · rw [bind_ok hq]
    constructor
    · intro h
      by_contra hne
      have hlt : i - 1 < ps.length := by omega
      have hd : ps.take i = ps.take (i - 1) ++ [ps[i - 1]] := by
        have := @List.take_succ _ ps (i - 1)
        have h1 : i - 1 + 1 = i := by omega
        rw [h1] at this
        rw [this, List.getElem?_eq_getElem hlt]
        rfl
      rw [hd] at hr2
      have hr3 : LinkedList.Ring l (ps.take (i - 1) ++ ps[i - 1] :: ps.drop i) := by
        rw [List.append_assoc] at hr2
        exact hr2
      rw [LinkedList.decrement_at hr3] at h
      cases h
    · intro h
      subst h
      exact LinkedList.decrement_begin hr

theorem sameOutcome_plus (v : Vector α) (l : LinkedList α) (s : List α) (i d : Nat)
    (hv : v.Holds s) (hl : l.Holds s) (hi : i ≤ s.length) (hn : s.length + d < SIZE_MOD)
    (h31 : s.length < 2 ^ 31) :
    SameOutcome s.length v l
      ((Vector.position i >>= fun it => Vector.ConstIterator.plus it (d : Int)) v)
      ((LinkedList.position i >>= fun it => LinkedList.ConstIterator.plus it (d : Int)) l) := by
  obtain ⟨_, _, a3, a4, _, _⟩ := Vector.vec_position_steps v s i d hv hi hn
  obtain ⟨b3, b4, _, _⟩ := LinkedList.position_steps l s i d hl hi h31
  by_cases h : i + d ≤ s.length
  · obtain ⟨it, h1, h2⟩ := a3 h
    obtain ⟨jt, h3, h4⟩ := b3 h
    exact Or.inr ⟨i + d, it, jt, h, h1, h2, h3, h4⟩
  · exact Or.inl ⟨a4 (by omega), b4 (by omega)⟩

theorem sameOutcome_minus (v : Vector α) (l : LinkedList α) (s : List α) (i d : Nat)
    (hv : v.Holds s) (hl : l.Holds s) (hi : i ≤ s.length) (hn : s.length + d < SIZE_MOD)
    (hd : d < 2 ^ 31) (h31 : s.length < 2 ^ 31) :
    SameOutcome s.length v l
      ((Vector.position i >>= fun it => Vector.ConstIterator.minus it (d : Int)) v)
      ((LinkedList.position i >>= fun it => LinkedList.ConstIterator.minus it (d : Int)) l) := by
  obtain ⟨_, _, _, _, a5, a6⟩ := Vector.vec_position_steps v s i d hv hi hn
  obtain ⟨_, _, b5, b6⟩ := LinkedList.position_steps l s i d hl hi h31
  simp only [LinkedList.minus_small _ d hd]
  by_cases h : d ≤ i
  · obtain ⟨it, h1, h2⟩ := a5 h
    obtain ⟨jt, h3, h4⟩ := b5 h
    exact Or.inr ⟨i - d, it, jt, by omega, h1, h2, h3, h4⟩
  · exact Or.inl ⟨a6 (by omega), b6 (by omega)⟩

theorem LinkedList.Ring.transfer {l m : LinkedList α} {ps : List Nat} (hr : LinkedList.Ring l ps)
    (hs : m.sentinel = l.sentinel) (hz : m.size = l.size) (hb : l.heap.brk ≤ m.heap.brk)
    (hf : ∀ p ∈ l.sentinel :: ps, LinkedList.SameAt l.heap m.heap p) :
    LinkedList.Ring m ps ∧ ps.map m.heap.value = ps.map l.heap.value := by
  refine ⟨⟨by rw [hs]; exact hr.nodup, ?_, ?_, by rw [hz]; exact hr.size⟩, ?_⟩
  · intro p hp
    rw [hs] at hp
    obtain ⟨⟨h1, h2⟩, h3⟩ := hr.live p hp
    exact ⟨⟨h1, by rw [(hf p hp).1]; exact h2⟩, by omega⟩
  · rw [hs]
    refine LinkedList.Linked_frame l.heap m.heap _ ?_ ?_ hr.linked
    · intro p hp
      have hp1 : p ∈ l.sentinel :: ps := by
        have : (l.sentinel :: (ps ++ [l.sentinel])).dropLast = l.sentinel :: ps := by
          rw [← List.cons_append, List.dropLast_concat]
        rwa [this] at hp
      exact (hf p hp1).2.2.2
    · intro p hp
      have hp1 : p ∈ l.sentinel :: ps := by
        simp only [List.tail_cons, List.mem_append, List.mem_singleton] at hp
        rcases hp with h | h
        · exact List.mem_cons_of_mem _ h
        · rw [h]; exact List.mem_cons_self _ _
      exact (hf p hp1).2.2.1
  · apply List.map_congr_left
    intro p hp
    exact (hf p (List.mem_cons_of_mem _ hp)).2.1

theorem LinkedList.init_spec [Inhabited α] (l : LinkedList α) :
    ∃ l1, LinkedList.init l = Res.ok () l1 ∧ l1.addr = l.addr ∧ l1.size = l.size
      ∧ l1.sentinel = l.heap.brk + 1 ∧ l1.heap.brk = l.heap.brk + 1
      ∧ l1.valid (l.heap.brk + 1)
      ∧ l1.heap.next (l.heap.brk + 1) = l.heap.brk + 1
      ∧ l1.heap.prev (l.heap.brk + 1) = l.heap.brk + 1
      ∧ ∀ q, q ≠ l.heap.brk + 1 → LinkedList.SameAt l.heap l1.heap q := by
  have hv : ∀ (m : LinkedList α), m.heap.live (l.heap.brk + 1) = true → m.valid (l.heap.brk + 1) :=
    fun m hm => ⟨Nat.succ_ne_zero _, hm⟩
  have hlive : Function.update l.heap.live (l.heap.brk + 1) true (l.heap.brk + 1) = true := by
    simp
  refine ⟨((({ l.withNew ⟨default, nullptr, nullptr⟩ with
      sentinel := l.heap.brk + 1 } : LinkedList α).withNext (l.heap.brk + 1)
      (l.heap.brk + 1)).withPrev (l.heap.brk + 1) (l.heap.brk + 1)), ?_, rfl, rfl, rfl, rfl,
      hv _ hlive, ?_, ?_, ?_⟩
  · simp only [LinkedList.init, LinkedList.newNode_bind, modifyState_bind, getState_bind]
    rw [LinkedList.setNext_bind _ _ _ _ (hv _ hlive), getState_bind]
    exact if_pos (hv _ hlive)
  · show Function.update (Function.update l.heap.next (l.heap.brk + 1) nullptr) (l.heap.brk + 1)
      (l.heap.brk + 1) (l.heap.brk + 1) = l.heap.brk + 1
    simp
  · show Function.update (Function.update l.heap.prev (l.heap.brk + 1) nullptr) (l.heap.brk + 1)
      (l.heap.brk + 1) (l.heap.brk + 1) = l.heap.brk + 1
    simp
  · intro q hq
    refine ⟨?_, ?_, ?_, ?_⟩
    · show Function.update l.heap.live (l.heap.brk + 1) true q = l.heap.live q
      simp [hq]
    · show Function.update l.heap.value (l.heap.brk + 1) default q = l.heap.value q
      simp [hq]
    · show Function.update (Function.update l.heap.prev (l.heap.brk + 1) nullptr)
        (l.heap.brk + 1) (l.heap.brk + 1) q = l.heap.prev q
      simp [hq]
    · show Function.update (Function.update l.heap.next (l.heap.brk + 1) nullptr)
        (l.heap.brk + 1) (l.heap.brk + 1) q = l.heap.next q
      simp [hq]

theorem LinkedList.clearData_empty (l : LinkedList α) (fuel : Nat) (hf : 0 < fuel)
    (hv : l.valid l.sentinel) (hn : l.heap.next l.sentinel = l.sentinel) :
    LinkedList.clearData fuel l
      = Res.ok () (((l.withSize 0).withNext l.sentinel l.sentinel).withPrev
          l.sentinel l.sentinel) := by
  obtain ⟨n, rfl⟩ : ∃ n, fuel = n + 1 := ⟨fuel - 1, by omega⟩
  simp only [LinkedList.clearData, getState_bind]
  rw [LinkedList.getNext_bind _ _ _ hv, hn]
  have hloop : LinkedList.clearLoop (n + 1) l.sentinel l = Res.ok () l := by
    simp [LinkedList.clearLoop]
  rw [bind_ok hloop, modifyState_bind]
  have hv1 : (l.withSize 0).valid l.sentinel := hv
  rw [LinkedList.setNext_bind _ _ _ _ hv1]
  exact if_pos hv1

theorem LinkedList.append_null (l : LinkedList α) (x : α) (hs : l.sentinel = nullptr) :
    LinkedList.prepend x l = Res.ub ∧ (l.size = 0 → LinkedList.append x l = Res.ub) := by
  have hnv : ¬ l.valid l.sentinel := fun h => h.1 hs
  have hp : LinkedList.prepend x l = Res.ub := by
    simp only [LinkedList.prepend, getState_bind]
    simp only [bind_run, M.bind, LinkedList.getNext, if_neg hnv]
  refine ⟨hp, fun hz => ?_⟩
  simp only [LinkedList.append, getState_bind]
  rw [if_pos hz]
  exact hp

theorem LinkedList.moveConstruct_spec [Inhabited α] (a : LinkedList α) (ps : List Nat)
    (hr : LinkedList.Ring a ps) (addr fuel : Nat) (hf : 0 < fuel) :
    ∃ b a1, LinkedList.moveConstruct addr fuel a = Res.ok a1 b
      ∧ LinkedList.Ring b ps ∧ ps.map b.heap.value = ps.map a.heap.value ∧ b.addr = addr
      ∧ a1.addr = a.addr ∧ a1.size = 0 ∧ a1.sentinel = nullptr ∧ a1.heap = b.heap := by
  obtain ⟨l1, h1, hadr, hsz, hsent, hbrk, hval, hnx, hpv, hsame⟩ :=
    LinkedList.init_spec (⟨addr, 0, nullptr, a.heap⟩ : LinkedList α)
  simp only [] at hadr hsz hsent hbrk hval hnx hpv hsame
  have hvs : l1.valid l1.sentinel := by rw [hsent]; exact hval
  have hns : l1.heap.next l1.sentinel = l1.sentinel := by rw [hsent]; exact hnx
  have hcd := LinkedList.clearData_empty l1 fuel hf hvs hns
  have hv2 : (((l1.withSize 0).withNext l1.sentinel l1.sentinel).withPrev
      l1.sentinel l1.sentinel).valid l1.sentinel := hvs
  refine ⟨{ ((((l1.withSize 0).withNext l1.sentinel l1.sentinel).withPrev
        l1.sentinel l1.sentinel).withDelete l1.sentinel) with
        size := a.size, sentinel := a.sentinel },
      { a with size := 0, sentinel := nullptr,
               heap := ((((l1.withSize 0).withNext l1.sentinel l1.sentinel).withPrev
                 l1.sentinel l1.sentinel).withDelete l1.sentinel).heap }, ?_, ?_⟩
  · unfold LinkedList.moveConstruct
    rw [bind_ok h1]
    simp only [LinkedList.move]
    rw [bind_ok hcd, getState_bind]
    exact Eq.trans (LinkedList.deleteNode_bind _ _ _ hv2) rfl
  · have htr := @LinkedList.Ring.transfer α a
      ({ ((((l1.withSize 0).withNext l1.sentinel l1.sentinel).withPrev
        l1.sentinel l1.sentinel).withDelete l1.sentinel) with
        size := a.size, sentinel := a.sentinel }) ps hr rfl rfl
      (by show a.heap.brk ≤ l1.heap.brk; omega)
      (by
        intro p hp
        have hle := (hr.live p hp).2
        have hne : p ≠ a.heap.brk + 1 := by omega
        have hne2 : p ≠ l1.sentinel := by rw [hsent]; exact hne
        obtain ⟨s1, s2, s3, s4⟩ := hsame p hne
        refine ⟨?_, s2, ?_, ?_⟩
        · show Function.update l1.heap.live l1.sentinel false p = a.heap.live p
          rw [Function.update_noteq hne2]; exact s1
        · show Function.update l1.heap.prev l1.sentinel l1.sentinel p = a.heap.prev p
          rw [Function.update_noteq hne2]; exact s3
        · show Function.update l1.heap.next l1.sentinel l1.sentinel p = a.heap.next p
          rw [Function.update_noteq hne2]; exact s4)
    exact ⟨htr.1, htr.2, hadr, rfl, rfl, rfl, rfl⟩

theorem LinkedList.Effect.same (l : LinkedList α) (own : List Nat) :
    LinkedList.Effect l l own own :=
  ⟨rfl, rfl, le_refl _, fun _ _ _ => ⟨rfl, rfl, rfl, rfl⟩, fun _ hp => Or.inl hp⟩

theorem LinkedList.getLastD_mem_cons (pre : List Nat) (s : Nat) (rest : List Nat) :
    pre.getLastD s ∈ s :: (pre ++ rest) := by
  rcases List.eq_nil_or_concat pre with rfl | ⟨p, a, rfl⟩
  · simp
  · simp

theorem LinkedList.headD_mem_cons (pre post : List Nat) (s : Nat) :
    post.headD s ∈ s :: (pre ++ post) := by
  cases post <;> simp

theorem LinkedList.effect_linkedBetween (l : LinkedList α) (pre post : List Nat) (x : α) :
    LinkedList.Effect l
      (l.linkedBetween (pre.getLastD l.sentinel) (post.headD l.sentinel) x)
      (pre ++ post) (pre ++ (l.heap.brk + 1) :: post) := by
  refine ⟨rfl, rfl, Nat.le_succ _, ?_, ?_⟩
  · intro p hp hnot
    have hpt : p ≠ l.heap.brk + 1 := by omega
    have hpa : p ≠ pre.getLastD l.sentinel := fun h =>
      hnot (h ▸ LinkedList.getLastD_mem_cons pre l.sentinel post)
    have hpb : p ≠ post.headD l.sentinel := fun h =>
      hnot (h ▸ LinkedList.headD_mem_cons pre post l.sentinel)
    simp only [LinkedList.SameAt, LinkedList.linkedBetween, LinkedList.withNew,
      LinkedList.withNext, LinkedList.withPrev, LinkedList.withSize, Function.update_apply, hpt,
      hpa, hpb, if_false, and_self]
  · intro p hp
    simp only [List.mem_append, List.mem_cons] at hp ⊢
    rcases hp with h | h | h
    · exact Or.inl (Or.inl h)
    · exact Or.inr (by omega)
    · exact Or.inl (Or.inr h)

theorem LinkedList.effect_unlinked (l : LinkedList α) (pre post : List Nat) (r : Nat) :
    LinkedList.Effect l
      (l.unlinked (pre.getLastD l.sentinel) (post.headD l.sentinel) r)
      (pre ++ r :: post) (pre ++ post) := by
  refine ⟨rfl, rfl, le_refl _, ?_, ?_⟩
  · intro p hp hnot
    have hpa : p ≠ pre.getLastD l.sentinel := fun h =>
      hnot (h ▸ LinkedList.getLastD_mem_cons pre l.sentinel (r :: post))
    have hpb : p ≠ post.headD l.sentinel := fun h => by
      have := LinkedList.headD_mem_cons (pre ++ [r]) post l.sentinel
      rw [List.append_assoc] at this
      exact hnot (h ▸ this)
    have hpr : p ≠ r := fun h => hnot (by simp [h])
    simp only [LinkedList.SameAt, LinkedList.unlinked, LinkedList.withDelete,
      LinkedList.withNext, LinkedList.withPrev, LinkedList.withSize, Function.update_apply, hpr,
      hpa, hpb, if_false, and_self]
  · intro p hp
    simp only [List.mem_append, List.mem_cons] at hp ⊢
    rcases hp with h | h
    · exact Or.inl (Or.inl h)
    · exact Or.inl (Or.inr (Or.inr h))

theorem LinkedList.effect_spliced (l : LinkedList α) (pre R1 post : List Nat) (r1 : Nat) :
    LinkedList.Effect l
      (l.spliced (pre.getLastD l.sentinel) (post.headD l.sentinel) (R1.getLastD r1) (r1 :: R1))
      (pre ++ (r1 :: R1 ++ post)) (pre ++ post) := by
  obtain ⟨f1, f2, f3, f4, f5, f6, _, f8⟩ := LinkedList.released_fields (r1 :: R1)
    (((l.withNext (pre.getLastD l.sentinel) (post.headD l.sentinel)).withPrev
      (post.headD l.sentinel) (pre.getLastD l.sentinel)).withNext (R1.getLastD r1) nullptr)
  refine ⟨f2, f1, by unfold LinkedList.spliced; rw [f6]; exact le_refl _, ?_, ?_⟩
  · intro p hp hnot
    have hpa : p ≠ pre.getLastD l.sentinel := fun h =>
      hnot (h ▸ LinkedList.getLastD_mem_cons pre l.sentinel _)
    have hpb : p ≠ post.headD l.sentinel := fun h => by
      have := LinkedList.headD_mem_cons (pre ++ (r1 :: R1)) post l.sentinel
      rw [List.append_assoc] at this
      exact hnot (h ▸ this)
    have hpR : p ∉ r1 :: R1 := fun h => hnot (by
      simp only [List.mem_cons, List.mem_append] at h ⊢
      rcases h with h | h
      · exact Or.inr (Or.inr (Or.inl (Or.inl h)))
      · exact Or.inr (Or.inr (Or.inl (Or.inr h))))
    have hpz : p ≠ R1.getLastD r1 := fun h => by
      apply hpR
      rw [h]
      rcases List.eq_nil_or_concat R1 with rfl | ⟨q, a, rfl⟩ <;> simp
    unfold LinkedList.spliced
    refine ⟨?_, ?_, ?_, ?_⟩
    · rw [f8 p hpR]; rfl
    · rw [f5]; rfl
    · rw [f4]
      simp only [LinkedList.withNext, LinkedList.withPrev, Function.update_apply, hpb, if_false]
    · rw [f3]
      simp only [LinkedList.withNext, LinkedList.withPrev, Function.update_apply, hpa, hpz,
        if_false]
  · intro p hp
    simp only [List.mem_append, List.mem_cons] at hp ⊢
    rcases hp with h | h
    · exact Or.inl (Or.inl h)
    · exact Or.inl (Or.inr (Or.inr h))

theorem LinkedList.ring_withValue {l : LinkedList α} {pre post : List Nat} {r : Nat}
    (hr : LinkedList.Ring l (pre ++ r :: post)) (x : α) :
    LinkedList.Ring (l.withValue r x) (pre ++ r :: post) ∧
    (pre ++ r :: post).map (l.withValue r x).heap.value
      = pre.map l.heap.value ++ x :: post.map l.heap.value ∧
    LinkedList.Effect l (l.withValue r x) (pre ++ r :: post) (pre ++ r :: post) := by
  have hnd := hr.nodup
  refine ⟨⟨hr.nodup, hr.live,
    LinkedList.Linked_frame l.heap _ _ (fun _ _ => rfl) (fun _ _ => rfl) hr.linked, hr.size⟩,
    ?_, ?_⟩
  · have hpre : ∀ p ∈ pre, p ≠ r := by
      intro p hp h
      subst h
      simp [List.nodup_append, List.nodup_cons] at hnd
      aesop
    have hpost : ∀ p ∈ post, p ≠ r := by
      intro p hp h
      subst h
      simp [List.nodup_append, List.nodup_cons] at hnd
      aesop
    rw [List.map_append, List.map_cons]
    congr 1
    · apply List.map_congr_left
      intro p hp
      simp [LinkedList.withValue, Function.update_apply, hpre p hp]
    · congr 1
      · simp [LinkedList.withValue]
      · apply List.map_congr_left
        intro p hp
        simp [LinkedList.withValue, Function.update_apply, hpost p hp]
  · refine ⟨rfl, rfl, le_refl _, ?_, fun _ hp => Or.inl hp⟩
    intro p hp hnot
    have hpr : p ≠ r := fun h => hnot (by simp [h])
    simp [LinkedList.SameAt, LinkedList.withValue, Function.update_apply, hpr]

theorem LinkedList.Effect.keep {l l1 : LinkedList α} {own own1 qs : List Nat}
    (he : LinkedList.Effect l l1 own own1) (a : LinkedList α)
    (hra : LinkedList.Ring (a.sharing l) qs)
    (hd : ∀ p ∈ a.sentinel :: qs, p ∉ l.sentinel :: own) :
    LinkedList.Ring (a.sharing l1) qs ∧ qs.map l1.heap.value = qs.map l.heap.value ∧
      ∀ p ∈ a.sentinel :: qs, p ∉ l1.sentinel :: own1 := by
  have htr := @LinkedList.Ring.transfer α (a.sharing l) (a.sharing l1) qs hra rfl rfl he.brk
    (fun p hp => he.frame p (hra.live p hp).2 (hd p hp))
  refine ⟨htr.1, htr.2, ?_⟩
  intro p hp hmem
  have hle : p ≤ l.heap.brk := (hra.live p hp).2
  rw [he.sentinel] at hmem
  rcases List.mem_cons.mp hmem with h | h
  · exact hd p hp (h ▸ List.mem_cons_self _ _)
  · rcases he.nodes p h with h1 | h1
    · exact hd p hp (List.mem_cons_of_mem _ h1)
    · omega

theorem LinkedList.position_cases {l : LinkedList α} {ps : List Nat}
    (hr : LinkedList.Ring l ps) (h31 : ps.length < 2 ^ 31) (i : Nat) :
    (i ≤ ps.length ∧
      LinkedList.position i l = Res.ok ⟨l.addr, (ps.drop i).headD l.sentinel⟩ l) ∨
    (ps.length < i ∧ LinkedList.position i l = Res.throw Exception.out_of_range l) := by
  by_cases hi : i ≤ ps.length
  · left
    exact ⟨hi, LinkedList.position_ok hr i hi (by omega)⟩
  · right
    exact ⟨by omega, LinkedList.position_past hr h31 i (by omega)⟩

theorem LinkedList.step_position (fuel : Nat) (op : Op α) (l : LinkedList α) :
    (∀ i x, op = Op.insert i x →
      LinkedList.step fuel op l
        = (LinkedList.position i >>= fun it => LinkedList.insert fuel it x) l) ∧
    (∀ i, op = Op.erase i →
      LinkedList.step fuel op l
        = (LinkedList.position i >>= fun it => LinkedList.erase fuel it) l) := by
  constructor
  · intro i x h
    subst h
    exact (bind_assoc_run _ _ _ l).symm
  · intro i h
    subst h
    exact (bind_assoc_run _ _ _ l).symm

theorem LinkedList.insert_effect {l : LinkedList α} {pre post : List Nat}
    (hr : LinkedList.Ring l (pre ++ post)) (x : α) :
    LinkedList.Ring (l.linkedBetween (pre.getLastD l.sentinel) (post.headD l.sentinel) x)
        (pre ++ (l.heap.brk + 1) :: post) ∧
      LinkedList.Effect l
        (l.linkedBetween (pre.getLastD l.sentinel) (post.headD l.sentinel) x)
        (pre ++ post) (pre ++ (l.heap.brk + 1) :: post) ∧
      (pre ++ (l.heap.brk + 1) :: post).length ≤ (pre ++ post).length + 1 :=
  ⟨hr.insert_between x, LinkedList.effect_linkedBetween l pre post x, by simp; omega⟩

theorem LinkedList.unlink_effect {l : LinkedList α} {pre post : List Nat} {r : Nat}
    (hr : LinkedList.Ring l (pre ++ r :: post)) :
    LinkedList.Ring (l.unlinked (pre.getLastD l.sentinel) (post.headD l.sentinel) r)
        (pre ++ post) ∧
      LinkedList.Effect l
        (l.unlinked (pre.getLastD l.sentinel) (post.headD l.sentinel) r)
        (pre ++ r :: post) (pre ++ post) ∧
      (pre ++ post).length ≤ (pre ++ r :: post).length + 1 :=
  ⟨hr.unlink, LinkedList.effect_unlinked l pre post r, by simp; omega⟩

theorem LinkedList.single_effect (fuel : Nat) (op : Op α) (l : LinkedList α) (ps : List Nat)
    (hr : LinkedList.Ring l ps) (hf : ps.length < fuel) (h31 : ps.length < 2 ^ 31) :
    (∃ e, LinkedList.step fuel op l = Res.throw e l) ∨
    (∃ l1 ps1, LinkedList.step fuel op l = Res.ok () l1 ∧ LinkedList.Ring l1 ps1 ∧
      LinkedList.Effect l l1 ps ps1 ∧ ps1.length ≤ ps.length + 1) := by
  cases op with
  | append x =>
    right
    have hr0 : LinkedList.Ring l (ps ++ []) := by simpa using hr
    obtain ⟨h1, h2, h3⟩ := LinkedList.insert_effect hr0 x
    rw [List.append_nil] at h2 h3
    exact ⟨_, _, LinkedList.append_spec hr x, h1, h2, h3⟩
  | prepend x =>
    right
    have hr0 : LinkedList.Ring l ([] ++ ps) := hr
    obtain ⟨h1, h2, h3⟩ := LinkedList.insert_effect hr0 x
    exact ⟨_, _, LinkedList.prepend_spec hr x, h1, h2, h3⟩
  | insert i x =>
    rw [(LinkedList.step_position fuel (Op.insert i x) l).1 i x rfl]
    rcases LinkedList.position_cases hr h31 i with ⟨hi, hp⟩ | ⟨hi, hp⟩
    · right
      have hr1 : LinkedList.Ring l (ps.take i ++ ps.drop i) := by simpa using hr
      obtain ⟨h1, h2, h3⟩ := LinkedList.insert_effect hr1 x
      rw [List.take_append_drop] at h2 h3
      refine ⟨_, _, ?_, h1, h2, h3⟩
      rw [bind_ok hp]
      exact LinkedList.insert_spec hr1 x fuel (by simp; omega)
    · left
      exact ⟨_, bind_throw hp⟩
  | popFirst =>
    cases ps with
    | nil =>
      left
      refine ⟨Exception.logic_error, ?_⟩
      simp only [LinkedList.step]
      rw [bind_throw (LinkedList.popFirst_empty_list l (by simpa using hr.size))]
    | cons r Q =>
      right
      have hr0 : LinkedList.Ring l ([] ++ r :: Q) := hr
      obtain ⟨h1, h2, h3⟩ := LinkedList.unlink_effect hr0
      refine ⟨_, _, ?_, h1, h2, h3⟩
      simp only [LinkedList.step]
      rw [bind_ok (LinkedList.popFirst_spec hr)]
      rfl
  | popLast =>
    rcases List.eq_nil_or_concat ps with rfl | ⟨P, r, rfl⟩
    · left
      refine ⟨Exception.logic_error, ?_⟩
      simp only [LinkedList.step]
      rw [bind_throw (LinkedList.popLast_empty_list l (by simpa using hr.size))]
    · right
      simp only [List.concat_eq_append] at hr hf ⊢
      obtain ⟨h1, h2, h3⟩ := LinkedList.unlink_effect hr
      rw [List.append_nil] at h1 h2 h3
      refine ⟨_, _, ?_, h1, h2, h3⟩
      simp only [LinkedList.step]
      rw [bind_ok (LinkedList.popLast_spec hr)]
      rfl
  | erase i =>
    rw [(LinkedList.step_position fuel (Op.erase i) l).2 i rfl]
    rcases LinkedList.position_cases hr h31 i with ⟨hi, hp⟩ | ⟨hi, hp⟩
    · rw [bind_ok hp]
      by_cases hlt : i < ps.length
      · right
        have hd : ps.drop i = ps[i] :: ps.drop (i + 1) := List.drop_eq_getElem_cons hlt
        have hr1 : LinkedList.Ring l (ps.take i ++ ps[i] :: ps.drop (i + 1)) := by
          rw [← hd]; simpa using hr
        obtain ⟨h1, h2, h3⟩ := LinkedList.unlink_effect hr1
        rw [← hd, List.take_append_drop] at h2 h3
        refine ⟨_, _, ?_, h1, h2, h3⟩
        rw [hd]
        exact LinkedList.erase_spec hr1 fuel (by simp; omega)
      · left
        have hd : ps.drop i = [] := by simp; omega
        rw [hd]
        exact ⟨_, LinkedList.erase_end fuel⟩
    · left
      exact ⟨_, bind_throw hp⟩

theorem LinkedList.assign_effect (l : LinkedList α) (ps : List Nat) (hr : LinkedList.Ring l ps)
    (h31 : ps.length < 2 ^ 31) (i : Nat) (x : α) :
    (∃ e, LinkedList.call 0 (Call.assign i x) l = Res.throw e l) ∨
    (∃ l1, LinkedList.call 0 (Call.assign i x) l = Res.ok () l1 ∧ LinkedList.Ring l1 ps ∧
      LinkedList.Effect l l1 ps ps ∧
      ps.map l1.heap.value = (ps.map l.heap.value).set i x ∧ i < ps.length) := by
  simp only [LinkedList.call]
  rcases LinkedList.position_cases hr h31 i with ⟨hi, hp⟩ | ⟨hi, hp⟩
  · rw [bind_ok hp]
    by_cases hlt : i < ps.length
    · right
      have hd : ps.drop i = ps[i] :: ps.drop (i + 1) := List.drop_eq_getElem_cons hlt
      have hps : ps.take i ++ ps[i] :: ps.drop (i + 1) = ps := by
        rw [← hd, List.take_append_drop]
      have hr1 : LinkedList.Ring l (ps.take i ++ ps[i] :: ps.drop (i + 1)) := by
        rw [hps]; exact hr
      obtain ⟨h1, h2, h3⟩ := LinkedList.ring_withValue hr1 x
      rw [hps] at h1 h2 h3
      refine ⟨l.withValue ps[i] x, ?_, h1, h3, ?_, hlt⟩
      · rw [hd]
        have hne : ps[i] ≠ l.sentinel := hr1.head_ne_sentinel
        have hv : l.valid ps[i] := hr1.valid_mem (by simp)
        simp only [LinkedList.Iterator.assign, getState_bind, List.headD_cons, LinkedList.cend,
          LinkedList.ConstIterator.mk.injEq, hne, and_false, if_false]
        simp [LinkedList.setValue, hv]
      · rw [h2]
        have hl1 : (ps.take i).length = i := by simp; omega
        have e1 : List.map l.heap.value ps
            = (ps.take i).map l.heap.value
              ++ l.heap.value ps[i] :: (ps.drop (i + 1)).map l.heap.value := by
          conv_lhs => rw [← hps]
          rw [List.map_append, List.map_cons]
        have hl2 : ((ps.take i).map l.heap.value).length = i := by
          rw [List.length_map]; exact hl1
        have hset := list_set_append_length ((ps.take i).map l.heap.value)
          ((ps.drop (i + 1)).map l.heap.value) x (l.heap.value ps[i])
        rw [hl2] at hset
        rw [e1, hset]
    · left
      have hd : ps.drop i = [] := by simp; omega
      rw [hd]
      refine ⟨Exception.out_of_range, ?_⟩
      simp [LinkedList.Iterator.assign, LinkedList.cend]
  · left
    exact ⟨_, bind_throw hp⟩

theorem LinkedList.eraseRange_effect (fuel : Nat) (l : LinkedList α) (ps : List Nat)
    (hr : LinkedList.Ring l ps) (hf : ps.length < fuel) (h31 : ps.length < 2 ^ 31) (i j : Nat)
    (hij : i ≤ j) :
    (∃ e, LinkedList.call fuel (Call.eraseRange i j) l = Res.throw e l) ∨
    (∃ l1 ps1, LinkedList.call fuel (Call.eraseRange i j) l = Res.ok () l1 ∧
      LinkedList.Ring l1 ps1 ∧ LinkedList.Effect l l1 ps ps1 ∧ ps1.length ≤ ps.length + 1) := by
  simp only [LinkedList.call]
  rcases LinkedList.position_cases hr h31 i with ⟨hi, hp⟩ | ⟨hi, hp⟩
  · rw [bind_ok hp]
    rcases LinkedList.position_cases hr h31 j with ⟨hj, hq⟩ | ⟨hj, hq⟩
    · rw [bind_ok hq]
      right
      by_cases hlt : i < j
      · have hsplit : ps = ps.take i ++ ((ps.drop i).take (j - i) ++ ps.drop j) := by
          have h1 : ps.drop j = (ps.drop i).drop (j - i) := by
            rw [List.drop_drop]; congr 1; omega
          rw [h1, List.take_append_drop, List.take_append_drop]
        have hlen : ((ps.drop i).take (j - i)).length = j - i := by simp; omega
        obtain ⟨r1, R1, hR⟩ : ∃ r1 R1, (ps.drop i).take (j - i) = r1 :: R1 := by
          cases h : (ps.drop i).take (j - i) with
          | nil => rw [h] at hlen; simp at hlen; omega
          | cons r1 R1 => exact ⟨r1, R1, rfl⟩
        have hd : (ps.drop i).headD l.sentinel = r1 := by
          have h2 : ps.drop i = (ps.drop i).take (j - i) ++ (ps.drop i).drop (j - i) :=
            (List.take_append_drop _ _).symm
          rw [h2, hR]
          rfl
        rw [hR] at hsplit
        have hr1 : LinkedList.Ring l (ps.take i ++ (r1 :: R1 ++ ps.drop j)) := by
          rw [← hsplit]; exact hr
        have hlen1 : R1.length + 1 = j - i := by
          have := congrArg List.length hR
          rw [hlen] at this
          simpa using this.symm
        refine ⟨_, ps.take i ++ ps.drop j, ?_, hr1.splice, ?_, ?_⟩
        · rw [hd]
          exact LinkedList.eraseRange_spec hr1 fuel (by simp; omega) l.addr l.addr
        · have := LinkedList.effect_spliced l (ps.take i) R1 (ps.drop j) r1
          rw [← hsplit] at this
          exact this
        · simp; omega
      · have hji : j = i := by omega
        subst hji
        refine ⟨l, ps, ?_, hr, LinkedList.Effect.same l ps, by omega⟩
        simp [LinkedList.eraseRange, LinkedList.ConstIterator.getCurrent]
    · left
      rw [bind_throw hq]
      exact ⟨_, rfl⟩
  · left
    exact ⟨_, bind_throw hp⟩

theorem LinkedList.call_effect (fuel : Nat) (c : Call α) (l : LinkedList α) (ps : List Nat)
    (hr : LinkedList.Ring l ps) (hf : ps.length < fuel) (h31 : ps.length < 2 ^ 31)
    (hc : c.InOrder) :
    (∃ e, LinkedList.call fuel c l = Res.throw e l) ∨
    (∃ l1 ps1, LinkedList.call fuel c l = Res.ok () l1 ∧
      LinkedList.Ring l1 ps1 ∧ LinkedList.Effect l l1 ps ps1 ∧ ps1.length ≤ ps.length + 1) := by
  cases c with
  | single op => exact LinkedList.single_effect fuel op l ps hr hf h31
  | eraseRange i j => exact LinkedList.eraseRange_effect fuel l ps hr hf h31 i j hc
  | assign i x =>
    rcases LinkedList.assign_effect l ps hr h31 i x with h | ⟨l1, h1, h2, h3, _, _⟩
    · exact Or.inl h
    · exact Or.inr ⟨l1, ps, h1, h2, h3, by omega⟩

theorem LinkedList.SameAt.compose {h h1 h2 : Heap α} {p : Nat}
    (a : LinkedList.SameAt h h1 p) (b : LinkedList.SameAt h1 h2 p) : LinkedList.SameAt h h2 p :=
  ⟨b.1.trans a.1, b.2.1.trans a.2.1, b.2.2.1.trans a.2.2.1, b.2.2.2.trans a.2.2.2⟩

theorem LinkedList.Effect.trans {l l1 l2 : LinkedList α} {own own1 own2 : List Nat}
    (e1 : LinkedList.Effect l l1 own own1) (e2 : LinkedList.Effect l1 l2 own1 own2) :
    LinkedList.Effect l l2 own own2 := by
  refine ⟨e2.addr.trans e1.addr, e2.sentinel.trans e1.sentinel, le_trans e1.brk e2.brk, ?_, ?_⟩
  · intro p hp hnot
    refine (e1.frame p hp hnot).compose (e2.frame p (le_trans hp e1.brk) ?_)
    intro hmem
    rw [e1.sentinel] at hmem
    rcases List.mem_cons.mp hmem with h | h
    · exact hnot (h ▸ List.mem_cons_self _ _)
    · rcases e1.nodes p h with h1 | h1
      · exact hnot (List.mem_cons_of_mem _ h1)
      · omega
  · intro p hp
    rcases e2.nodes p hp with h | h
    · exact e1.nodes p h
    · exact Or.inr (lt_of_le_of_lt e1.brk h)

theorem LinkedList.runCalls_spec (fuel : Nat) : ∀ (cs : List (Call α)) (l : LinkedList α)
    (ps : List Nat), LinkedList.Ring l ps → (∀ c ∈ cs, c.InOrder) →
    ps.length + cs.length < fuel → ps.length + cs.length < 2 ^ 31 →
    ∃ lf psf, LinkedList.runCalls fuel cs l = some lf ∧ LinkedList.Ring lf psf ∧
      LinkedList.Effect l lf ps psf := by
  intro cs
  induction cs with
  | nil => intro l ps hr _ _ _; exact ⟨l, ps, rfl, hr, LinkedList.Effect.same l ps⟩
  | cons c cs ih =>
    intro l ps hr hc hf h31
    simp only [List.length_cons] at hf h31
    have hc1 : ∀ c1 ∈ cs, c1.InOrder := fun c1 h => hc c1 (List.mem_cons_of_mem _ h)
    rcases LinkedList.call_effect fuel c l ps hr (by omega) (by omega)
        (hc c (List.mem_cons_self _ _))
      with ⟨e, h⟩ | ⟨l1, ps1, h, hr1, he, hlen⟩
    · obtain ⟨lf, psf, h1, h2, h3⟩ := ih l ps hr hc1 (by omega) (by omega)
      refine ⟨lf, psf, ?_, h2, h3⟩
      simp only [LinkedList.runCalls, h]
      exact h1
    · obtain ⟨lf, psf, h1, h2, h3⟩ := ih l1 ps1 hr1 hc1 (by omega) (by omega)
      refine ⟨lf, psf, ?_, h2, he.trans h3⟩
      simp only [LinkedList.runCalls, h]
      exact h1

theorem LinkedList.onOther_ok {ρ : Type} {a l t : LinkedList α} {m : M (LinkedList α) ρ} {r : ρ}
    (h : m (a.sharing l) = Res.ok r t) : LinkedList.onOther a m l = Res.ok r l :=
  onConst_ok l h

theorem LinkedList.appendFrom_spec (a : LinkedList α) : ∀ (rest done : List Nat)
    (l : LinkedList α) (ps : List Nat) (fuel : Nat),
    LinkedList.Ring l ps → LinkedList.Ring (a.sharing l) (done ++ rest) →
    (∀ p ∈ a.sentinel :: (done ++ rest), p ∉ l.sentinel :: ps) → rest.length < fuel →
    ∃ lf psf, LinkedList.appendFrom a fuel ⟨a.addr, rest.headD a.sentinel⟩ a.cend l
        = Res.ok () lf
      ∧ LinkedList.Ring lf psf ∧ LinkedList.Effect l lf ps psf
      ∧ psf.map lf.heap.value = ps.map l.heap.value ++ rest.map l.heap.value := by
  intro rest
  induction rest with
  | nil =>
    intro done l ps fuel hr _ _ hf
    obtain ⟨n, rfl⟩ : ∃ n, fuel = n + 1 := ⟨fuel - 1, by simp at hf; omega⟩
    refine ⟨l, ps, ?_, hr, LinkedList.Effect.same l ps, by simp⟩
    simp [LinkedList.appendFrom, LinkedList.cend]
  | cons r rest ih =>
    intro done l ps fuel hr hra hd hf
    obtain ⟨n, rfl⟩ : ∃ n, fuel = n + 1 := ⟨fuel - 1, by simp at hf; omega⟩
    have hne : r ≠ a.sentinel := hra.head_ne_sentinel
    have hr0 : LinkedList.Ring l (ps ++ []) := by simpa using hr
    obtain ⟨k1, k2, _⟩ := LinkedList.insert_effect hr0 (l.heap.value r)
    simp only [List.headD_nil, List.append_nil] at k1 k2
    obtain ⟨g1, g2, g3⟩ := k2.keep a hra hd
    have hra1 : LinkedList.Ring (a.sharing
        (l.linkedBetween (ps.getLastD l.sentinel) l.sentinel (l.heap.value r)))
        ((done ++ [r]) ++ rest) := by
      rw [List.append_assoc]; exact g1
    have hd1 : ∀ p ∈ a.sentinel :: ((done ++ [r]) ++ rest),
        p ∉ (l.linkedBetween (ps.getLastD l.sentinel) l.sentinel (l.heap.value r)).sentinel
          :: (ps ++ [l.heap.brk + 1]) := by
      intro p hp
      rw [List.append_assoc] at hp
      exact g3 p hp
    obtain ⟨lf, psf, h1, h2, h3, h4⟩ := ih (done ++ [r]) _ (ps ++ [l.heap.brk + 1]) n k1 hra1 hd1
      (by simp at hf; omega)
    refine ⟨lf, psf, ?_, h2, k2.trans h3, ?_⟩
    · simp only [LinkedList.appendFrom, LinkedList.cend, LinkedList.ConstIterator.mk.injEq,
        List.headD_cons, hne, and_false, if_false]
      have hderef : LinkedList.onOther a (LinkedList.ConstIterator.deref ⟨a.addr, r⟩) l
          = Res.ok (l.heap.value r) l := LinkedList.onOther_ok (LinkedList.deref_node hra)
      rw [bind_ok hderef]
      rw [bind_ok (LinkedList.append_spec hr (l.heap.value r))]
      have hinc := LinkedList.increment_spec (a.sharing
        (l.linkedBetween (ps.getLastD l.sentinel) l.sentinel (l.heap.value r))) a.addr r
        (g1.valid_mem (by simp)) hne
      rw [g1.next_node] at hinc
      have hinc2 : LinkedList.onOther a (LinkedList.ConstIterator.increment ⟨a.addr, r⟩)
          (l.linkedBetween (ps.getLastD l.sentinel) l.sentinel (l.heap.value r))
          = Res.ok ⟨a.addr, rest.headD a.sentinel⟩
            (l.linkedBetween (ps.getLastD l.sentinel) l.sentinel (l.heap.value r)) :=
        LinkedList.onOther_ok hinc
      rw [bind_ok hinc2]
      exact h1
    · rw [h4]
      have hv := LinkedList.Ring.map_value_insert hr0 (ps.getLastD l.sentinel) l.sentinel
        (l.heap.value r)
      simp only [List.map_nil, List.append_nil] at hv
      rw [hv]
      have hrest : rest.map (l.linkedBetween (ps.getLastD l.sentinel) l.sentinel
          (l.heap.value r)).heap.value = rest.map l.heap.value := by
        apply List.map_congr_left
        intro p hp
        have hpm : p ∈ a.sentinel :: (done ++ r :: rest) := by simp [hp]
        exact (k2.frame p (hra.live p hpm).2 (hd p hpm)).2.1
      rw [hrest]
      simp

theorem LinkedList.copyConstruct_spec [Inhabited α] (a : LinkedList α) (qs : List Nat)
    (hr : LinkedList.Ring a qs) (addr fuel : Nat) (hf : qs.length < fuel) :
    ∃ b ps, LinkedList.copyConstruct addr fuel a = Res.ok () b ∧ b.addr = addr
      ∧ LinkedList.Ring b ps ∧ ps.map b.heap.value = qs.map a.heap.value
      ∧ LinkedList.Ring (a.sharing b) qs ∧ qs.map b.heap.value = qs.map a.heap.value
      ∧ ∀ p ∈ a.sentinel :: qs, p ∉ b.sentinel :: ps := by
  obtain ⟨l1, h1, hadr, hsz, hsent, hbrk, hval, hnx, hpv, hsame⟩ :=
    LinkedList.init_spec (⟨addr, 0, nullptr, a.heap⟩ : LinkedList α)
  simp only [] at hadr hsz hsent hbrk hval hnx hpv hsame
  have hr1 : LinkedList.Ring l1 [] := by
    refine ⟨by simp, ?_, ?_, by rw [hsz]; rfl⟩
    · intro p hp
      simp only [List.mem_singleton] at hp
      rw [hp, hsent]
      exact ⟨hval, by omega⟩
    · show LinkedList.Linked l1.heap [l1.sentinel, l1.sentinel]
      rw [LinkedList.Linked_cons_cons, hsent]
      exact ⟨hnx, hpv, by simp⟩
  have hle : ∀ p ∈ a.sentinel :: qs, p ≤ a.heap.brk := fun p hp => (hr.live p hp).2
  have htr := @LinkedList.Ring.transfer α a (a.sharing l1) qs hr rfl rfl
    (by show a.heap.brk ≤ l1.heap.brk; omega)
    (fun p hp => hsame p (by have := hle p hp; omega))
  have hd : ∀ p ∈ a.sentinel :: ([] ++ qs), p ∉ l1.sentinel :: [] := by
    intro p hp
    have := hle p hp
    simp only [List.mem_singleton]
    omega
  have hra : LinkedList.Ring (a.sharing l1) ([] ++ qs) := htr.1
  obtain ⟨lf, psf, g1, g2, g3, g4⟩ := LinkedList.appendFrom_spec a qs [] l1 [] fuel hr1 hra hd hf
  obtain ⟨k1, k2, k3⟩ := g3.keep a htr.1 hd
  refine ⟨lf, psf, ?_, by rw [g3.addr, hadr], g2, ?_, k1, by rw [k2]; exact htr.2, k3⟩
  · unfold LinkedList.copyConstruct
    rw [bind_ok h1]
    have hb : LinkedList.onOther a LinkedList.cbegin l1
        = Res.ok ⟨a.addr, qs.headD a.sentinel⟩ l1 :=
      LinkedList.onOther_ok (LinkedList.cbegin_spec htr.1)
    rw [bind_ok hb]
    exact g1
  · rw [g4]
    simp only [List.map_nil, List.nil_append]
    exact htr.2

theorem LinkedList.walk_next (h : Heap α) : ∀ (qs : List Nat) (a b : Nat),
    LinkedList.Linked h (a :: (qs ++ [b])) →
    LinkedList.walk h.next qs.length (h.next a) = qs := by
  intro qs
  induction qs with
  | nil => intro a b _; rfl
  | cons q qs ih =>
    intro a b hl
    rw [List.cons_append, LinkedList.Linked_cons_cons] at hl
    simp only [List.length_cons, LinkedList.walk]
    rw [hl.1, ih q b hl.2.2]

theorem LinkedList.walk_prev (h : Heap α) : ∀ (qs : List Nat) (a b : Nat),
    LinkedList.Linked h (a :: (qs ++ [b])) →
    LinkedList.walk h.prev qs.length (h.prev b) = qs.reverse := by
  intro qs
  induction qs using List.reverseRecOn with
  | nil => intro a b _; rfl
  | append_singleton qs q ih =>
    intro a b hl
    have hl1 : LinkedList.Linked h ((a :: qs) ++ q :: [b]) := by simpa using hl
    have hm := LinkedList.Linked_mid h (a :: qs) [] q b hl1
    have hl2 : LinkedList.Linked h (a :: (qs ++ [q])) := by
      have := LinkedList.Linked_prefix h (a :: (qs ++ [q])) [b] (by simpa using hl)
      exact this
    have hlen : (qs ++ [q]).length = qs.length + 1 := by simp
    rw [hlen]
    simp only [LinkedList.walk]
    rw [hm.2, ih a q hl2]
    simp

theorem LinkedList.Ring.invariant {l : LinkedList α} {ps : List Nat} (hr : LinkedList.Ring l ps) :
    l.RingInvariant := by
  have hfwd : LinkedList.walk l.heap.next l.size (l.heap.next l.sentinel) = ps := by
    rw [hr.size]
    exact LinkedList.walk_next l.heap ps l.sentinel l.sentinel hr.linked
  have hbwd : LinkedList.walk l.heap.prev l.size (l.heap.prev l.sentinel) = ps.reverse := by
    rw [hr.size]
    exact LinkedList.walk_prev l.heap ps l.sentinel l.sentinel hr.linked
  have hr0 : LinkedList.Ring l ([] ++ ps) := hr
  have hr1 : LinkedList.Ring l (ps ++ []) := by simpa using hr
  have hhead := hr0.next_at
  have hlast := hr1.next_at
  simp only [List.getLastD_nil, List.headD_nil] at hhead hlast
  unfold LinkedList.RingInvariant
  rw [hfwd, hbwd]
  refine ⟨hr.valid_sentinel, ?_, hlast.1, rfl, ?_, ?_, ?_⟩
  · intro p hp
    obtain ⟨P, Q, rfl⟩ := List.append_of_mem hp
    exact ⟨hr.valid_mem hp, hr.head_ne_sentinel⟩
  · have : ps.reverse.getLastD l.sentinel = ps.headD l.sentinel := by
      cases ps with
      | nil => rfl
      | cons a ps => simp
    rw [this]
    exact hhead.2
  · intro p hp
    rcases List.mem_cons.mp hp with h | h
    · subst h
      exact ⟨by rw [hhead.1]; exact hhead.2, by rw [hlast.2]; exact hlast.1⟩
    · obtain ⟨P, Q, rfl⟩ := List.append_of_mem h
      have hr2 : LinkedList.Ring l ((P ++ [p]) ++ Q) := by simpa using hr
      have h2 := hr2.next_at
      have h3 := hr.next_at
      simp only [List.headD_cons] at h3
      have hg : (P ++ [p]).getLastD l.sentinel = p := by simp
      rw [hg] at h2
      exact ⟨by rw [h2.1]; exact h2.2, by rw [h3.2]; exact h3.1⟩
  · rw [hr.size]
    constructor
    · intro h
      have : ps = [] := List.length_eq_zero.mp h
      subst this
      exact ⟨hhead.1, hlast.2⟩
    · intro h
      cases ps with
      | nil => rfl
      | cons a ps =>
        exfalso
        have h1 := hhead.1
        simp only [List.headD_cons] at h1
        have hne : a ≠ l.sentinel := hr0.head_ne_sentinel
        exact hne (h1.symm.trans h.1)

end listMore

/-! ## The claims on construction, iterators and invariants -/

section claims2

variable {α : Type}

/-- C11 (the code departs from the claim for a `LinkedList` when the calls on
`B` include a range `erase` with its ends out of order). Copy construction is
a deep copy, for both containers. From a container `A` holding `s`, the copy
constructor returns a container `B` at `addr` that holds `s` with the size of
`A`, and `A` still holds `s`. For the vector, after any sequence of `append`,
`prepend`, `insert`, `popFirst`, `popLast`, `erase` (one position or a range)
and writes through the iterators of `B`, each caught when it throws, the
sequence has run without undefined behaviour and `A` still holds `s`, its size
unchanged. For the list the same holds when every range `erase` of the
sequence has its first position not after the last one (and the elements and
calls together number fewer than `2^31`, the step counter of `operator+` being
a 32-bit `int`). A range `erase` with its ends out of order is not rejected:
on the copy `B` of the ring holding `10`, `erase(begin() + 1, begin())`
returns with the sentinel of `B` released and `getSize() = 0`, and the next
call, `append(4)`, reads that sentinel: undefined behaviour, after which
nothing is known of `A`. The vector lives in a store of buffers and the list
in a store of nodes that `A` and `B` share. -/
theorem C11_deep_copy [Inhabited α] (A : Vector.Object) (st : Store α) (a : LinkedList α)
    (s : List α) (addr fuel : Nat) (calls : List (Call α))
    (hA : A.HoldsIn st s) (hAb : A.elemArray ≤ st.brk) (ha : a.Holds s) (haddr : addr ≠ 0)
    (hn : s.length + calls.length < SIZE_MOD) (hf : s.length + calls.length < fuel) :
    (∃ B st1, Vector.Object.copyConstruct addr A st = some (B, st1)
      ∧ B.HoldsIn st1 s ∧ B.size = A.size ∧ A.HoldsIn st1 s
      ∧ ∃ Bf stf, B.runCalls calls st1 = some (Bf, stf)
          ∧ A.HoldsIn stf s ∧ A.size = s.length) ∧
    (∃ b, LinkedList.copyConstruct addr fuel a = Res.ok () b
      ∧ b.Holds s ∧ b.getSize = a.getSize ∧ (a.sharing b).Holds s
      ∧ ((∀ c ∈ calls, c.InOrder) → s.length + calls.length < 2 ^ 31 →
          ∃ bf, LinkedList.runCalls fuel calls b = some bf
            ∧ (a.sharing bf).Holds s ∧ (a.sharing bf).getSize = s.length)) ∧
    (∃ b l1, LinkedList.copyConstruct 200 3 LinkedList.example10 = Res.ok () b
      ∧ LinkedList.call 3 (Call.eraseRange 1 0) b = Res.ok () l1
      ∧ l1.heap.live l1.sentinel = false ∧ l1.getSize = 0
      ∧ LinkedList.call 3 (Call.single (Op.append 4)) l1 = Res.ub
      ∧ LinkedList.runCalls 3 [Call.eraseRange 1 0, Call.single (Op.append 4)] b = none) := by
  refine ⟨?_, ?_, ⟨_, _, rfl, rfl, rfl, rfl, rfl, rfl⟩⟩
  · obtain ⟨B, st1, h1, h2, h3, h4, h5, h6⟩ :=
      Vector.Object.obj_copyConstruct_spec A st s addr hA haddr (by omega) hAb
    obtain ⟨Bf, stf, sf, k1, _, k3⟩ :=
      Vector.Object.obj_runCalls_spec A calls B st1 s h2 hn h5 h6
    have hA1 : A.HoldsIn st1 s := by
      obtain ⟨v, hl, hv⟩ := hA
      exact ⟨v, by rw [h4]; exact hl, hv⟩
    have hAf : A.HoldsIn stf s := by
      obtain ⟨v, hl, hv⟩ := hA1
      exact ⟨v, by rw [k3]; exact hl, hv⟩
    refine ⟨B, st1, h1, h2, h3, hA1, Bf, stf, k1, hAf, ?_⟩
    obtain ⟨v, hl, hv⟩ := hA
    rw [← (Vector.Object.load_addr hl).2.2.1]
    exact Vector.vec_holds_size hv
  · obtain ⟨qs, hr, hm⟩ := ha
    have hlen : qs.length = s.length := by rw [← hm]; simp
    obtain ⟨b, ps, h1, _, h3, h4, h5, h6, h7⟩ :=
      LinkedList.copyConstruct_spec a qs hr addr fuel (by omega)
    have hpl : ps.length = s.length := by
      have := congrArg List.length h4
      simpa [hlen] using this
    refine ⟨b, h1, ⟨ps, h3, by rw [h4]; exact hm⟩, ?_, ⟨qs, h5, by rw [← hm]; exact h6⟩, ?_⟩
    · simp only [LinkedList.getSize]
      rw [h3.size, hr.size, hpl, hlen]
    · intro hc h31
      obtain ⟨bf, psf, k1, _, k3⟩ := LinkedList.runCalls_spec fuel calls b ps h3 hc (by omega)
        (by omega)
      obtain ⟨g1, g2, _⟩ := k3.keep a h5 h7
      refine ⟨bf, k1, ⟨qs, g1, ?_⟩, ?_⟩
      · rw [← hm, ← h6]
        exact g2
      · have := g1.size
        simp only [LinkedList.getSize]
        rw [this, hlen]

/-- Witness of C11: copies at address 2 of the vector object and of the ring
that hold `1, 2, 3, 4, 5`, and five calls on each copy, the range `erase`
among them with its ends in order. -/
theorem C11_deep_copy_witness :
    (∃ B st1, Vector.Object.copyConstruct 2 Vector.Object.example12345 Store.example12345
        = some (B, st1)
      ∧ ∃ Bf stf, B.runCalls [Call.assign 0 9, Call.single (Op.append 4),
            Call.single Op.popFirst, Call.eraseRange 0 2, Call.single (Op.erase 7)] st1
          = some (Bf, stf)
        ∧ Vector.Object.example12345.HoldsIn stf [1, 2, 3, 4, 5]) ∧
    (∃ b, LinkedList.copyConstruct 2 11 LinkedList.example12345 = Res.ok () b
      ∧ ∃ bf, LinkedList.runCalls 11 [Call.assign 0 9, Call.single (Op.append 4),
            Call.single Op.popFirst, Call.eraseRange 0 2, Call.single (Op.erase 7)] b = some bf
        ∧ (LinkedList.example12345.sharing bf).Holds [1, 2, 3, 4, 5]) :=
  match C11_deep_copy Vector.Object.example12345 Store.example12345 LinkedList.example12345
    [1, 2, 3, 4, 5] 2 11
    [Call.assign 0 9, Call.single (Op.append 4), Call.single Op.popFirst, Call.eraseRange 0 2,
      Call.single (Op.erase 7)]
    ⟨⟨1, [1, 2, 3, 4, 5], 5, 5⟩, rfl, Vector.vec_ofList_holds 1 (by decide) [1, 2, 3, 4, 5]⟩
    (by decide) LinkedList.example12345_holds (by decide)
    (by simp [SIZE_MOD]) (by decide) with
  | ⟨⟨B, st1, h1, _, _, _, Bf, stf, k1, k2, _⟩, ⟨b, g1, _, _, _, g⟩, _⟩ =>
    match g
      (by intro c hc; simp at hc; rcases hc with h | h | h | h | h <;> subst h <;>
        simp [Call.InOrder])
      (by norm_num) with
    | ⟨bf, g2, g3, _⟩ => ⟨⟨B, st1, h1, Bf, stf, k1, k2⟩, ⟨b, g1, bf, g2, g3⟩⟩

/-- C12 (the code departs from the claim). `LinkedList` move. Move-constructing
`B` at `addr` from a list `A` holding `s` returns, `B` holds `s` and `A` has
`getSize() = 0`; but `move` stores `nullptr` in `A.sentinel` and releases the
fresh sentinel of `B` instead of handing it to `A`, so `A` has no ring of its
own and `A.append(x)`, like `A.prepend(x)`, dereferences the null sentinel:
undefined behaviour. The move assignment goes through the same `move`; it is
evaluated here on a copy of the ring holding `10` assigned from that ring. -/
theorem C12_list_move [Inhabited α] (a : LinkedList α) (s : List α) (addr fuel : Nat) (x : α)
    (ha : a.Holds s) (hf : 0 < fuel) :
    (∃ b a1, LinkedList.moveConstruct addr fuel a = Res.ok a1 b ∧ b.Holds s
      ∧ a1.getSize = 0 ∧ a1.sentinel = nullptr
      ∧ LinkedList.append x a1 = Res.ub ∧ LinkedList.prepend x a1 = Res.ub) ∧
    (∃ b b1 a1, LinkedList.copyConstruct 200 2 LinkedList.example10 = Res.ok () b
      ∧ LinkedList.moveAssign 2 LinkedList.example10 b = Res.ok a1 b1
      ∧ a1.getSize = 0 ∧ a1.sentinel = nullptr ∧ LinkedList.append 7 a1 = Res.ub) := by
  constructor
  · obtain ⟨ps, hr, hm⟩ := ha
    obtain ⟨b, a1, h1, h2, h3, _, _, h6, h7, _⟩ :=
      LinkedList.moveConstruct_spec a ps hr addr fuel hf
    obtain ⟨k1, k2⟩ := LinkedList.append_null a1 x h7
    exact ⟨b, a1, h1, ⟨ps, h2, by rw [h3]; exact hm⟩, h6, h7, k2 h6, k1⟩
  · exact ⟨_, _, _, rfl, rfl, rfl, rfl, rfl⟩

/-- Witness of C12: the failing input, the ring holding `1, 2, 3, 4, 5` moved
into a new list at address 200, then `append(7)` on the moved-from list. -/
theorem C12_list_move_witness :
    ∃ b a1, LinkedList.moveConstruct 200 1 LinkedList.example12345 = Res.ok a1 b
      ∧ b.Holds [1, 2, 3, 4, 5]
      ∧ a1.getSize = 0 ∧ a1.sentinel = nullptr
      ∧ LinkedList.append 7 a1 = Res.ub ∧ LinkedList.prepend 7 a1 = Res.ub :=
  (C12_list_move LinkedList.example12345 [1, 2, 3, 4, 5] 200 1 7
    LinkedList.example12345_holds (by decide)).1

/-- C13. `Vector` move: move-constructing `B` at `addr` from `A` holding `s`, or
move-assigning `A` to another vector `b0`, leaves `B` holding `s` with the
capacity `A` had and `A` with size 0 and capacity 0; `append(x)` on the
moved-from `A` then returns and `A` holds `[x]` with `getSize() = 1` (`x` is an
object outside `A`, which has no element left that an item could refer to). -/
theorem C13_vector_move [Inhabited α] (a b0 : Vector α) (s : List α) (addr : Nat) (x : α)
    (ha : a.Holds s) (haddr : addr ≠ 0) (hb0 : b0.addr ≠ 0) (hne : b0.addr ≠ a.addr) :
    ((Vector.moveConstruct addr a).1.Holds s
      ∧ (Vector.moveConstruct addr a).1.maxCapacity = a.maxCapacity
      ∧ (Vector.moveConstruct addr a).2.getSize = 0
      ∧ (Vector.moveConstruct addr a).2.maxCapacity = 0
      ∧ ∃ a1, Vector.append (Vector.Item.outside x) (Vector.moveConstruct addr a).2 = Res.ok () a1
          ∧ a1.Holds [x] ∧ a1.getSize = 1) ∧
    ((Vector.moveAssign b0 a).1.Holds s
      ∧ (Vector.moveAssign b0 a).1.maxCapacity = a.maxCapacity
      ∧ (Vector.moveAssign b0 a).2.getSize = 0
      ∧ (Vector.moveAssign b0 a).2.maxCapacity = 0
      ∧ ∃ a1, Vector.append (Vector.Item.outside x) (Vector.moveAssign b0 a).2 = Res.ok () a1
          ∧ a1.Holds [x] ∧ a1.getSize = 1) := by
  have hA : a.addr ≠ 0 := ha.1.1
  obtain ⟨a1, h1, h2, h3, _⟩ := Vector.clear_append a x hA
  constructor
  · exact ⟨Vector.holds_readdress ha addr haddr, rfl, rfl, rfl, a1, h1, h2, h3⟩
  · have hm : Vector.moveAssign b0 a
        = ({ b0 with elemArray := a.elemArray, size := a.size, maxCapacity := a.maxCapacity },
            Vector.clear a) := by
      simp [Vector.moveAssign, hne]
    rw [hm]
    exact ⟨Vector.holds_readdress ha b0.addr hb0, rfl, rfl, rfl, a1, h1, h2, h3⟩

/-- Witness of C13: the vector `{1, 2, 3}` at address 1 moved into a new object
at address 2, and into the vector `{9}` at address 3. -/
theorem C13_vector_move_witness :
    ((Vector.moveConstruct 2 (Vector.ofList 1 [(1 : Int), 2, 3])).1.Holds [1, 2, 3]
      ∧ (Vector.moveConstruct 2 (Vector.ofList 1 [(1 : Int), 2, 3])).1.maxCapacity
          = (Vector.ofList 1 [(1 : Int), 2, 3]).maxCapacity
      ∧ (Vector.moveConstruct 2 (Vector.ofList 1 [(1 : Int), 2, 3])).2.getSize = 0
      ∧ (Vector.moveConstruct 2 (Vector.ofList 1 [(1 : Int), 2, 3])).2.maxCapacity = 0
      ∧ ∃ a1, Vector.append (Vector.Item.outside 7) (Vector.moveConstruct 2 (Vector.ofList 1 [(1 : Int), 2, 3])).2
            = Res.ok () a1
          ∧ a1.Holds [7] ∧ a1.getSize = 1) ∧
    ((Vector.moveAssign (Vector.ofList 3 [9]) (Vector.ofList 1 [(1 : Int), 2, 3])).1.Holds [1, 2, 3]
      ∧ (Vector.moveAssign (Vector.ofList 3 [9]) (Vector.ofList 1 [(1 : Int), 2, 3])).1.maxCapacity
          = (Vector.ofList 1 [(1 : Int), 2, 3]).maxCapacity
      ∧ (Vector.moveAssign (Vector.ofList 3 [9]) (Vector.ofList 1 [(1 : Int), 2, 3])).2.getSize = 0
      ∧ (Vector.moveAssign (Vector.ofList 3 [9]) (Vector.ofList 1 [(1 : Int), 2, 3])).2.maxCapacity
          = 0
      ∧ ∃ a1, Vector.append (Vector.Item.outside 7)
            (Vector.moveAssign (Vector.ofList 3 [9]) (Vector.ofList 1 [(1 : Int), 2, 3])).2
            = Res.ok () a1
          ∧ a1.Holds [7] ∧ a1.getSize = 1) :=
  C13_vector_move (Vector.ofList 1 [1, 2, 3]) (Vector.ofList 3 [9]) [1, 2, 3] 2 7
    (Vector.vec_ofList_holds 1 (by decide) _) (by decide) (by decide) (by decide)

/-- C14. Dereference at the boundary, for both containers: on a container
holding `s`, for every `i ≤ s.length`, `*(begin() + i)` throws `out_of_range`
(container unchanged) exactly when `i = s.length`, and for `i < s.length` it
returns `s[i]`. For the list `s` has fewer than `2^31` elements (the step
counter of `operator+` is a 32-bit `int`). -/
theorem C14_deref_boundary (v : Vector α) (l : LinkedList α) (s : List α) (i : Nat)
    (hv : v.Holds s) (hl : l.Holds s) (hi : i ≤ s.length) (hn : s.length < SIZE_MOD) :
    (((Vector.position i >>= Vector.ConstIterator.deref) v = Res.throw Exception.out_of_range v
        ↔ i = s.length) ∧
      ∀ h : i < s.length, (Vector.position i >>= Vector.ConstIterator.deref) v = Res.ok s[i] v) ∧
    (s.length < 2 ^ 31 →
      ((LinkedList.position i >>= LinkedList.ConstIterator.deref) l
          = Res.throw Exception.out_of_range l ↔ i = s.length) ∧
      ∀ h : i < s.length,
        (LinkedList.position i >>= LinkedList.ConstIterator.deref) l = Res.ok s[i] l) := by
  obtain ⟨hv1, hv2⟩ := Vector.vec_deref_position v s hv i hn
  refine ⟨⟨⟨fun h => ?_, hv1⟩, hv2⟩, fun h31 => ?_⟩
  · by_contra hne
    rw [hv2 (by omega)] at h
    cases h
  · obtain ⟨hl1, hl2⟩ := LinkedList.deref_position l s hl i h31
    refine ⟨⟨fun h => ?_, hl1⟩, hl2⟩
    by_contra hne
    rw [hl2 (by omega)] at h
    cases h

/-- Witness of C14: the vector `{1, 2, 3, 4, 5}` and the ring holding the same
values. At the boundary position `begin() + 5` the dereference throws
`out_of_range` and leaves the container as it is; at `begin() + 2` it returns
the element `3`. -/
theorem C14_deref_boundary_witness :
    ((Vector.position 5 >>= Vector.ConstIterator.deref) (Vector.ofList 1 [(1 : Int), 2, 3, 4, 5])
        = Res.throw Exception.out_of_range (Vector.ofList 1 [(1 : Int), 2, 3, 4, 5]) ∧
      (LinkedList.position 5 >>= LinkedList.ConstIterator.deref) LinkedList.example12345
        = Res.throw Exception.out_of_range LinkedList.example12345) ∧
    ((Vector.position 2 >>= Vector.ConstIterator.deref) (Vector.ofList 1 [(1 : Int), 2, 3, 4, 5])
        = Res.ok 3 (Vector.ofList 1 [(1 : Int), 2, 3, 4, 5]) ∧
      (LinkedList.position 2 >>= LinkedList.ConstIterator.deref) LinkedList.example12345
        = Res.ok 3 LinkedList.example12345) :=
  have h5 := C14_deref_boundary (Vector.ofList 1 [1, 2, 3, 4, 5]) LinkedList.example12345
    [1, 2, 3, 4, 5] 5 (Vector.vec_ofList_holds 1 (by decide) _) LinkedList.example12345_holds
    (by decide) (by simp [SIZE_MOD])
  have h2 := C14_deref_boundary (Vector.ofList 1 [1, 2, 3, 4, 5]) LinkedList.example12345
    [1, 2, 3, 4, 5] 2 (Vector.vec_ofList_holds 1 (by decide) _) LinkedList.example12345_holds
    (by decide) (by simp [SIZE_MOD])
  ⟨⟨h5.1.1.mpr rfl, (h5.2 (by norm_num)).1.mpr rfl⟩,
    ⟨h2.1.2 (by decide), (h2.2 (by norm_num)).2 (by decide)⟩⟩

/-- C15 (the code departs from the claim for `LinkedList::operator-` with
`d ≥ 2^31`). Iterator arithmetic and repeated single steps, on a container
holding `s`, for `it = begin() + i` with `i ≤ s.length` and a step count
`d ≥ 0` of `difference_type`. For the vector, and for `it + d` on the list,
the claim holds: `it + d` has the outcome of `d` times `++it` and `it - d`
that of `d` times `--it`; `it + d` is `begin() + (i + d)` when
`i + d ≤ s.length` and throws `out_of_range` otherwise; `it - d` is
`begin() + (i - d)` when `d ≤ i` and throws `out_of_range` otherwise; `++it`
throws exactly at `end()` and `--it` exactly at `begin()`. The list's `it - d`
counts with an `int`: it agrees with `d` times `--it` for `d < 2^31`, but on
the ring holding `1, 2, 3, 4, 5` the call `(begin() + 1) - 4294967296` returns
`begin() + 1` where 4294967296 times `--it` throws `out_of_range`. -/
theorem C15_iterator_steps (v : Vector α) (l : LinkedList α) (s : List α) (i d : Nat)
    (hv : v.Holds s) (hl : l.Holds s) (hi : i ≤ s.length) (hn : s.length < 2 ^ 31)
    (hd : d < 2 ^ 63) :
    (((Vector.position i >>= fun it => Vector.ConstIterator.plus it (d : Int)) v
        = (Vector.position i >>= Vector.ConstIterator.incrementTimes d) v) ∧
      ((Vector.position i >>= fun it => Vector.ConstIterator.minus it (d : Int)) v
        = (Vector.position i >>= Vector.ConstIterator.decrementTimes d) v) ∧
      (i + d ≤ s.length → ∃ it, Vector.position (i + d) v = Res.ok it v ∧
        (Vector.position i >>= fun it => Vector.ConstIterator.plus it (d : Int)) v
          = Res.ok it v) ∧
      (s.length < i + d →
        (Vector.position i >>= fun it => Vector.ConstIterator.plus it (d : Int)) v
          = Res.throw Exception.out_of_range v) ∧
      (d ≤ i → ∃ it, Vector.position (i - d) v = Res.ok it v ∧
        (Vector.position i >>= fun it => Vector.ConstIterator.minus it (d : Int)) v
          = Res.ok it v) ∧
      (i < d →
        (Vector.position i >>= fun it => Vector.ConstIterator.minus it (d : Int)) v
          = Res.throw Exception.out_of_range v) ∧
      ((Vector.position i >>= Vector.ConstIterator.increment) v
          = Res.throw Exception.out_of_range v ↔ i = s.length) ∧
      ((Vector.position i >>= Vector.ConstIterator.decrement) v
          = Res.throw Exception.out_of_range v ↔ i = 0)) ∧
    (((LinkedList.position i >>= fun it => LinkedList.ConstIterator.plus it (d : Int)) l
        = (LinkedList.position i >>= LinkedList.ConstIterator.incrementTimes d) l) ∧
      (i + d ≤ s.length → ∃ it, LinkedList.position (i + d) l = Res.ok it l ∧
        (LinkedList.position i >>= fun it => LinkedList.ConstIterator.plus it (d : Int)) l
          = Res.ok it l) ∧
      (s.length < i + d →
        (LinkedList.position i >>= fun it => LinkedList.ConstIterator.plus it (d : Int)) l
          = Res.throw Exception.out_of_range l) ∧
      (d < 2 ^ 31 →
        ((LinkedList.position i >>= fun it => LinkedList.ConstIterator.minus it (d : Int)) l
          = (LinkedList.position i >>= LinkedList.ConstIterator.decrementTimes d) l) ∧
        (d ≤ i → ∃ it, LinkedList.position (i - d) l = Res.ok it l ∧
          (LinkedList.position i >>= fun it => LinkedList.ConstIterator.minus it (d : Int)) l
            = Res.ok it l) ∧
        (i < d →
          (LinkedList.position i >>= fun it => LinkedList.ConstIterator.minus it (d : Int)) l
            = Res.throw Exception.out_of_range l)) ∧
      ((LinkedList.position i >>= LinkedList.ConstIterator.increment) l
          = Res.throw Exception.out_of_range l ↔ i = s.length) ∧
      ((LinkedList.position i >>= LinkedList.ConstIterator.decrement) l
          = Res.throw Exception.out_of_range l ↔ i = 0)) ∧
    ((LinkedList.position 1 >>= fun it => LinkedList.ConstIterator.minus it 4294967296)
        LinkedList.example12345
      = LinkedList.position 1 LinkedList.example12345 ∧
     (LinkedList.position 1 >>= LinkedList.ConstIterator.decrementTimes 4294967296)
        LinkedList.example12345
      = Res.throw Exception.out_of_range LinkedList.example12345) := by
  have hmod : SIZE_MOD = 2 ^ 63 + 2 ^ 63 := by norm_num [SIZE_MOD]
  obtain ⟨a1, a2, a3, a4, a5, a6⟩ := Vector.vec_position_steps v s i d hv hi (by omega)
  obtain ⟨a7, a8⟩ := Vector.vec_position_single v s i hv hi (by omega)
  obtain ⟨b3, b4, b5, b6⟩ := LinkedList.position_steps l s i d hl hi hn
  obtain ⟨b7, b8⟩ := LinkedList.position_single l s i hl hi hn
  have b0 := LinkedList.position_incrementTimes l s i d hl hi hn
  refine ⟨⟨a1, a2, a3, a4, a5, a6, a7, a8⟩, ⟨b0, b3, b4, fun hd31 => ?_, b7, b8⟩, ⟨rfl, ?_⟩⟩
  · have key : (fun it : LinkedList.ConstIterator =>
        (LinkedList.ConstIterator.minus it (d : Int) : M (LinkedList α) _))
        = LinkedList.ConstIterator.decrementTimes d :=
      funext fun it => LinkedList.minus_small it d hd31
    rw [key]
    exact ⟨rfl, b5, b6⟩
  · have hr : LinkedList.Ring LinkedList.example12345 ([2] ++ [3, 4, 5, 6]) :=
      ⟨by decide, by decide, by decide, rfl⟩
    have hp : LinkedList.position 1 LinkedList.example12345
        = Res.ok ⟨100, 3⟩ LinkedList.example12345 := LinkedList.position_run hr (by norm_num)
    rw [bind_ok hp]
    exact LinkedList.decrementTimes_past LinkedList.example12345 4294967294 hr

/-- Witness of C15: the position `begin() + 2` and the step count 2 on the
vector `{1, 2, 3, 4, 5}` and on the ring holding the same values. -/
theorem C15_iterator_steps_witness :
    (2 ≤ 2 → ∃ it, Vector.position (2 - 2) (Vector.ofList 1 [(1 : Int), 2, 3, 4, 5])
        = Res.ok it (Vector.ofList 1 [(1 : Int), 2, 3, 4, 5]) ∧
      (Vector.position 2 >>= fun it => Vector.ConstIterator.minus it ((2 : Nat) : Int))
          (Vector.ofList 1 [(1 : Int), 2, 3, 4, 5])
        = Res.ok it (Vector.ofList 1 [(1 : Int), 2, 3, 4, 5])) ∧
    (2 + 2 ≤ [(1 : Int), 2, 3, 4, 5].length →
      ∃ it, LinkedList.position (2 + 2) LinkedList.example12345
        = Res.ok it LinkedList.example12345 ∧
      (LinkedList.position 2 >>= fun it => LinkedList.ConstIterator.plus it ((2 : Nat) : Int))
          LinkedList.example12345
        = Res.ok it LinkedList.example12345) :=
  have h := C15_iterator_steps (Vector.ofList 1 [(1 : Int), 2, 3, 4, 5]) LinkedList.example12345
    [1, 2, 3, 4, 5] 2 2 (Vector.vec_ofList_holds 1 (by decide) _)
    LinkedList.example12345_holds (by decide) (by norm_num) (by norm_num)
  ⟨h.1.2.2.2.2.1, h.2.1.2.1⟩

/-- C16 (the code departs from the claim). The range `erase` of `LinkedList`
has no check of the order of its endpoints. On the ring holding
`1, 2, 3, 4, 5`, `erase(begin() + 3, begin() + 1)` does not throw: the scan for
the last node runs through the sentinel, and the call returns after releasing
the nodes of `4` and `5`, the sentinel and the node of `1`. The list is left
with `getSize() = 1`, a released sentinel, and the nodes of `2` and `3` linked
to each other. -/
theorem C16_list_erase_out_of_order :
    ∃ l1, (do
        let first ← LinkedList.position 3
        let last ← LinkedList.position 1
        LinkedList.eraseRange 10 first last : M (LinkedList Int) Unit) LinkedList.example12345
        = Res.ok () l1
      ∧ l1.sentinel = LinkedList.example12345.sentinel
      ∧ l1.heap.live l1.sentinel = false
      ∧ l1.getSize = 1
      ∧ l1.heap.live 3 = true ∧ l1.heap.live 4 = true
      ∧ l1.heap.next 3 = 4 ∧ l1.heap.next 4 = 3 :=
  ⟨_, rfl, rfl, rfl, rfl, rfl, rfl, rfl, rfl⟩

/-- C17. `LinkedList` ring invariant. A list made by the default constructor,
by the constructor from a list of values `xs`, or by the copy constructor from
a well-formed list, and then put through any sequence of `append`, `prepend`,
`insert`, `popFirst`, `popLast`, `erase(position)` and `erase(first, last)`
calls (and writes through its iterators) with positions `begin() + i` and
`first` not after `last`, each caught when it throws, is reached without
undefined behaviour and satisfies the ring invariant: following `next` from
the sentinel meets `getSize()` nodes and then the sentinel, following `prev`
meets the same nodes in reverse order, `next` and `prev` are inverse to each
other at every node of the ring, and `getSize() = 0` exactly when the sentinel
is its own `next` and `prev`. The initial elements and the calls together
number fewer than `2^31`, so that the list stays shorter than `2^31` (the step
counter of `operator+` is a 32-bit `int`). -/
theorem C17_ring_invariant [Inhabited α] (addr : Nat) (h : Heap α) (xs : List α)
    (other : LinkedList α) (s : List α) (calls : List (Call α)) (fuel : Nat)
    (ho : other.Holds s) (hc : ∀ c ∈ calls, c.InOrder)
    (hf : xs.length + s.length + calls.length < fuel)
    (h31 : xs.length + s.length + calls.length < 2 ^ 31) :
    (∃ l0 lf, LinkedList.create addr h = Res.ok () l0
      ∧ LinkedList.runCalls fuel calls l0 = some lf ∧ lf.RingInvariant) ∧
    (∃ l0 lf, LinkedList.ofList addr h xs = Res.ok () l0
      ∧ LinkedList.runCalls fuel calls l0 = some lf ∧ lf.RingInvariant) ∧
    (∃ l0 lf, LinkedList.copyConstruct addr fuel other = Res.ok () l0
      ∧ LinkedList.runCalls fuel calls l0 = some lf ∧ lf.RingInvariant) := by
  refine ⟨?_, ?_, ?_⟩
  · obtain ⟨l0, h1, ⟨ps, hr, hm⟩, _⟩ := @LinkedList.create_holds α _ addr h
    have hlen : ps.length = 0 := by
      have := congrArg List.length hm
      simpa using this
    obtain ⟨lf, psf, k1, k2, _⟩ := LinkedList.runCalls_spec fuel calls l0 ps hr hc (by omega)
      (by omega)
    exact ⟨l0, lf, h1, k1, k2.invariant⟩
  · obtain ⟨l0, h1, ⟨ps, hr, hm⟩⟩ := @LinkedList.ofList_holds α _ addr h xs
    have hlen : ps.length = xs.length := by
      have := congrArg List.length hm
      simpa using this
    obtain ⟨lf, psf, k1, k2, _⟩ := LinkedList.runCalls_spec fuel calls l0 ps hr hc (by omega)
      (by omega)
    exact ⟨l0, lf, h1, k1, k2.invariant⟩
  · obtain ⟨qs, hr, hm⟩ := ho
    have hlen : qs.length = s.length := by rw [← hm]; simp
    obtain ⟨b, ps, h1, _, h3, h4, _⟩ :=
      LinkedList.copyConstruct_spec other qs hr addr fuel (by omega)
    have hpl : ps.length = s.length := by
      have := congrArg List.length h4
      simpa [hlen] using this
    obtain ⟨lf, psf, k1, k2, _⟩ := LinkedList.runCalls_spec fuel calls b ps h3 hc (by omega)
      (by omega)
    exact ⟨b, lf, h1, k1, k2.invariant⟩

/-- Witness of C17: the three constructors in the empty free store, resp. in
that of the ring holding `1, 2, 3, 4, 5`, followed by five calls. -/
theorem C17_ring_invariant_witness :
    (∃ l0 lf, LinkedList.create 2 Heap.empty = Res.ok () l0
      ∧ LinkedList.runCalls 20 [Call.single (Op.append (4 : Int)), Call.single (Op.prepend 3),
          Call.single Op.popLast, Call.eraseRange 0 1, Call.single (Op.erase 7)] l0 = some lf
      ∧ lf.RingInvariant) ∧
    (∃ l0 lf, LinkedList.ofList 2 Heap.empty [7, 8, 9] = Res.ok () l0
      ∧ LinkedList.runCalls 20 [Call.single (Op.append (4 : Int)), Call.single (Op.prepend 3),
          Call.single Op.popLast, Call.eraseRange 0 1, Call.single (Op.erase 7)] l0 = some lf
      ∧ lf.RingInvariant) ∧
    (∃ l0 lf, LinkedList.copyConstruct 2 20 LinkedList.example12345 = Res.ok () l0
      ∧ LinkedList.runCalls 20 [Call.single (Op.append (4 : Int)), Call.single (Op.prepend 3),
          Call.single Op.popLast, Call.eraseRange 0 1, Call.single (Op.erase 7)] l0 = some lf
      ∧ lf.RingInvariant) :=
  C17_ring_invariant 2 Heap.empty [7, 8, 9] LinkedList.example12345 [1, 2, 3, 4, 5]
    [Call.single (Op.append 4), Call.single (Op.prepend 3), Call.single Op.popLast,
      Call.eraseRange 0 1, Call.single (Op.erase 7)] 20
    LinkedList.example12345_holds
    (by intro c hc; simp at hc; rcases hc with h | h | h | h | h <;> subst h <;> simp [Call.InOrder])
    (by decide) (by norm_num)

/-- C19 (amended). Signed iterator steps on a `Vector` and a `LinkedList` that
hold the same `s`, from `it = begin() + i`, `i ≤ s.length`, with `d` a
`difference_type`. For `d ≥ 0` the two agree on `it + d`, and for
`0 ≤ d < 2^31` on `it - d`: both throw `out_of_range` or both reach the same
logical position. For `d < 0` they are different functions: the list steps
`|d|` times (`it + d` forward, reaching `begin() + (i + |d|)` or throwing past
`end()`; `it - d`, for `|d| < 2^31`, backward, reaching `begin() + (i - |d|)`
or throwing before `begin()`), while the vector's `it + d` is
`begin() + (i - |d|)` when `|d| ≤ i` and throws otherwise, and its `it - d`
always throws. -/
theorem C19_signed_steps (v : Vector α) (l : LinkedList α) (s : List α) (i : Nat) (d : Int)
    (hv : v.Holds s) (hl : l.Holds s) (hi : i ≤ s.length) (hn : s.length < 2 ^ 31)
    (hd1 : -(2 ^ 63) < d) (hd2 : d < 2 ^ 63) :
    (0 ≤ d →
      SameOutcome s.length v l
        ((Vector.position i >>= fun it => Vector.ConstIterator.plus it d) v)
        ((LinkedList.position i >>= fun it => LinkedList.ConstIterator.plus it d) l) ∧
      (d < 2 ^ 31 →
        SameOutcome s.length v l
          ((Vector.position i >>= fun it => Vector.ConstIterator.minus it d) v)
          ((LinkedList.position i >>= fun it => LinkedList.ConstIterator.minus it d) l))) ∧
    (d < 0 →
      (d.natAbs ≤ i → ∃ it, Vector.position (i - d.natAbs) v = Res.ok it v ∧
        (Vector.position i >>= fun it => Vector.ConstIterator.plus it d) v = Res.ok it v) ∧
      (i < d.natAbs →
        (Vector.position i >>= fun it => Vector.ConstIterator.plus it d) v
          = Res.throw Exception.out_of_range v) ∧
      ((Vector.position i >>= fun it => Vector.ConstIterator.minus it d) v
          = Res.throw Exception.out_of_range v) ∧
      (i + d.natAbs ≤ s.length → ∃ jt, LinkedList.position (i + d.natAbs) l = Res.ok jt l ∧
        (LinkedList.position i >>= fun it => LinkedList.ConstIterator.plus it d) l
          = Res.ok jt l) ∧
      (s.length < i + d.natAbs →
        (LinkedList.position i >>= fun it => LinkedList.ConstIterator.plus it d) l
          = Res.throw Exception.out_of_range l) ∧
      (d.natAbs < 2 ^ 31 →
        (d.natAbs ≤ i → ∃ jt, LinkedList.position (i - d.natAbs) l = Res.ok jt l ∧
          (LinkedList.position i >>= fun it => LinkedList.ConstIterator.minus it d) l
            = Res.ok jt l) ∧
        (i < d.natAbs →
          (LinkedList.position i >>= fun it => LinkedList.ConstIterator.minus it d) l
            = Res.throw Exception.out_of_range l))) := by
  have hM : SIZE_MOD = 2 ^ 63 + 2 ^ 63 := by norm_num [SIZE_MOD]
  constructor
  · intro h0
    obtain ⟨m, rfl⟩ := Int.eq_ofNat_of_zero_le h0
    exact ⟨sameOutcome_plus v l s i m hv hl hi (by omega) hn,
      fun h31 => sameOutcome_minus v l s i m hv hl hi (by omega) (by omega) hn⟩
  · intro h0
    obtain ⟨m, hm⟩ : ∃ m : Nat, d = -(m : Int) := ⟨d.natAbs, by omega⟩
    subst hm
    have hna : (-(m : Int)).natAbs = m := by omega
    rw [hna]
    obtain ⟨a1, a2, a3⟩ := Vector.vec_position_steps_neg v s i m hv hi (by omega) (by omega)
      (by omega)
    obtain ⟨b3, b4, b5, b6⟩ := LinkedList.position_steps l s i m hl hi hn
    have hneg : ¬ (-(m : Int) = -(2 ^ 63)) := by omega
    have hpos : ¬ ((m : Int) = -(2 ^ 63)) := by omega
    have e1 : (fun jt : LinkedList.ConstIterator =>
        (LinkedList.ConstIterator.plus jt (-(m : Int)) : M (LinkedList α) _))
          = fun jt => LinkedList.ConstIterator.plus jt (m : Int) := by
      funext jt
      simp only [LinkedList.ConstIterator.plus, hna, Int.natAbs_ofNat, if_neg hneg, if_neg hpos]
    rw [e1]
    refine ⟨a1, a2, a3, b3, b4, fun h31 => ?_⟩
    have e2 : (fun jt : LinkedList.ConstIterator =>
        (LinkedList.ConstIterator.minus jt (-(m : Int)) : M (LinkedList α) _))
          = LinkedList.ConstIterator.decrementTimes m := by
      funext jt
      simp only [LinkedList.ConstIterator.minus, hna, toInt32_small m h31, if_neg hneg]
    rw [e2]
    exact ⟨b5, b6⟩

/-- Witness of C19: the step `-1` from `begin() + 1` on the vector
`{1, 2, 3, 4, 5}` and on the ring holding the same values. -/
theorem C19_signed_steps_witness :
    (∃ it, Vector.position (1 - (-1 : Int).natAbs) (Vector.ofList 1 [(1 : Int), 2, 3, 4, 5])
        = Res.ok it (Vector.ofList 1 [(1 : Int), 2, 3, 4, 5]) ∧
      (Vector.position 1 >>= fun it => Vector.ConstIterator.plus it (-1))
          (Vector.ofList 1 [(1 : Int), 2, 3, 4, 5])
        = Res.ok it (Vector.ofList 1 [(1 : Int), 2, 3, 4, 5])) ∧
    (∃ jt, LinkedList.position (1 + (-1 : Int).natAbs) LinkedList.example12345
        = Res.ok jt LinkedList.example12345 ∧
      (LinkedList.position 1 >>= fun it => LinkedList.ConstIterator.plus it (-1))
          LinkedList.example12345
        = Res.ok jt LinkedList.example12345) :=
  have h := (C19_signed_steps (Vector.ofList 1 [(1 : Int), 2, 3, 4, 5]) LinkedList.example12345
    [1, 2, 3, 4, 5] 1 (-1) (Vector.vec_ofList_holds 1 (by decide) _)
    LinkedList.example12345_holds (by decide) (by norm_num) (by norm_num) (by norm_num)).2
    (by decide)
  ⟨h.1 (by decide), h.2.2.2.1 (by decide)⟩

/-- Counterexample to C19 as stated: from `begin() + 1` on the vector
`{1, 2, 3, 4, 5}` and on the ring holding the same values, the step `-1`
neither throws in both nor reaches the same position: the vector returns
`begin() + 0`, the list `begin() + 2`. -/
theorem C19_signed_steps_counterexample :
    ¬ SameOutcome 5 (Vector.ofList 1 [(1 : Int), 2, 3, 4, 5]) LinkedList.example12345
      ((Vector.position 1 >>= fun it => Vector.ConstIterator.plus it (-1))
        (Vector.ofList 1 [(1 : Int), 2, 3, 4, 5]))
      ((LinkedList.position 1 >>= fun it => LinkedList.ConstIterator.plus it (-1))
        LinkedList.example12345) := by
  have ev : (Vector.position 1 >>= fun it => Vector.ConstIterator.plus it (-1))
      (Vector.ofList 1 [(1 : Int), 2, 3, 4, 5])
      = Res.ok ⟨1, 0⟩ (Vector.ofList 1 [(1 : Int), 2, 3, 4, 5]) := by rfl
  have el : (LinkedList.position 1 >>= fun it => LinkedList.ConstIterator.plus it (-1))
      LinkedList.example12345 = Res.ok ⟨100, 4⟩ LinkedList.example12345 := by rfl
  rw [ev, el]
  rintro (⟨h, _⟩ | ⟨k, it, jt, hk, h1, h2, h3, h4⟩)
  · cases h
  · have hp := Vector.vec_position_run (Vector.ofList 1 [(1 : Int), 2, 3, 4, 5]) k hk
      (by simp [Vector.ofList, SIZE_MOD])
    rw [hp] at h1
    cases h2
    injection h1 with h5 _
    injection h5 with _ h6
    have hk0 : k = 0 := h6
    subst hk0
    have e0 : LinkedList.position 0 LinkedList.example12345
        = Res.ok ⟨100, 2⟩ LinkedList.example12345 := by rfl
    rw [e0] at h3
    cases h4
    injection h3 with h7 _
    exact absurd h7 (by decide)

/-- C20 (the code departs from the claim). `Vector` copy assignment `a = b`
of distinct vectors, `a` holding `s` and `b` holding `t`: when `a` is at least
as long as `b` the call returns and `a` holds `t` with `getSize()` that of `b`;
when `a` is shorter than `b` (`a` empty included) the checked write through
`begin()` throws `out_of_range` at index `a.getSize()`, and `a` is left with
its old size over the first elements of `t`. -/
theorem C20_vector_copy_assign [Inhabited α] (a b : Vector α) (s t : List α) (ha : a.Holds s)
    (hb : b.Holds t) (hne : a.addr ≠ b.addr) (hn : t.length < SIZE_MOD) :
    (t.length ≤ s.length →
      ∃ a1, Vector.copyAssign b a = Res.ok () a1 ∧ a1.Holds t ∧ a1.getSize = b.getSize) ∧
    (s.length < t.length →
      ∃ a1, Vector.copyAssign b a = Res.throw Exception.out_of_range a1
        ∧ a1.getSize = s.length ∧ a1.toList = t.take s.length) := by
  have hsz := Vector.vec_holds_size ha
  constructor
  · intro hle
    obtain ⟨a1, h1, h2, _, _⟩ := Vector.copyAssign_spec a b t hb ha.1.1 hne (by omega) hn
    refine ⟨a1, h1, h2, ?_⟩
    simp only [Vector.getSize]
    rw [Vector.vec_holds_size h2, Vector.vec_holds_size hb]
  · intro hlt
    obtain ⟨a1, h1, h2, _, h4⟩ := Vector.copyAssign_throw a b t hb ha.1.1 hne (by omega) hn
    refine ⟨a1, h1, ?_, ?_⟩
    · simp only [Vector.getSize]; omega
    · rw [h4, hsz]

/-- Witness of C20: the failing input, the default-constructed vector at
address 1 assigned from the vector `{7}` at address 2; the call throws. -/
theorem C20_vector_copy_assign_witness :
    ∃ a1, Vector.copyAssign (Vector.ofList 2 [(7 : Int)]) (Vector.empty 1)
        = Res.throw Exception.out_of_range a1
      ∧ a1.getSize = 0 ∧ a1.toList = [] :=
  (C20_vector_copy_assign (Vector.empty 1) (Vector.ofList 2 [7]) [] [7]
    (Vector.empty_holds 1 (by decide)) (Vector.vec_ofList_holds 2 (by decide) _) (by decide)
    (by simp [SIZE_MOD])).2 (by decide)

end claims2

end aisdi
